import Mathlib

/-!
# Range-minimum-query structures (cs1d-a4)

A shallow embedding of the four RMQ structures of `src/A4`
(`SegmentTreeRMQ`, `PrecomputedRMQ`, `SparseTableRMQ`, `HybridRMQ`) and of
`addCommasTo` of `RunTests.cpp`, and theorems about them.

Modelling conventions.

* `RMQEntry` wraps a `std::int32_t` that is only ever compared; it is an `Int`.
* The array `elems` is a `List RMQEntry`; the length `numElems` is passed
  separately, as in the source.
* `std::size_t` values are natural numbers.  Additions stay below `2^64`
  because every index is bounded by `numElems`.  The subtraction
  `numElems - 1` of the `PrecomputedRMQ` constructor is reachable with
  `numElems = 0` and is modelled with its wrap-around modulo `2^64`; the other
  subtractions cannot underflow on the documented domain of the functions
  (`low < high`, bounds in range) and are truncated subtractions.
* The shift `1 << i` of the `SparseTableRMQ` sources is an `int` shift
  (`shiftOne`): `2 ^ i` for `i ≤ 30`, `INT_MIN` for `i = 31`, undefined for
  `i ≥ 32`.  Where it is added to or subtracted from a `std::size_t` it is
  first converted to `std::size_t`, and the sum or difference is taken modulo
  `2^64` (`sizeAdd`, `sizeSub`).
* `round(sqrt(numElems))` is the integer nearest to the real square root
  (`roundSqrt`), the value of the `double` computation for `numElems < 2^50`.
* Undefined behaviour (reading a vector or the array out of bounds,
  dereferencing a null node, dividing by zero, shifting an `int` by its
  width or more) is the result `none`.
* A C++ loop `for (i = lo; i < hi; i = i + 1)` whose body does not assign `i`
  is `forLoop lo hi body`, running the body `hi - lo` times.
* The `std::string` of `addCommasTo` is a list of characters, `'0' + d` is
  `Char.ofNat (48 + d)`, and its integer argument is an `Int`.
-/

namespace RMQ

/-- The element type of the arrays: `RMQEntry` wraps an `int32_t`, compared by value. -/
abbrev RMQEntry := Int

/-- The comparison `elems[a] < elems[b]` of the sources; `none` when an index is
outside the array. -/
def entryLt (elems : List RMQEntry) (a b : Nat) : Option Bool :=
  match elems[a]?, elems[b]? with
  | some x, some y => some (decide (x < y))
  | _, _ => none

/-- The body of a counted loop run `k` times from index `i`; a failing body stops it. -/
def loopN {σ : Type} : Nat → Nat → (Nat → σ → Option σ) → σ → Option σ
  | 0, _, _, s => some s
  | k + 1, i, body, s =>
    match body i s with
    | none => none
    | some s' => loopN k (i + 1) body s'

/-- The loop `for (i = lo; i < hi; i = i + 1) body`. -/
def forLoop {σ : Type} (lo hi : Nat) (body : Nat → σ → Option σ) (s : σ) : Option σ :=
  loopN (hi - lo) lo body s

/-- The read `indexVector[r][c]` of a vector of vectors. -/
def at2 (iv : List (List Nat)) (r c : Nat) : Option Nat :=
  match iv[r]? with
  | some row => row[c]?
  | none => none

/-- The update `indexVector[r].emplace_back(x)`. -/
def pushAt (iv : List (List Nat)) (r x : Nat) : Option (List (List Nat)) :=
  match iv[r]? with
  | some row => some (iv.set r (row ++ [x]))
  | none => none

/-! ## SegmentTreeRMQ -/

/-- A `Node*`: the null pointer, or a node with its bounds, cached minimum index
and two children. -/
inductive Node where
  | null : Node
  | node (low high minIndex : Nat) (left right : Node) : Node
  deriving DecidableEq

/-- The read `tree->minIndex`. -/
def Node.minIndex? : Node → Option Nat
  | Node.null => none
  | Node.node _ _ m _ _ => some m

/-- `SegmentTreeRMQ::makeTree`.  The constructor calls it with `low ≤ high` and
the recursion keeps that; a call with `high < low` has no result. -/
def makeTree (elems : List RMQEntry) (low high : Nat) : Option Node :=
  if _h1 : low = high then some Node.null
  else if _h2 : low + 1 = high then some (Node.node low high low Node.null Node.null)
  else if _h3 : high < low then none
  else
    let mid := low + (high - low) / 2
    match makeTree elems low mid, makeTree elems mid high with
    | some left, some right =>
      match left.minIndex?, right.minIndex? with
      | some lm, some rm =>
        match entryLt elems lm rm with
        | some c => some (Node.node low high (if c then lm else rm) left right)
        | none => none
      | _, _ => none
    | _, _ => none
termination_by high - low
decreasing_by
  all_goals simp_wf
  all_goals omega

/-- `SegmentTreeRMQ::rmqRec`. -/
def rmqRec (elems : List RMQEntry) : Node → Nat → Nat → Option Nat
  | Node.null, _, _ => none
  | Node.node tl th tm left right, low, high =>
    if tl = low ∧ th = high then some tm
    else
      let mid := tl + (th - tl) / 2
      if high ≤ mid then rmqRec elems left low high
      else if low ≥ mid then rmqRec elems right low high
      else
        match rmqRec elems left low mid, rmqRec elems right mid high with
        | some l, some r =>
          match entryLt elems l r with
          | some c => some (if c then l else r)
          | none => none
        | _, _ => none

/-- The state of a `SegmentTreeRMQ` object. -/
structure SegmentTreeRMQ where
  root : Node
  elems : List RMQEntry
  deriving DecidableEq

/-- The constructor `SegmentTreeRMQ::SegmentTreeRMQ`. -/
def SegmentTreeRMQ.build (elems : List RMQEntry) (numElems : Nat) : Option SegmentTreeRMQ :=
  match makeTree elems 0 numElems with
  | some t => some ⟨t, elems⟩
  | none => none

/-- `SegmentTreeRMQ::rmq`. -/
def SegmentTreeRMQ.rmq (t : SegmentTreeRMQ) (low high : Nat) : Option Nat :=
  rmqRec t.elems t.root low high

/-! ## PrecomputedRMQ -/

/-- The state of a `PrecomputedRMQ` object. -/
structure PrecomputedRMQ where
  indexVector : List (List Nat)
  deriving DecidableEq

/-- One row of the first construction loop: `r` fillers `600`, then `r`. -/
def PrecomputedRMQ.initRow (r : Nat) : Option (List Nat) :=
  match forLoop 0 r (fun _ row => some (row ++ [600])) [] with
  | some row => some (row ++ [r])
  | none => none

/-- The first construction loop: one row per element. -/
def PrecomputedRMQ.initTable (numElems : Nat) : Option (List (List Nat)) :=
  forLoop 0 numElems
    (fun r iv =>
      match PrecomputedRMQ.initRow r with
      | some row => some (iv ++ [row])
      | none => none) []

/-- The value `numElems - 1` in `std::size_t` arithmetic. -/
def PrecomputedRMQ.numElems_SubOne (numElems : Nat) : Nat :=
  (numElems + 2 ^ 64 - 1) % 2 ^ 64

/-- The body of the inner loop over `j`, on the state `(indexVector, safe)`. -/
def PrecomputedRMQ.fillStep (elems : List RMQEntry) (j : Nat)
    (st : List (List Nat) × Nat) : Option (List (List Nat) × Nat) :=
  match at2 st.1 st.2 j, at2 st.1 (st.2 + 1) (j + 1) with
  | some a, some b =>
    match entryLt elems a b with
    | some c =>
      match pushAt st.1 st.2 (if c then a else b) with
      | some iv => some (iv, st.2 + 1)
      | none => none
    | none => none
  | _, _ => none

/-- The body of the outer loop over `i` of the second construction loop;
`numElems_SubOne` is the local variable of the constructor. -/
def PrecomputedRMQ.fillPass (elems : List RMQEntry) (numElems_SubOne : Nat) (i : Nat)
    (iv : List (List Nat)) : Option (List (List Nat)) :=
  match forLoop i numElems_SubOne (PrecomputedRMQ.fillStep elems) (iv, 0) with
  | some st => some st.1
  | none => none

/-- The second construction loop, over `i < numElems_SubOne`. -/
def PrecomputedRMQ.fillTable (elems : List RMQEntry) (numElems_SubOne : Nat)
    (iv : List (List Nat)) : Option (List (List Nat)) :=
  forLoop 0 numElems_SubOne (PrecomputedRMQ.fillPass elems numElems_SubOne) iv

/-- The constructor `PrecomputedRMQ::PrecomputedRMQ`. -/
def PrecomputedRMQ.build (elems : List RMQEntry) (numElems : Nat) : Option PrecomputedRMQ :=
  match PrecomputedRMQ.initTable numElems with
  | none => none
  | some iv0 =>
    match PrecomputedRMQ.fillTable elems (PrecomputedRMQ.numElems_SubOne numElems) iv0 with
    | some iv => some ⟨iv⟩
    | none => none

/-- `PrecomputedRMQ::rmq`. -/
def PrecomputedRMQ.rmq (t : PrecomputedRMQ) (low high : Nat) : Option Nat :=
  at2 t.indexVector low (high - 1)

/-! ## SparseTableRMQ -/

/-- The state of a `SparseTableRMQ` object. -/
structure SparseTableRMQ where
  indexVector : List (List Nat)
  array : List RMQEntry
  logTable : List Nat
  deriving DecidableEq

/-- The log table: `[0, 0]`, then `logTable[i/2] + 1` for `2 ≤ i < numElems`. -/
def SparseTableRMQ.buildLogTable (numElems : Nat) : Option (List Nat) :=
  forLoop 2 numElems
    (fun i lt =>
      match lt[i / 2]? with
      | some v => some (lt ++ [v + 1])
      | none => none) [0, 0]

/-- The `int` expression `1 << i`, as the `std::size_t` value it is converted to in
`j + (1 << i)` and `high - (1 << i)`: `2 ^ i` for `i ≤ 30`; for `i = 31` the shift gives
`INT_MIN = -2^31` (the result on a two's-complement `int` of 32 bits, and the defined
one from C++20), which converts to `2^64 - 2^31`; a shift by `32` or more, the width of
`int`, is undefined. -/
def shiftOne (i : Nat) : Option Nat :=
  if i < 31 then some (2 ^ i)
  else if i = 31 then some (2 ^ 64 - 2 ^ 31)
  else none

/-- The sum `a + b` of two `std::size_t` values. -/
def sizeAdd (a b : Nat) : Nat := (a + b) % 2 ^ 64

/-- The difference `a - b` of two `std::size_t` values. -/
def sizeSub (a b : Nat) : Nat := (a + 2 ^ 64 - b) % 2 ^ 64

/-- The body of the loop over `j` building level `i` from level `i - 1`: it compares
`elems[indexVector[i-1][j]]` with `elems[indexVector[i-1][j + (1 << (i-1))]]`. -/
def SparseTableRMQ.levelStep (elems : List RMQEntry) (i j : Nat)
    (iv : List (List Nat)) : Option (List (List Nat)) :=
  match shiftOne (i - 1) with
  | none => none
  | some s =>
    match at2 iv (i - 1) j, at2 iv (i - 1) (sizeAdd j s) with
    | some a, some b =>
      match entryLt elems a b with
      | some c => pushAt iv i (if c then a else b)
      | none => none
    | _, _ => none

/-- The loop `for (j = 0; j + (1 << i) <= numElems; j = j + 1)` building level `i`.
With `s` the converted value of `1 << i` and `numElems < 2^64 - 1`, the sum `j + s`
does not wrap before the test fails: the test holds exactly for `j + s ≤ numElems`, so
the body runs `numElems + 1 - s` times, and not at all when `numElems < s`. -/
def SparseTableRMQ.levelLoop (elems : List RMQEntry) (numElems i : Nat)
    (iv : List (List Nat)) : Option (List (List Nat)) :=
  match shiftOne i with
  | none => none
  | some s => forLoop 0 (numElems + 1 - s) (SparseTableRMQ.levelStep elems i) iv

/-- The constructor `SparseTableRMQ::SparseTableRMQ`: the log table, one empty row for
each level `0, …, logTable.back()`, level `0`, then the levels `1 ≤ i < indexVector.size()`
by `levelLoop`. -/
def SparseTableRMQ.build (elems : List RMQEntry) (numElems : Nat) : Option SparseTableRMQ :=
  match SparseTableRMQ.buildLogTable numElems with
  | none => none
  | some logTable =>
    match logTable.getLast? with
    | none => none
    | some back =>
      match forLoop 0 (back + 1) (fun _ iv => some (iv ++ [[]])) [] with
      | none => none
      | some iv0 =>
        match forLoop 0 numElems (fun i iv => pushAt iv 0 i) iv0 with
        | none => none
        | some iv1 =>
          match forLoop 1 iv1.length (SparseTableRMQ.levelLoop elems numElems) iv1 with
          | none => none
          | some iv => some ⟨iv, elems, logTable⟩

/-- `SparseTableRMQ::rmq`; the positions `high - (1 << highLog)` and
`high - (1 << row)` are the same `std::size_t` value `sizeSub high s`, with `s` the
converted shift. -/
def SparseTableRMQ.rmq (t : SparseTableRMQ) (low high : Nat) : Option Nat :=
  let length := high - low
  match t.logTable[length - 1]? with
  | none => none
  | some row =>
    let highLog := row
    if 1 = length then at2 t.indexVector row low
    else
      match shiftOne highLog with
      | none => none
      | some s =>
        match at2 t.indexVector highLog low,
            at2 t.indexVector highLog (sizeSub high s) with
        | some a, some b =>
          match entryLt t.array a b with
          | some c => if c then some a else at2 t.indexVector highLog (sizeSub high s)
          | none => none
        | _, _ => none

/-! ## HybridRMQ -/

/-- The value of `round(sqrt(numElems))`: the integer nearest to the square root.
With `s = ⌊√n⌋`, the root is above `s + 1/2` exactly when `n > s * s + s`, and
it is never equal to `s + 1/2`. -/
def roundSqrt (n : Nat) : Nat :=
  if n - Nat.sqrt n * Nat.sqrt n > Nat.sqrt n then Nat.sqrt n + 1 else Nat.sqrt n

/-- The state of a `HybridRMQ` object. -/
structure HybridRMQ where
  summary : List Nat
  array : List RMQEntry
  blockSize : Nat
  deriving DecidableEq

/-- The state of the construction loop: `summary`, `count`, `smallest`. -/
structure HybridRMQ.BuildState where
  summary : List Nat
  count : Nat
  smallest : Nat
  deriving DecidableEq

/-- The body of the construction loop. -/
def HybridRMQ.buildStep (elems : List RMQEntry) (numElems blockSize : Nat) (i : Nat)
    (st : HybridRMQ.BuildState) : Option HybridRMQ.BuildState :=
  match entryLt elems i st.smallest with
  | none => none
  | some c =>
    let smallest := if c then i else st.smallest
    let count := st.count + 1
    if count = blockSize then some ⟨st.summary ++ [smallest], 0, i + 1⟩
    else if i = numElems - 1 then some ⟨st.summary ++ [smallest], count, smallest⟩
    else some ⟨st.summary, count, smallest⟩

/-- The constructor `HybridRMQ::HybridRMQ`; `numElems / blockSize` divides by
`blockSize`. -/
def HybridRMQ.build (elems : List RMQEntry) (numElems : Nat) : Option HybridRMQ :=
  let blockSize := roundSqrt numElems
  if blockSize = 0 then none
  else
    match forLoop 0 numElems (HybridRMQ.buildStep elems numElems blockSize) ⟨[], 0, 0⟩ with
    | none => none
    | some st => some ⟨st.summary, elems, blockSize⟩

/-- The body of the scans over array positions: `if (array[i] < array[smallest]) smallest = i`. -/
def HybridRMQ.scanStep (array : List RMQEntry) (i smallest : Nat) : Option Nat :=
  match entryLt array i smallest with
  | some c => some (if c then i else smallest)
  | none => none

/-- The body of the scan over the summary:
`if (array[summary[i]] < array[smallest]) smallest = summary[i]`. -/
def HybridRMQ.summaryStep (array : List RMQEntry) (summary : List Nat) (i smallest : Nat) :
    Option Nat :=
  match summary[i]? with
  | none => none
  | some m =>
    match entryLt array m smallest with
    | some c => some (if c then m else smallest)
    | none => none

/-- `HybridRMQ::rmq`; `low % blockSize` divides by `blockSize`. -/
def HybridRMQ.rmq (t : HybridRMQ) (low high : Nat) : Option Nat :=
  if t.blockSize = 0 then none
  else
    let blockSize := t.blockSize
    let lowBlock := (low - low % blockSize) / blockSize
    let highBlock := ((high - 1) - (high - 1) % blockSize) / blockSize
    let smallest := low
    if lowBlock = highBlock then
      forLoop low high (HybridRMQ.scanStep t.array) smallest
    else if highBlock = lowBlock + 1 then
      forLoop low high (HybridRMQ.scanStep t.array) smallest
    else
      match forLoop low ((low - low % blockSize) + blockSize)
          (HybridRMQ.scanStep t.array) smallest with
      | none => none
      | some s1 =>
        match forLoop ((low - low % blockSize + blockSize) / blockSize)
            ((high - high % blockSize) / blockSize)
            (HybridRMQ.summaryStep t.array t.summary) s1 with
        | none => none
        | some s2 =>
          forLoop ((high - 1) - (high - 1) % blockSize) high
            (HybridRMQ.scanStep t.array) s2

/-! ## The four queries on a freshly built structure -/

/-- Build a `SegmentTreeRMQ` over `elems` and query `[low, high)`. -/
def segmentTreeQuery (elems : List RMQEntry) (low high : Nat) : Option Nat :=
  match SegmentTreeRMQ.build elems elems.length with
  | some t => t.rmq low high
  | none => none

/-- Build a `PrecomputedRMQ` over `elems` and query `[low, high)`. -/
def precomputedQuery (elems : List RMQEntry) (low high : Nat) : Option Nat :=
  match PrecomputedRMQ.build elems elems.length with
  | some t => t.rmq low high
  | none => none

/-- Build a `SparseTableRMQ` over `elems` and query `[low, high)`. -/
def sparseTableQuery (elems : List RMQEntry) (low high : Nat) : Option Nat :=
  match SparseTableRMQ.build elems elems.length with
  | some t => t.rmq low high
  | none => none

/-- Build a `HybridRMQ` over `elems` and query `[low, high)`. -/
def hybridQuery (elems : List RMQEntry) (low high : Nat) : Option Nat :=
  match HybridRMQ.build elems elems.length with
  | some t => t.rmq low high
  | none => none

/-- The contract of a query: `i` lies in `[low, high)` and `elems[i]` is at most
every element of `elems` at a position of `[low, high)`. -/
def IsRangeMin (elems : List RMQEntry) (low high i : Nat) : Prop :=
  low ≤ i ∧ i < high ∧
    ∃ v, elems[i]? = some v ∧
      ∀ j, low ≤ j → j < high → ∃ w, elems[j]? = some w ∧ v ≤ w


/-! ## Invariants of the built structures -/

/-- The tree `t` is a segment tree over `[low, high)`: a leaf over one position,
or a node split at the midpoint whose cached index is a minimum of its range. -/
inductive TreeOver (elems : List RMQEntry) : Node → Nat → Nat → Prop
  | leaf (low : Nat) (h : low < elems.length) :
      TreeOver elems (Node.node low (low + 1) low Node.null Node.null) low (low + 1)
  | inner (low high m : Nat) (l r : Node) (hlt : low + 1 < high)
      (hl : TreeOver elems l low (low + (high - low) / 2))
      (hr : TreeOver elems r (low + (high - low) / 2) high)
      (hm : IsRangeMin elems low high m) :
      TreeOver elems (Node.node low high m l r) low high

/-- Row `s` of the table has `L s` entries, and its entry in column `c ≥ s` is a
minimum of `[s, c + 1)`. -/
def TableInv (elems : List RMQEntry) (n : Nat) (L : Nat → Nat) (iv : List (List Nat)) : Prop :=
  iv.length = n ∧
    ∀ s, s < n → ∃ row, iv[s]? = some row ∧ row.length = L s ∧
      ∀ c, s ≤ c → c < L s → ∃ x, row[c]? = some x ∧ IsRangeMin elems s (c + 1) x

/-- The row of level `k` has `len` entries, entry `j` being a minimum of `[j, j + 2^k)`. -/
def LevelInv (elems : List RMQEntry) (k : Nat) (row : List Nat) (len : Nat) : Prop :=
  row.length = len ∧
    ∀ j, j < len → ∃ x, row[j]? = some x ∧ IsRangeMin elems j (j + 2 ^ k) x

/-- The table while level `i` is being filled: the levels below `i` are complete,
level `i` has `j` entries, the levels above are empty. -/
def SparseInv (elems : List RMQEntry) (n K i j : Nat) (iv : List (List Nat)) : Prop :=
  iv.length = K + 1 ∧
    ∀ k, k ≤ K → ∃ row, iv[k]? = some row ∧
      LevelInv elems k row (if k < i then n + 1 - 2 ^ k else if k = i then j else 0)

/-- The log table of a structure over `n` elements: `max 2 n` entries, entry `L ≥ 1`
being `⌊log₂ L⌋` and entry `0` being `0`. -/
def LogTableInv (len : Nat) (lt : List Nat) : Prop :=
  lt.length = len ∧ ∀ L, L < len → lt[L]? = some (Nat.log 2 L)

/-- The number of the last level: `⌊log₂ (max 2 n - 1)⌋`. -/
def lastLevel (n : Nat) : Nat := Nat.log 2 (max 2 n - 1)

/-- The state of the construction loop before iteration `i`: `k` blocks of size
`b` are complete and `count` elements of block `k` have been read. -/
def BuildInv (elems : List RMQEntry) (n b i : Nat) (st : HybridRMQ.BuildState) : Prop :=
  ∃ k, k * b + st.count = i ∧ st.count < b ∧
    (if st.count = 0 then st.smallest = i else IsRangeMin elems (k * b) i st.smallest) ∧
    st.summary.length = (if i = n ∧ 0 < st.count then k + 1 else k) ∧
    ∀ j, j < st.summary.length →
      ∃ x, st.summary[j]? = some x ∧ IsRangeMin elems (j * b) (min ((j + 1) * b) n) x

/-- The summary of a structure over `n` elements with block size `b`. -/
def SummaryInv (elems : List RMQEntry) (n b : Nat) (summary : List Nat) : Prop :=
  summary.length = (n + b - 1) / b ∧
    ∀ j, j < (n + b - 1) / b →
      ∃ x, summary[j]? = some x ∧ IsRangeMin elems (j * b) (min ((j + 1) * b) n) x

/-! ## The level of a sparse-table query, the nodes and the calls of a segment tree -/

/-- The local variable `row` (also `highLog`) of `SparseTableRMQ::rmq`, the level
whose windows the query combines: `logTable[length - 1]` with `length = high - low`. -/
def SparseTableRMQ.selectedLevel (t : SparseTableRMQ) (low high : Nat) : Option Nat :=
  t.logTable[(high - low) - 1]?

/-- The nodes of a tree: the root and the nodes of its two subtrees. -/
def Node.nodes : Node → List Node
  | Node.null => []
  | Node.node low high m l r => Node.node low high m l r :: (l.nodes ++ r.nodes)

/-- The calls of `SegmentTreeRMQ::rmqRec` started by one call, as a tree: a call
on a null node, a call that returns the cached index, a call that recurses into
one child, or a call that recurses into both.  Each call records its node and
its range. -/
inductive CallTree where
  | null (low high : Nat) : CallTree
  | exact (t : Node) (low high : Nat) : CallTree
  | toLeft (t : Node) (low high : Nat) (sub : CallTree) : CallTree
  | toRight (t : Node) (low high : Nat) (sub : CallTree) : CallTree
  | both (t : Node) (low high : Nat) (l r : CallTree) : CallTree
  deriving DecidableEq

/-- The calls made by `rmqRec(tree, low, high)`, following the branches of
`SegmentTreeRMQ::rmqRec`. -/
def rmqRecCalls : Node → Nat → Nat → CallTree
  | Node.null, low, high => CallTree.null low high
  | Node.node tl th tm left right, low, high =>
    if tl = low ∧ th = high then CallTree.exact (Node.node tl th tm left right) low high
    else
      let mid := tl + (th - tl) / 2
      if high ≤ mid then
        CallTree.toLeft (Node.node tl th tm left right) low high (rmqRecCalls left low high)
      else if low ≥ mid then
        CallTree.toRight (Node.node tl th tm left right) low high (rmqRecCalls right low high)
      else
        CallTree.both (Node.node tl th tm left right) low high
          (rmqRecCalls left low mid) (rmqRecCalls right mid high)

/-- The arguments `(tree, low, high)` of a call. -/
def CallTree.args : CallTree → Node × Nat × Nat
  | CallTree.null low high => (Node.null, low, high)
  | CallTree.exact t low high => (t, low, high)
  | CallTree.toLeft t low high _ => (t, low, high)
  | CallTree.toRight t low high _ => (t, low, high)
  | CallTree.both t low high _ _ => (t, low, high)

/-- The recursive calls a call issues itself, in order. -/
def CallTree.subcalls : CallTree → List CallTree
  | CallTree.null _ _ => []
  | CallTree.exact _ _ _ => []
  | CallTree.toLeft _ _ _ sub => [sub]
  | CallTree.toRight _ _ _ sub => [sub]
  | CallTree.both _ _ _ l r => [l, r]

/-- The value a call returns, computed from the values of its recursive calls. -/
def CallTree.result (elems : List RMQEntry) : CallTree → Option Nat
  | CallTree.null _ _ => none
  | CallTree.exact t _ _ => t.minIndex?
  | CallTree.toLeft _ _ _ sub => sub.result elems
  | CallTree.toRight _ _ _ sub => sub.result elems
  | CallTree.both _ _ _ l r =>
    match l.result elems, r.result elems with
    | some a, some b =>
      match entryLt elems a b with
      | some c => some (if c then a else b)
      | none => none
    | _, _ => none

/-- The call asks for the whole range of its node and is the terminal case, which
returns the cached index and issues no call. -/
def CallTree.IsExact (c : CallTree) : Prop :=
  ∃ lo hi m l r, c = CallTree.exact (Node.node lo hi m l r) lo hi

/-- The call is exact, or issues one call, or issues two calls one of which is exact. -/
def CallTree.OneEffective (c : CallTree) : Prop :=
  c.IsExact ∨ (∃ s, c.subcalls = [s]) ∨
    ∃ l r, c.subcalls = [l, r] ∧ (l.IsExact ∨ r.IsExact)

/-- All the calls of a call tree: the call itself, then the calls below it. -/
def CallTree.calls : CallTree → List CallTree
  | CallTree.null low high => [CallTree.null low high]
  | CallTree.exact t low high => [CallTree.exact t low high]
  | CallTree.toLeft t low high sub => CallTree.toLeft t low high sub :: sub.calls
  | CallTree.toRight t low high sub => CallTree.toRight t low high sub :: sub.calls
  | CallTree.both t low high l r => CallTree.both t low high l r :: (l.calls ++ r.calls)

/-- The calls made after the first call that issues two recursive calls: all the
calls below that call; none when no call issues two. -/
def CallTree.belowFirstTwo : CallTree → List CallTree
  | CallTree.null _ _ => []
  | CallTree.exact _ _ _ => []
  | CallTree.toLeft _ _ _ sub => sub.belowFirstTwo
  | CallTree.toRight _ _ _ sub => sub.belowFirstTwo
  | CallTree.both _ _ _ l r => l.calls ++ r.calls

/-! ## The size of a segment tree -/

/-- The number of levels of a tree: the number of nodes on a longest path from the
root downwards. -/
def Node.levels : Node → Nat
  | Node.null => 0
  | Node.node _ _ _ l r => 1 + max l.levels r.levels

/-- The height of a tree: the number of edges on a longest path from the root to a
leaf. -/
def Node.height (t : Node) : Nat := t.levels - 1

/-- The leaves of a tree, from left to right: the nodes without children. -/
def Node.leaves : Node → List Node
  | Node.null => []
  | Node.node low high m l r =>
    if l = Node.null ∧ r = Node.null then [Node.node low high m l r]
    else l.leaves ++ r.leaves

/-! ## The loop iterations of a hybrid query -/

/-- One loop iteration of `HybridRMQ::rmq`, each making one comparison of elements:
`scan i` compares `array[i]` with `array[smallest]`; `block i` reads `summary[i]` and
compares `array[summary[i]]` with `array[smallest]`. -/
inductive HybridRMQ.Event where
  | scan (i : Nat) : HybridRMQ.Event
  | block (i : Nat) : HybridRMQ.Event
  deriving DecidableEq

/-- A loop body that also appends the event of its iteration to a log. -/
def withLog {σ ε : Type} (body : Nat → σ → Option σ) (ev : Nat → ε) (i : Nat)
    (st : σ × List ε) : Option (σ × List ε) :=
  match body i st.1 with
  | some s => some (s, st.2 ++ [ev i])
  | none => none

/-- `HybridRMQ::rmq` returning, with its result, the log of its loop iterations. -/
def HybridRMQ.rmqLog (t : HybridRMQ) (low high : Nat) :
    Option (Nat × List HybridRMQ.Event) :=
  if t.blockSize = 0 then none
  else
    let blockSize := t.blockSize
    let lowBlock := (low - low % blockSize) / blockSize
    let highBlock := ((high - 1) - (high - 1) % blockSize) / blockSize
    let smallest := low
    if lowBlock = highBlock then
      forLoop low high (withLog (HybridRMQ.scanStep t.array) HybridRMQ.Event.scan)
        (smallest, [])
    else if highBlock = lowBlock + 1 then
      forLoop low high (withLog (HybridRMQ.scanStep t.array) HybridRMQ.Event.scan)
        (smallest, [])
    else
      match forLoop low ((low - low % blockSize) + blockSize)
          (withLog (HybridRMQ.scanStep t.array) HybridRMQ.Event.scan) (smallest, []) with
      | none => none
      | some s1 =>
        match forLoop ((low - low % blockSize + blockSize) / blockSize)
            ((high - high % blockSize) / blockSize)
            (withLog (HybridRMQ.summaryStep t.array t.summary) HybridRMQ.Event.block)
            s1 with
        | none => none
        | some s2 =>
          forLoop ((high - 1) - (high - 1) % blockSize) high
            (withLog (HybridRMQ.scanStep t.array) HybridRMQ.Event.scan) s2

/-- The indices of the summary entries read in a log, in order. -/
def HybridRMQ.blocksOf (log : List HybridRMQ.Event) : List Nat :=
  log.filterMap
    (fun e =>
      match e with
      | HybridRMQ.Event.block i => some i
      | HybridRMQ.Event.scan _ => none)

/-! ## RunTests: numbers with commas -/

/-- The loop of `addCommasTo`: while `n >= 10`, append the character `'0' + n % 10` to
`result`, divide `n` by ten, and append a comma when `i % 3 == 2`; `i` counts the
iterations. It returns the last `n` and `result`. -/
def addCommasLoop (n i : Nat) (result : List Char) : Nat × List Char :=
  if _h : n ≥ 10 then
    let result1 := result ++ [Char.ofNat (48 + n % 10)]
    addCommasLoop (n / 10) (i + 1) (if i % 3 = 2 then result1 ++ [','] else result1)
  else (n, result)
termination_by n
decreasing_by omega

/-- The part of `addCommasTo` for `n >= 0`: the loop from `i = 0` with an empty `result`,
then the first digit `'0' + n` is appended and `result` is reversed. -/
def addCommasNat (n : Nat) : String :=
  let st := addCommasLoop n 0 []
  String.mk (st.2 ++ [Char.ofNat (48 + st.1)]).reverse

/-- `addCommasTo(n)`: a negative `n` gives `"-"` followed by the result for `-n`. -/
def addCommasTo (n : Int) : String :=
  if n < 0 then "-" ++ addCommasNat (-n).toNat else addCommasNat n.toNat

/-! ## Invariants of the built structures with the side of the ties -/

/-- The rightmost minimum: `i` lies in `[low, high)`, `elems[i]` is at most every element
at a position of `[low, high)`, and strictly below every element at a later position of
the range. -/
def IsLastMin (elems : List RMQEntry) (low high i : Nat) : Prop :=
  low ≤ i ∧ i < high ∧
    ∃ v, elems[i]? = some v ∧
      ∀ j, low ≤ j → j < high → ∃ w, elems[j]? = some w ∧ v ≤ w ∧ (i < j → v < w)

/-- The leftmost minimum: `i` lies in `[low, high)`, `elems[i]` is at most every element
at a position of `[low, high)`, and strictly below every element at an earlier position of
the range. -/
def IsFirstMin (elems : List RMQEntry) (low high i : Nat) : Prop :=
  low ≤ i ∧ i < high ∧
    ∃ v, elems[i]? = some v ∧
      ∀ j, low ≤ j → j < high → ∃ w, elems[j]? = some w ∧ v ≤ w ∧ (j < i → v < w)

/-- The tree `t` is a segment tree over `[low, high)` whose cached indices are the
rightmost minima of their ranges. -/
inductive TreeOverLast (elems : List RMQEntry) : Node → Nat → Nat → Prop
  | leaf (low : Nat) (h : low < elems.length) :
      TreeOverLast elems (Node.node low (low + 1) low Node.null Node.null) low (low + 1)
  | inner (low high m : Nat) (l r : Node) (hlt : low + 1 < high)
      (hl : TreeOverLast elems l low (low + (high - low) / 2))
      (hr : TreeOverLast elems r (low + (high - low) / 2) high)
      (hm : IsLastMin elems low high m) :
      TreeOverLast elems (Node.node low high m l r) low high

/-- Row `s` of the table has `L s` entries, and its entry in column `c ≥ s` is the
rightmost minimum of `[s, c + 1)`. -/
def TableInvLast (elems : List RMQEntry) (n : Nat) (L : Nat → Nat) (iv : List (List Nat)) :
    Prop :=
  iv.length = n ∧
    ∀ s, s < n → ∃ row, iv[s]? = some row ∧ row.length = L s ∧
      ∀ c, s ≤ c → c < L s → ∃ x, row[c]? = some x ∧ IsLastMin elems s (c + 1) x

/-- The row of level `k` has `len` entries, entry `j` being the rightmost minimum of
`[j, j + 2^k)`. -/
def LevelInvLast (elems : List RMQEntry) (k : Nat) (row : List Nat) (len : Nat) : Prop :=
  row.length = len ∧
    ∀ j, j < len → ∃ x, row[j]? = some x ∧ IsLastMin elems j (j + 2 ^ k) x

/-- The table while level `i` is being filled, with rightmost minima: the levels below
`i` are complete, level `i` has `j` entries, the levels above are empty. -/
def SparseInvLast (elems : List RMQEntry) (n K i j : Nat) (iv : List (List Nat)) : Prop :=
  iv.length = K + 1 ∧
    ∀ k, k ≤ K → ∃ row, iv[k]? = some row ∧
      LevelInvLast elems k row (if k < i then n + 1 - 2 ^ k else if k = i then j else 0)

/-- The state of the construction loop before iteration `i`, with leftmost minima: `k`
blocks of size `b` are complete and `count` elements of block `k` have been read. -/
def BuildInvFirst (elems : List RMQEntry) (n b i : Nat) (st : HybridRMQ.BuildState) : Prop :=
  ∃ k, k * b + st.count = i ∧ st.count < b ∧
    (if st.count = 0 then st.smallest = i else IsFirstMin elems (k * b) i st.smallest) ∧
    st.summary.length = (if i = n ∧ 0 < st.count then k + 1 else k) ∧
    ∀ j, j < st.summary.length →
      ∃ x, st.summary[j]? = some x ∧ IsFirstMin elems (j * b) (min ((j + 1) * b) n) x

/-- The summary of a structure over `n` elements with block size `b`, with leftmost
minima. -/
def SummaryInvFirst (elems : List RMQEntry) (n b : Nat) (summary : List Nat) : Prop :=
  summary.length = (n + b - 1) / b ∧
    ∀ j, j < (n + b - 1) / b →
      ∃ x, summary[j]? = some x ∧ IsFirstMin elems (j * b) (min ((j + 1) * b) n) x

/-! # Theorems -/

/-! ## Loops -/

theorem loopN_inv {σ : Type} (body : Nat → σ → Option σ) (P : Nat → σ → Prop) :
    ∀ (k i : Nat) (s : σ), P i s →
      (∀ j t, i ≤ j → j < i + k → P j t → ∃ t', body j t = some t' ∧ P (j + 1) t') →
      ∃ s', loopN k i body s = some s' ∧ P (i + k) s' := by
  intro k
  induction k with
  | zero => intro i s h0 _; exact ⟨s, rfl, by simpa using h0⟩
  | succ k ih =>
    intro i s h0 hstep
    obtain ⟨t, ht, hP⟩ := hstep i s (Nat.le_refl i) (by omega) h0
    obtain ⟨s', hs', hP'⟩ := ih (i + 1) t hP (fun j u hj1 hj2 hu => hstep j u (by omega) (by omega) hu)
    refine ⟨s', ?_, ?_⟩
    · simp only [loopN, ht]; exact hs'
    · have : i + (k + 1) = i + 1 + k := by omega
      rw [this]; exact hP'

theorem forLoop_inv {σ : Type} (body : Nat → σ → Option σ) (P : Nat → σ → Prop)
    (lo hi : Nat) (s : σ) (hle : lo ≤ hi) (h0 : P lo s)
    (hstep : ∀ j t, lo ≤ j → j < hi → P j t → ∃ t', body j t = some t' ∧ P (j + 1) t') :
    ∃ s', forLoop lo hi body s = some s' ∧ P hi s' := by
  obtain ⟨s', h1, h2⟩ := loopN_inv body P (hi - lo) lo s h0
    (fun j t hj1 hj2 ht => hstep j t hj1 (by omega) ht)
  refine ⟨s', h1, ?_⟩
  have : lo + (hi - lo) = hi := by omega
  rw [this] at h2; exact h2

theorem forLoop_empty {σ : Type} (body : Nat → σ → Option σ) (lo hi : Nat) (s : σ)
    (h : hi ≤ lo) : forLoop lo hi body s = some s := by
  have : hi - lo = 0 := by omega
  simp [forLoop, this, loopN]

/-! ## Range minima -/

theorem isRangeMin_single (elems : List RMQEntry) (i : Nat) (h : i < elems.length) :
    IsRangeMin elems i (i + 1) i := by
  refine ⟨Nat.le_refl i, Nat.lt_succ_self i, elems[i], List.getElem?_eq_getElem h, ?_⟩
  intro j h1 h2
  have : j = i := by omega
  subst this
  exact ⟨elems[j], List.getElem?_eq_getElem h, le_refl _⟩

theorem isRangeMin_combine {elems : List RMQEntry} {l1 h1 l2 h2 l h a b : Nat}
    (ha : IsRangeMin elems l1 h1 a) (hb : IsRangeMin elems l2 h2 b)
    (hl1 : l ≤ l1) (hh1 : h1 ≤ h) (hl2 : l ≤ l2) (hh2 : h2 ≤ h)
    (hcov : ∀ j, l ≤ j → j < h → (l1 ≤ j ∧ j < h1) ∨ (l2 ≤ j ∧ j < h2)) :
    ∃ c, entryLt elems a b = some c ∧ IsRangeMin elems l h (if c then a else b) := by
  obtain ⟨ha1, ha2, va, hva, hamin⟩ := ha
  obtain ⟨hb1, hb2, vb, hvb, hbmin⟩ := hb
  refine ⟨decide (va < vb), by simp [entryLt, hva, hvb], ?_⟩
  by_cases hlt : va < vb
  · simp only [hlt, decide_True, if_true]
    refine ⟨by omega, by omega, va, hva, ?_⟩
    intro j hj1 hj2
    rcases hcov j hj1 hj2 with ⟨h3, h4⟩ | ⟨h3, h4⟩
    · exact hamin j h3 h4
    · obtain ⟨w, hw, hle⟩ := hbmin j h3 h4
      exact ⟨w, hw, le_trans (le_of_lt hlt) hle⟩
  · simp only [hlt, decide_False, Bool.false_eq_true, if_false]
    refine ⟨by omega, by omega, vb, hvb, ?_⟩
    intro j hj1 hj2
    rcases hcov j hj1 hj2 with ⟨h3, h4⟩ | ⟨h3, h4⟩
    · obtain ⟨w, hw, hle⟩ := hamin j h3 h4
      exact ⟨w, hw, le_trans (not_lt.mp hlt) hle⟩
    · exact hbmin j h3 h4

/-! ## SegmentTreeRMQ: the tree invariant -/

theorem treeOver_minIndex {elems : List RMQEntry} {t : Node} {low high : Nat}
    (h : TreeOver elems t low high) :
    ∃ m, t.minIndex? = some m ∧ IsRangeMin elems low high m := by
  cases h with
  | leaf low h => exact ⟨low, rfl, isRangeMin_single _ _ h⟩
  | inner low high m l r hlt hl hr hm => exact ⟨m, rfl, hm⟩

theorem makeTree_treeOver (elems : List RMQEntry) :
    ∀ (d low high : Nat), high - low = d → low < high → high ≤ elems.length →
      ∃ t, makeTree elems low high = some t ∧ TreeOver elems t low high := by
  intro d
  induction d using Nat.strong_induction_on with
  | _ d ih =>
    intro low high hd hlt hle
    by_cases h2 : low + 1 = high
    · subst h2
      refine ⟨_, ?_, TreeOver.leaf low (by omega)⟩
      rw [makeTree]; simp
    · have h1 : low ≠ high := by omega
      have h3 : ¬ high < low := by omega
      obtain ⟨tl, htl, hwl⟩ := ih ((low + (high - low) / 2) - low) (by omega) low
        (low + (high - low) / 2) rfl (by omega) (by omega)
      obtain ⟨tr, htr, hwr⟩ := ih (high - (low + (high - low) / 2)) (by omega)
        (low + (high - low) / 2) high rfl (by omega) hle
      obtain ⟨lm, hlm, hlmin⟩ := treeOver_minIndex hwl
      obtain ⟨rm, hrm, hrmin⟩ := treeOver_minIndex hwr
      obtain ⟨c, hc, hmin⟩ := isRangeMin_combine (l := low) (h := high) hlmin hrmin
        (Nat.le_refl _) (by omega) (by omega) (Nat.le_refl _) (fun j _ _ => by omega)
      refine ⟨Node.node low high (if c then lm else rm) tl tr, ?_,
        TreeOver.inner low high _ tl tr (by omega) hwl hwr hmin⟩
      rw [makeTree]
      simp [h1, h2, h3, htl, htr, hlm, hrm, hc]

theorem rmqRec_isRangeMin {elems : List RMQEntry} {t : Node} {tl th : Nat}
    (ht : TreeOver elems t tl th) :
    ∀ low high, tl ≤ low → low < high → high ≤ th →
      ∃ i, rmqRec elems t low high = some i ∧ IsRangeMin elems low high i := by
  induction ht with
  | leaf tl h =>
    intro low high h1 h2 h3
    have e1 : low = tl := by omega
    have e2 : high = tl + 1 := by omega
    subst e1 e2
    exact ⟨low, by simp [rmqRec], isRangeMin_single _ _ h⟩
  | inner tl th m l r hlt hl hr hm ihl ihr =>
    intro low high h1 h2 h3
    by_cases hex : tl = low ∧ th = high
    · obtain ⟨e1, e2⟩ := hex
      subst e1 e2
      exact ⟨m, by simp [rmqRec], hm⟩
    · by_cases hL : high ≤ tl + (th - tl) / 2
      · obtain ⟨i, hi, hmin⟩ := ihl low high h1 h2 hL
        exact ⟨i, by simp [rmqRec, hex, hL, hi], hmin⟩
      · by_cases hR : low ≥ tl + (th - tl) / 2
        · obtain ⟨i, hi, hmin⟩ := ihr low high hR h2 h3
          exact ⟨i, by simp [rmqRec, hex, hL, hR, hi], hmin⟩
        · obtain ⟨a, ha, hamin⟩ := ihl low (tl + (th - tl) / 2) h1 (by omega) (Nat.le_refl _)
          obtain ⟨b, hb, hbmin⟩ := ihr (tl + (th - tl) / 2) high (Nat.le_refl _) (by omega) h3
          obtain ⟨c, hc, hmin⟩ := isRangeMin_combine (l := low) (h := high) hamin hbmin
            (Nat.le_refl _) (by omega) (by omega) (Nat.le_refl _) (fun j _ _ => by omega)
          refine ⟨if c then a else b, ?_, hmin⟩
          simp only [rmqRec, hex, hL, hR, ha, hb, hc, if_false]
          

/-! ## PrecomputedRMQ: the table invariant -/

theorem numElems_SubOne_eq (n : Nat) (h1 : 1 ≤ n) (h2 : n < 2 ^ 64) :
    PrecomputedRMQ.numElems_SubOne n = n - 1 := by
  unfold PrecomputedRMQ.numElems_SubOne
  omega

theorem initRow_spec (r : Nat) :
    ∃ row, PrecomputedRMQ.initRow r = some row ∧ row.length = r + 1 ∧ row[r]? = some r := by
  obtain ⟨row, h1, h2⟩ := forLoop_inv (fun _ row => some (row ++ [600]))
    (fun c (row : List Nat) => row.length = c) 0 r [] (Nat.zero_le _) rfl
    (fun j t _ _ ht => ⟨t ++ [600], rfl, by simp [ht]⟩)
  refine ⟨row ++ [r], by simp [PrecomputedRMQ.initRow, h1], by simp [h2], ?_⟩
  rw [← h2]
  simp

theorem initTable_spec (elems : List RMQEntry) (n : Nat) (hn : n ≤ elems.length) :
    ∃ iv, PrecomputedRMQ.initTable n = some iv ∧ TableInv elems n (fun s => s + 1) iv := by
  obtain ⟨iv, h1, h2⟩ := forLoop_inv
    (fun r iv => match PrecomputedRMQ.initRow r with
      | some row => some (iv ++ [row])
      | none => none)
    (fun r (iv : List (List Nat)) => r ≤ n ∧ TableInv elems r (fun s => s + 1) iv) 0 n []
    (Nat.zero_le _) ⟨Nat.zero_le _, rfl, fun s hs => absurd hs (Nat.not_lt_zero s)⟩
    (by
      intro r iv _ hr ⟨_, hlen, hrows⟩
      obtain ⟨row, hrow, hl, hlast⟩ := initRow_spec r
      refine ⟨iv ++ [row], by simp [hrow], by omega, by simp [hlen], ?_⟩
      intro s hs
      by_cases hsr : s < r
      · obtain ⟨row', e1, e2, e3⟩ := hrows s hsr
        beta_reduce at e2 e3 ⊢
        refine ⟨row', ?_, e2, e3⟩
        rw [List.getElem?_append_left (by omega)]; exact e1
      · have : s = r := by omega
        subst this
        beta_reduce
        refine ⟨row, ?_, hl, ?_⟩
        · rw [← hlen]; simp
        · intro c hc1 hc2
          have : c = s := by omega
          subst this
          exact ⟨c, hlast, isRangeMin_single _ _ (by omega)⟩)
  exact ⟨iv, h1, h2.2⟩

theorem fillStep_spec (elems : List RMQEntry) (n i j : Nat) (st : List (List Nat) × Nat)
    (hj1 : i ≤ j) (hj2 : j < n - 1) (hsafe : st.2 = j - i)
    (hinv : TableInv elems n
      (fun s => if s < st.2 then min (s + 2 + i) n else min (s + 1 + i) n) st.1) :
    ∃ st', PrecomputedRMQ.fillStep elems j st = some st' ∧ st'.2 = j + 1 - i ∧
      TableInv elems n
        (fun s => if s < st'.2 then min (s + 2 + i) n else min (s + 1 + i) n) st'.1 := by
  obtain ⟨iv, safe⟩ := st
  simp only at hsafe hinv
  obtain ⟨hlen, hrows⟩ := hinv
  obtain ⟨rowa, ha1, ha2, ha3⟩ := hrows safe (by omega)
  obtain ⟨rowb, hb1, hb2, hb3⟩ := hrows (safe + 1) (by omega)
  simp only [Nat.lt_irrefl, if_false] at ha2 ha3
  have hnb : ¬ (safe + 1 < safe) := by omega
  simp only [hnb, if_false] at hb2 hb3
  obtain ⟨a, hra, hamin⟩ := ha3 j (by omega) (by omega)
  obtain ⟨b, hrb, hbmin⟩ := hb3 (j + 1) (by omega) (by omega)
  obtain ⟨c, hc, hmin⟩ := isRangeMin_combine (l := safe) (h := j + 1 + 1) hamin hbmin
    (Nat.le_refl _) (by omega) (by omega) (Nat.le_refl _) (fun k _ _ => by omega)
  refine ⟨(iv.set safe (rowa ++ [if c then a else b]), safe + 1), ?_, by simp; omega, ?_⟩
  · simp [PrecomputedRMQ.fillStep, at2, pushAt, ha1, hb1, hra, hrb, hc]
  · refine ⟨by simp [hlen], ?_⟩
    intro s hs
    simp only
    by_cases hss : s = safe
    · subst hss
      refine ⟨rowa ++ [if c then a else b], ?_, ?_, ?_⟩
      · rw [List.getElem?_set]; simp; omega
      · simp [ha2]; omega
      · intro k hk1 hk2
        simp only [Nat.lt_succ_self, if_true] at hk2
        by_cases hkj : k = j + 1
        · subst hkj
          refine ⟨if c then a else b, ?_, hmin⟩
          have : rowa.length = j + 1 := by omega
          rw [← this]; simp
        · obtain ⟨x, hx1, hx2⟩ := ha3 k hk1 (by omega)
          refine ⟨x, ?_, hx2⟩
          rw [List.getElem?_append_left (by omega)]; exact hx1
    · obtain ⟨row, e1, e2, e3⟩ := hrows s hs
      refine ⟨row, ?_, ?_, ?_⟩
      · rw [List.getElem?_set]; simp [Ne.symm hss, e1]
      · rw [e2]
        by_cases h : s < safe
        · have : s < safe + 1 := by omega
          simp [h, this]
        · have : ¬ s < safe + 1 := by omega
          simp [h, this]
      · intro k hk1 hk2
        apply e3 k hk1
        by_cases h : s < safe
        · have : s < safe + 1 := by omega
          simp only [this, if_true] at hk2
          simp only [h, if_true]; exact hk2
        · have : ¬ s < safe + 1 := by omega
          simp only [this, if_false] at hk2
          simp only [h, if_false]; exact hk2

theorem fillPass_spec (elems : List RMQEntry) (n i : Nat) (iv : List (List Nat))
    (hi : i < n - 1) (hinv : TableInv elems n (fun s => min (s + 1 + i) n) iv) :
    ∃ iv', PrecomputedRMQ.fillPass elems (n - 1) i iv = some iv' ∧
      TableInv elems n (fun s => min (s + 1 + (i + 1)) n) iv' := by
  obtain ⟨st, h1, h2, h3⟩ := forLoop_inv (PrecomputedRMQ.fillStep elems)
    (fun j (st : List (List Nat) × Nat) => st.2 = j - i ∧
      TableInv elems n
        (fun s => if s < st.2 then min (s + 2 + i) n else min (s + 1 + i) n) st.1)
    i (n - 1) (iv, 0) (by omega)
    ⟨by simp, by simpa using hinv⟩
    (fun j t hj1 hj2 ht => by
      obtain ⟨st', e1, e2, e3⟩ := fillStep_spec elems n i j t hj1 hj2 ht.1 ht.2
      exact ⟨st', e1, e2, e3⟩)
  refine ⟨st.1, by simp [PrecomputedRMQ.fillPass, h1], h3.1, ?_⟩
  intro s hs
  obtain ⟨row, e1, e2, e3⟩ := h3.2 s hs
  beta_reduce at e2 e3 ⊢
  have hL : (if s < st.2 then min (s + 2 + i) n else min (s + 1 + i) n)
      = min (s + 1 + (i + 1)) n := by
    split <;> omega
  rw [hL] at e2 e3
  exact ⟨row, e1, e2, e3⟩

theorem fillTable_spec (elems : List RMQEntry) (n : Nat) (iv0 : List (List Nat))
    (hn1 : 1 ≤ n) (hinv0 : TableInv elems n (fun s => s + 1) iv0) :
    ∃ iv, PrecomputedRMQ.fillTable elems (n - 1) iv0 = some iv ∧
      TableInv elems n (fun _ => n) iv := by
  obtain ⟨iv, h1, _, h2⟩ := forLoop_inv (PrecomputedRMQ.fillPass elems (n - 1))
    (fun i (iv : List (List Nat)) => i ≤ n - 1 ∧ TableInv elems n (fun s => min (s + 1 + i) n) iv)
    0 (n - 1) iv0 (Nat.zero_le _)
    ⟨Nat.zero_le _, hinv0.1, fun s hs => by
      obtain ⟨row, e1, e2, e3⟩ := hinv0.2 s hs
      have : min (s + 1 + 0) n = s + 1 := by omega
      exact ⟨row, e1, by simp only [this]; exact e2, by simp only [this]; exact e3⟩⟩
    (fun i t _ hi2 ht => by
      obtain ⟨iv', e1, e2⟩ := fillPass_spec elems n i t hi2 ht.2
      exact ⟨iv', e1, by omega, e2⟩)
  refine ⟨iv, h1, h2.1, ?_⟩
  intro s hs
  obtain ⟨row, e1, e2, e3⟩ := h2.2 s hs
  beta_reduce at e2 e3 ⊢
  have : min (s + 1 + (n - 1)) n = n := by omega
  rw [this] at e2 e3
  exact ⟨row, e1, e2, e3⟩

theorem precomputed_build_spec (elems : List RMQEntry) (n : Nat)
    (hn1 : 1 ≤ n) (hn2 : n < 2 ^ 64) (hn : n ≤ elems.length) :
    ∃ t, PrecomputedRMQ.build elems n = some t ∧ TableInv elems n (fun _ => n) t.indexVector := by
  obtain ⟨iv0, h0, hinv0⟩ := initTable_spec elems n hn
  obtain ⟨iv, h1, h2⟩ := fillTable_spec elems n iv0 hn1 hinv0
  refine ⟨⟨iv⟩, ?_, h2⟩
  unfold PrecomputedRMQ.build
  rw [numElems_SubOne_eq n hn1 hn2, h0]
  simp only [h1]

/-! ## SparseTableRMQ: the log table and the levels -/

theorem buildLogTable_spec (n : Nat) :
    ∃ lt, SparseTableRMQ.buildLogTable n = some lt ∧ LogTableInv (max 2 n) lt := by
  have h0 : LogTableInv 2 [0, 0] := by
    refine ⟨rfl, ?_⟩
    intro L hL
    interval_cases L <;> simp
  by_cases hn : n ≤ 2
  · refine ⟨[0, 0], forLoop_empty _ _ _ _ hn, ?_⟩
    have : max 2 n = 2 := by omega
    rw [this]; exact h0
  · obtain ⟨lt, h1, h2⟩ := forLoop_inv
      (fun i (lt : List Nat) => match lt[i / 2]? with
        | some v => some (lt ++ [v + 1])
        | none => none)
      (fun i lt => LogTableInv i lt) 2 n [0, 0] (by omega) h0
      (by
        intro i lt hi1 _ ⟨hlen, hent⟩
        have hhalf : i / 2 < i := by omega
        refine ⟨lt ++ [Nat.log 2 (i / 2) + 1], by simp [hent (i / 2) hhalf], by simp [hlen], ?_⟩
        intro L hL
        by_cases hLi : L = i
        · subst hLi
          rw [← hlen, List.getElem?_concat_length, hlen]
          rw [Nat.log_of_one_lt_of_le (by decide) hi1]
        · rw [List.getElem?_append_left (by omega)]
          exact hent L (by omega))
    have : max 2 n = n := by omega
    rw [this]
    exact ⟨lt, h1, h2⟩

theorem shiftOne_of_le (k : Nat) (h : k ≤ 30) : shiftOne k = some (2 ^ k) := by
  have h1 : k < 31 := by omega
  simp [shiftOne, h1]

theorem shiftOne_31 : shiftOne 31 = some (2 ^ 64 - 2 ^ 31) := by
  simp [shiftOne]

theorem shiftOne_of_ge (k : Nat) (h : 32 ≤ k) : shiftOne k = none := by
  have h1 : ¬ k < 31 := by omega
  have h2 : ¬ k = 31 := by omega
  simp [shiftOne, h1, h2]

theorem sizeAdd_eq (a b : Nat) (h : a + b < 2 ^ 64) : sizeAdd a b = a + b := by
  unfold sizeAdd
  exact Nat.mod_eq_of_lt h

theorem sizeSub_eq (a b : Nat) (h1 : b ≤ a) (h2 : a < 2 ^ 64) : sizeSub a b = a - b := by
  unfold sizeSub
  have e : a + 2 ^ 64 - b = a - b + 2 ^ 64 := by omega
  rw [e, Nat.add_mod_right]
  exact Nat.mod_eq_of_lt (by omega)

theorem lastLevel_le_30 (n : Nat) (h : n ≤ 2 ^ 31) : lastLevel n ≤ 30 := by
  have h1 : max 2 n - 1 < 2 ^ 31 := by omega
  have h2 : Nat.log 2 (max 2 n - 1) < 31 := Nat.log_lt_of_lt_pow (by omega) h1
  unfold lastLevel
  omega

theorem lastLevel_le_31 (n : Nat) (h : n ≤ 2 ^ 32) : lastLevel n ≤ 31 := by
  have h1 : max 2 n - 1 < 2 ^ 32 := by omega
  have h2 : Nat.log 2 (max 2 n - 1) < 32 := Nat.log_lt_of_lt_pow (by omega) h1
  unfold lastLevel
  omega

theorem pushAt_eq {iv : List (List Nat)} {r : Nat} {row : List Nat} (h : iv[r]? = some row)
    (x : Nat) : pushAt iv r x = some (iv.set r (row ++ [x])) := by
  simp [pushAt, h]

theorem levelInv_push {elems : List RMQEntry} {k len x : Nat} {row : List Nat}
    (h : LevelInv elems k row len) (hx : IsRangeMin elems len (len + 2 ^ k) x) :
    LevelInv elems k (row ++ [x]) (len + 1) := by
  obtain ⟨hlen, hent⟩ := h
  refine ⟨by simp [hlen], ?_⟩
  intro j hj
  by_cases hjl : j = len
  · subst hjl
    exact ⟨x, by rw [← hlen]; simp, hx⟩
  · obtain ⟨y, hy1, hy2⟩ := hent j (by omega)
    exact ⟨y, by rw [List.getElem?_append_left (by omega)]; exact hy1, hy2⟩

theorem sparseInv_push {elems : List RMQEntry} {n K i j x : Nat} {iv : List (List Nat)}
    (h : SparseInv elems n K i j iv) (hi : i ≤ K)
    (hx : IsRangeMin elems j (j + 2 ^ i) x) :
    ∃ iv', pushAt iv i x = some iv' ∧ SparseInv elems n K i (j + 1) iv' := by
  obtain ⟨hlen, hrows⟩ := h
  obtain ⟨row, hrow, hlev⟩ := hrows i hi
  simp only [Nat.lt_irrefl, if_false, if_true] at hlev
  refine ⟨iv.set i (row ++ [x]), pushAt_eq hrow x, by simp [hlen], ?_⟩
  intro k hk
  by_cases hki : k = i
  · subst hki
    refine ⟨row ++ [x], ?_, ?_⟩
    · rw [List.getElem?_set]; simp; omega
    · simp only [Nat.lt_irrefl, if_false, if_true]
      exact levelInv_push hlev hx
  · obtain ⟨row', e1, e2⟩ := hrows k hk
    refine ⟨row', ?_, ?_⟩
    · rw [List.getElem?_set]; simp [Ne.symm hki, e1]
    · simpa [hki] using e2

theorem sparseInv_at2 {elems : List RMQEntry} {n K i j k c : Nat} {iv : List (List Nat)}
    (h : SparseInv elems n K i j iv) (hk : k < i) (hkK : k ≤ K) (hc : c + 2 ^ k ≤ n) :
    ∃ x, at2 iv k c = some x ∧ IsRangeMin elems c (c + 2 ^ k) x := by
  obtain ⟨row, hrow, _, hent⟩ := h.2 k hkK
  simp only [hk, if_true] at hent
  obtain ⟨x, hx1, hx2⟩ := hent c (by omega)
  exact ⟨x, by simp [at2, hrow, hx1], hx2⟩

theorem sparseInv_next {elems : List RMQEntry} {n K i : Nat} {iv : List (List Nat)}
    (h : SparseInv elems n K i (n + 1 - 2 ^ i) iv) : SparseInv elems n K (i + 1) 0 iv := by
  refine ⟨h.1, ?_⟩
  intro k hk
  obtain ⟨row, e1, e2⟩ := h.2 k hk
  refine ⟨row, e1, ?_⟩
  by_cases h1 : k < i
  · have : k < i + 1 := by omega
    simpa [h1, this] using e2
  · by_cases h2 : k = i
    · subst h2
      simpa using e2
    · have h3 : ¬ k < i + 1 := by omega
      have h4 : ¬ k = i + 1 → True := fun _ => trivial
      by_cases h5 : k = i + 1
      · subst h5
        simpa [h1, h2] using e2
      · simpa [h1, h2, h3, h5] using e2

theorem levelStep_spec (elems : List RMQEntry) (n K i j : Nat) (iv : List (List Nat))
    (hi1 : 1 ≤ i) (hiK : i ≤ K) (hj : j + 2 ^ i ≤ n)
    (h : SparseInv elems n K i j iv) (hi31 : i ≤ 31) (hn64 : n < 2 ^ 64) :
    ∃ iv', SparseTableRMQ.levelStep elems i j iv = some iv' ∧
      SparseInv elems n K i (j + 1) iv' := by
  have hpow : 2 ^ i = 2 ^ (i - 1) + 2 ^ (i - 1) := by
    have : i = (i - 1) + 1 := by omega
    conv_lhs => rw [this, pow_succ]
    omega
  have hp1 : 1 ≤ 2 ^ (i - 1) := Nat.one_le_two_pow
  have h1 : j + 2 ^ (i - 1) ≤ n := by
    rw [hpow] at hj; exact le_trans (by simp [Nat.add_assoc]) hj
  have h2 : j + 2 ^ (i - 1) + 2 ^ (i - 1) ≤ n := by
    rw [hpow, ← Nat.add_assoc] at hj; exact hj
  obtain ⟨a, ha, hamin⟩ := sparseInv_at2 h (k := i - 1) (c := j) (by omega) (by omega) h1
  obtain ⟨b, hb, hbmin⟩ := sparseInv_at2 h (k := i - 1) (c := j + 2 ^ (i - 1)) (by omega) (by omega) h2
  rw [hpow] at hj
  obtain ⟨c, hc, hmin⟩ := isRangeMin_combine (l := j) (h := j + 2 ^ i) hamin hbmin
    (Nat.le_refl _) (by rw [hpow]; exact Nat.add_le_add_left (Nat.le_add_right _ _) _)
    (Nat.le_add_right _ _)
    (by rw [hpow, Nat.add_assoc])
    (fun t ht1 ht2 => by
      rw [hpow] at ht2
      by_cases hlt : t < j + 2 ^ (i - 1)
      · exact Or.inl ⟨ht1, hlt⟩
      · exact Or.inr ⟨Nat.le_of_not_lt hlt, by rw [Nat.add_assoc]; exact ht2⟩)
  obtain ⟨iv', e1, e2⟩ := sparseInv_push h hiK hmin
  have hs : shiftOne (i - 1) = some (2 ^ (i - 1)) := shiftOne_of_le _ (by omega)
  have hadd : sizeAdd j (2 ^ (i - 1)) = j + 2 ^ (i - 1) :=
    sizeAdd_eq _ _ (lt_of_le_of_lt h1 hn64)
  exact ⟨iv', by simp [SparseTableRMQ.levelStep, hs, hadd, ha, hb, hc, e1], e2⟩


theorem emptyRows_spec (m : Nat) :
    ∃ iv, forLoop 0 m (fun _ (iv : List (List Nat)) => some (iv ++ [[]])) [] = some iv ∧
      iv.length = m ∧ ∀ k, k < m → iv[k]? = some [] := by
  obtain ⟨iv, h1, h2⟩ := forLoop_inv (fun _ (iv : List (List Nat)) => some (iv ++ [[]]))
    (fun r (iv : List (List Nat)) => iv.length = r ∧ ∀ k, k < r → iv[k]? = some [])
    0 m [] (Nat.zero_le _) ⟨rfl, fun k hk => absurd hk (Nat.not_lt_zero k)⟩
    (by
      intro r iv _ _ ⟨hlen, hrows⟩
      refine ⟨iv ++ [[]], rfl, by simp [hlen], ?_⟩
      intro k hk
      by_cases hkr : k = r
      · subst hkr; rw [← hlen]; simp
      · rw [List.getElem?_append_left (by omega)]; exact hrows k (by omega))
  exact ⟨iv, h1, h2⟩

theorem levelZero_spec (elems : List RMQEntry) (n K : Nat) (iv0 : List (List Nat))
    (hn : n ≤ elems.length) (hlen : iv0.length = K + 1)
    (hrows : ∀ k, k < K + 1 → iv0[k]? = some []) :
    ∃ iv, forLoop 0 n (fun i iv => pushAt iv 0 i) iv0 = some iv ∧
      SparseInv elems n K 1 0 iv := by
  have hinit : SparseInv elems n K 0 0 iv0 := by
    refine ⟨hlen, ?_⟩
    intro k hk
    refine ⟨[], hrows k (by omega), ?_⟩
    have : (if k < 0 then n + 1 - 2 ^ k else if k = 0 then 0 else 0) = 0 := by
      split
      · omega
      · split <;> rfl
    rw [this]
    exact ⟨rfl, fun j hj => absurd hj (Nat.not_lt_zero j)⟩
  obtain ⟨iv, h1, h2⟩ := forLoop_inv (fun i iv => pushAt iv 0 i)
    (fun j iv => SparseInv elems n K 0 j iv) 0 n iv0 (Nat.zero_le _) hinit
    (by
      intro j iv _ hj hinv
      have hx : IsRangeMin elems j (j + 2 ^ 0) j := by
        simpa using isRangeMin_single elems j (by omega)
      exact sparseInv_push hinv (Nat.zero_le _) hx)
  refine ⟨iv, h1, sparseInv_next ?_⟩
  simpa using h2

theorem levelLoop_spec (elems : List RMQEntry) (n K i : Nat) (iv : List (List Nat))
    (hi1 : 1 ≤ i) (hiK : i ≤ K) (h : SparseInv elems n K i 0 iv) (hi30 : i ≤ 30)
    (hn64 : n < 2 ^ 64) :
    ∃ iv', SparseTableRMQ.levelLoop elems n i iv = some iv' ∧
      SparseInv elems n K (i + 1) 0 iv' := by
  obtain ⟨iv', h1, h2⟩ := forLoop_inv (SparseTableRMQ.levelStep elems i)
    (fun j iv => SparseInv elems n K i j iv) 0 (n + 1 - 2 ^ i) iv (Nat.zero_le _) h
    (by
      intro j t _ hj ht
      refine levelStep_spec elems n K i j t hi1 hiK ?_ ht (by omega) hn64
      generalize 2 ^ i = q at hj ⊢
      omega)
  refine ⟨iv', ?_, sparseInv_next h2⟩
  simp only [SparseTableRMQ.levelLoop, shiftOne_of_le i hi30]
  exact h1

/-- At level `31` the converted shift is `2^64 - 2^31`, the test `j + (1 << 31) <= numElems`
fails at `j = 0`, and the level stays as it is. -/
theorem levelLoop_31 (elems : List RMQEntry) (n : Nat) (iv : List (List Nat))
    (hn : n ≤ 2 ^ 32) : SparseTableRMQ.levelLoop elems n 31 iv = some iv := by
  simp only [SparseTableRMQ.levelLoop, shiftOne_31]
  exact forLoop_empty _ _ _ _ (by omega)

/-- The construction over at most `2^32` elements: the levels below `31` are complete,
and level `31`, when there is one, is empty. -/
theorem sparse_build_wide (elems : List RMQEntry) (n : Nat) (hn : n ≤ elems.length)
    (h32 : n ≤ 2 ^ 32) :
    ∃ t, SparseTableRMQ.build elems n = some t ∧ t.array = elems ∧
      LogTableInv (max 2 n) t.logTable ∧
      SparseInv elems n (lastLevel n) (min (lastLevel n + 1) 31) 0 t.indexVector := by
  have hK := lastLevel_le_31 n h32
  obtain ⟨lt, hlt, hlog⟩ := buildLogTable_spec n
  have hback : lt.getLast? = some (lastLevel n) := by
    rw [List.getLast?_eq_getElem?, hlog.1]
    exact hlog.2 _ (by omega)
  obtain ⟨iv0, h0, hlen0, hrows0⟩ := emptyRows_spec (lastLevel n + 1)
  obtain ⟨iv1, h1, hinv1⟩ := levelZero_spec elems n (lastLevel n) iv0 hn hlen0 hrows0
  obtain ⟨iv, h2, _, hinv⟩ := forLoop_inv (SparseTableRMQ.levelLoop elems n)
    (fun i iv => i ≤ lastLevel n + 1 ∧ SparseInv elems n (lastLevel n) (min i 31) 0 iv)
    1 (lastLevel n + 1) iv1 (by omega) ⟨by omega, by simpa using hinv1⟩
    (by
      intro i t hi1 hi2 ⟨_, ht⟩
      by_cases hi30 : i ≤ 30
      · have e1 : min i 31 = i := by omega
        have e2 : min (i + 1) 31 = i + 1 := by omega
        rw [e1] at ht
        obtain ⟨iv', e3, e4⟩ := levelLoop_spec elems n (lastLevel n) i t hi1 (by omega) ht
          hi30 (by omega)
        exact ⟨iv', e3, by omega, by rw [e2]; exact e4⟩
      · have e0 : i = 31 := by omega
        subst e0
        exact ⟨t, levelLoop_31 elems n t h32, by omega, by simpa using ht⟩)
  refine ⟨⟨iv, elems, lt⟩, ?_, rfl, hlog, hinv⟩
  have hl1 : iv1.length = lastLevel n + 1 := hinv1.1
  simp [SparseTableRMQ.build, hlt, hback, h0, h1, hl1, h2]

theorem sparse_build_spec (elems : List RMQEntry) (n : Nat) (hn : n ≤ elems.length)
    (h31 : n ≤ 2 ^ 31) :
    ∃ t, SparseTableRMQ.build elems n = some t ∧ t.array = elems ∧
      LogTableInv (max 2 n) t.logTable ∧
      SparseInv elems n (lastLevel n) (lastLevel n + 1) 0 t.indexVector := by
  obtain ⟨t, ht, harr, hlog, hinv⟩ := sparse_build_wide elems n hn (by omega)
  have hK := lastLevel_le_30 n h31
  have e : min (lastLevel n + 1) 31 = lastLevel n + 1 := by omega
  rw [e] at hinv
  exact ⟨t, ht, harr, hlog, hinv⟩

theorem sparse_rmq_spec (elems : List RMQEntry) (n : Nat) (t : SparseTableRMQ)
    (harr : t.array = elems) (hlog : LogTableInv (max 2 n) t.logTable)
    (hinv : SparseInv elems n (lastLevel n) (lastLevel n + 1) 0 t.indexVector)
    (low high : Nat) (h1 : low < high) (h2 : high ≤ n) (h31 : n ≤ 2 ^ 31) :
    ∃ i, t.rmq low high = some i ∧ IsRangeMin elems low high i := by
  have hK := lastLevel_le_30 n h31
  have hrow : t.logTable[high - low - 1]? = some (Nat.log 2 (high - low - 1)) :=
    hlog.2 _ (by omega)
  by_cases hone : 1 = high - low
  · have hz : high - low - 1 = 0 := by omega
    rw [hz] at hrow
    obtain ⟨x, hx1, hx2⟩ := sparseInv_at2 hinv (k := 0) (c := low) (by omega) (Nat.zero_le _)
      (by simp; omega)
    have hh : low + 2 ^ 0 = high := by simp; omega
    rw [hh] at hx2
    refine ⟨x, ?_, hx2⟩
    simp only [SparseTableRMQ.rmq, hz, hrow]
    simpa [← hone] using hx1
  · have hL : high - low - 1 ≠ 0 := by omega
    have hk1 : 2 ^ Nat.log 2 (high - low - 1) ≤ high - low - 1 := Nat.pow_log_le_self 2 hL
    have hk2 : high - low - 1 < 2 ^ (Nat.log 2 (high - low - 1) + 1) :=
      Nat.lt_pow_succ_log_self (by decide) _
    have hkK : Nat.log 2 (high - low - 1) ≤ lastLevel n :=
      Nat.log_mono_right (by omega)
    rw [pow_succ] at hk2
    generalize Nat.log 2 (high - low - 1) = k at hrow hk1 hk2 hkK
    obtain ⟨a, ha, hamin⟩ := sparseInv_at2 hinv (k := k) (c := low) (by omega) hkK
      (by generalize 2 ^ k = q at hk1; omega)
    obtain ⟨b, hb, hbmin⟩ := sparseInv_at2 hinv (k := k) (c := high - 2 ^ k) (by omega) hkK
      (by generalize 2 ^ k = q at hk1; omega)
    have hcov : ∀ j, low ≤ j → j < high →
        (low ≤ j ∧ j < low + 2 ^ k) ∨ (high - 2 ^ k ≤ j ∧ j < high - 2 ^ k + 2 ^ k) := by
      generalize 2 ^ k = q at hk1 hk2
      intro j hj1 hj2
      omega
    obtain ⟨c, hc, hmin⟩ := isRangeMin_combine (l := low) (h := high) hamin hbmin
      (Nat.le_refl _) (by generalize 2 ^ k = q at hk1; omega)
      (by generalize 2 ^ k = q at hk1; omega)
      (by generalize 2 ^ k = q at hk1; omega) hcov
    refine ⟨if c then a else b, ?_, hmin⟩
    subst harr
    have hs : shiftOne k = some (2 ^ k) := shiftOne_of_le k (by omega)
    have hsub : sizeSub high (2 ^ k) = high - 2 ^ k :=
      sizeSub_eq _ _ (by generalize 2 ^ k = q at hk1; omega) (by omega)
    simp only [SparseTableRMQ.rmq, hrow, hone, if_false, hs, hsub, ha, hb, hc]
    cases c <;> simp [hb]

/-! ## SparseTableRMQ: more than `2^31` elements -/

theorem log_two_eq_31 (x : Nat) (h1 : 2 ^ 31 ≤ x) (h2 : x < 2 ^ 32) : Nat.log 2 x = 31 :=
  (Nat.log_eq_iff (Or.inl (by decide))).2 ⟨h1, h2⟩

theorem lastLevel_eq_31 (n : Nat) (h1 : 2 ^ 31 < n) (h2 : n ≤ 2 ^ 32) : lastLevel n = 31 := by
  unfold lastLevel
  exact log_two_eq_31 _ (by omega) (by omega)

theorem lastLevel_ge_32 (n : Nat) (h : 2 ^ 32 < n) : 32 ≤ lastLevel n := by
  unfold lastLevel
  exact Nat.le_log_of_pow_le (by decide) (by omega)

/-- Over `2^31 < n ≤ 2^32` elements the constructor returns a table of `32` levels whose
level `31` is empty. -/
theorem sparse_build_level31 (elems : List RMQEntry) (n : Nat) (hn : n ≤ elems.length)
    (h1 : 2 ^ 31 < n) (h2 : n ≤ 2 ^ 32) :
    ∃ t, SparseTableRMQ.build elems n = some t ∧ LogTableInv (max 2 n) t.logTable ∧
      t.indexVector.length = 32 ∧ t.indexVector[31]? = some [] := by
  obtain ⟨t, ht, _, hlog, hinv⟩ := sparse_build_wide elems n hn h2
  rw [lastLevel_eq_31 n h1 h2] at hinv
  obtain ⟨row, hrow, hlen, _⟩ := hinv.2 31 (Nat.le_refl _)
  simp only [Nat.reduceAdd, Nat.min_self, Nat.lt_irrefl, if_false, if_true] at hlen
  have : row = [] := List.length_eq_zero.1 hlen
  subst this
  exact ⟨t, ht, hlog, hinv.1, hrow⟩

/-- With an empty level `31`, the query of a range of more than `2^31` elements selects
level `31`, finds no entry at position `low` there, and has no result. -/
theorem sparse_rmq_level31 (t : SparseTableRMQ) (n : Nat)
    (hlog : LogTableInv (max 2 n) t.logTable) (hrow : t.indexVector[31]? = some [])
    (low high : Nat) (h1 : low + 2 ^ 31 < high) (h2 : high ≤ n) (h3 : n ≤ 2 ^ 32) :
    t.selectedLevel low high = some 31 ∧ at2 t.indexVector 31 low = none ∧
      t.rmq low high = none := by
  have hsel : t.logTable[high - low - 1]? = some 31 := by
    rw [hlog.2 _ (by omega), log_two_eq_31 _ (by omega) (by omega)]
  have hat : at2 t.indexVector 31 low = none := by
    simp [at2, hrow]
  have hone : ¬ 1 = high - low := by omega
  refine ⟨hsel, hat, ?_⟩
  simp only [SparseTableRMQ.rmq, hsel, hone, if_false, shiftOne_31, hat]

theorem loopN_add {σ : Type} (body : Nat → σ → Option σ) :
    ∀ (a b i : Nat) (s : σ),
      loopN (a + b) i body s =
        match loopN a i body s with
        | none => none
        | some s' => loopN b (i + a) body s' := by
  intro a
  induction a with
  | zero => intro b i s; simp [loopN]
  | succ a ih =>
    intro b i s
    have e : a + 1 + b = (a + b) + 1 := by omega
    rw [e]
    simp only [loopN]
    cases body i s with
    | none => rfl
    | some s1 =>
      simp only [ih]
      have e2 : i + 1 + a = i + (a + 1) := by omega
      rw [e2]

/-- A loop one of whose iterations has no result has no result. -/
theorem forLoop_none_of_step {σ : Type} (body : Nat → σ → Option σ) (lo mid hi : Nat)
    (s : σ) (h1 : lo ≤ mid) (h2 : mid < hi) (hfail : ∀ s', body mid s' = none) :
    forLoop lo hi body s = none := by
  have e : hi - lo = (mid - lo) + ((hi - mid - 1) + 1) := by omega
  unfold forLoop
  rw [e, loopN_add]
  cases loopN (mid - lo) lo body s with
  | none => rfl
  | some s' =>
    have e2 : lo + (mid - lo) = mid := by omega
    simp only [loopN, e2, hfail]

/-- Over more than `2^32` elements the table has a level `32`, and the constructor
evaluates `1 << 32`, which is undefined. -/
theorem sparse_build_undefined (elems : List RMQEntry) (n : Nat) (hn : n ≤ elems.length)
    (h : 2 ^ 32 < n) : SparseTableRMQ.build elems n = none := by
  have hK := lastLevel_ge_32 n h
  obtain ⟨lt, hlt, hlog⟩ := buildLogTable_spec n
  have hback : lt.getLast? = some (lastLevel n) := by
    rw [List.getLast?_eq_getElem?, hlog.1]
    exact hlog.2 _ (by omega)
  obtain ⟨iv0, h0, hlen0, hrows0⟩ := emptyRows_spec (lastLevel n + 1)
  obtain ⟨iv1, h1, hinv1⟩ := levelZero_spec elems n (lastLevel n) iv0 hn hlen0 hrows0
  have hl1 : iv1.length = lastLevel n + 1 := hinv1.1
  have hloop : forLoop 1 iv1.length (SparseTableRMQ.levelLoop elems n) iv1 = none :=
    forLoop_none_of_step _ 1 32 _ _ (by decide) (by omega)
      (fun s' => by simp [SparseTableRMQ.levelLoop, shiftOne_of_ge 32 (Nat.le_refl _)])
  simp [SparseTableRMQ.build, hlt, hback, h0, h1, hloop]

theorem sparseTableQuery_undefined (elems : List RMQEntry) (low high : Nat)
    (h : 2 ^ 32 < elems.length) : sparseTableQuery elems low high = none := by
  unfold sparseTableQuery
  rw [sparse_build_undefined elems elems.length (Nat.le_refl _) h]

theorem sparseTableQuery_level31 (elems : List RMQEntry) (low high : Nat)
    (h1 : 2 ^ 31 < elems.length) (h2 : elems.length ≤ 2 ^ 32)
    (h3 : low + 2 ^ 31 < high) (h4 : high ≤ elems.length) :
    sparseTableQuery elems low high = none := by
  obtain ⟨t, ht, hlog, _, hrow⟩ := sparse_build_level31 elems elems.length (Nat.le_refl _) h1 h2
  have := (sparse_rmq_level31 t elems.length hlog hrow low high h3 h4 h2).2.2
  simp [sparseTableQuery, ht, this]

/-! ## HybridRMQ: the summary and the scans -/

theorem roundSqrt_pos (n : Nat) (h : 1 ≤ n) : 1 ≤ roundSqrt n := by
  have : 0 < Nat.sqrt n := Nat.sqrt_pos.2 h
  unfold roundSqrt
  split <;> omega

theorem buildStep_spec (elems : List RMQEntry) (n b i : Nat) (st : HybridRMQ.BuildState)
    (hn : n ≤ elems.length) (hi : i < n) (h : BuildInv elems n b i st) :
    ∃ st', HybridRMQ.buildStep elems n b i st = some st' ∧ BuildInv elems n b (i + 1) st' := by
  obtain ⟨k, hk, hcb, hsm, hlen, hent⟩ := h
  have hlen' : st.summary.length = k := by
    rw [hlen]; simp; omega
  rw [hlen'] at hent
  have hnew : ∃ c, entryLt elems i st.smallest = some c ∧
      IsRangeMin elems (k * b) (i + 1) (if c then i else st.smallest) := by
    by_cases hc0 : st.count = 0
    · simp only [hc0, if_true] at hsm
      rw [hsm]
      have hkb : k * b = i := by omega
      rw [hkb]
      have hs := isRangeMin_single elems i (by omega)
      obtain ⟨_, _, v, hv, _⟩ := hs
      refine ⟨false, by simp [entryLt, hv], ?_⟩
      simpa using isRangeMin_single elems i (by omega)
    · simp only [hc0, if_false] at hsm
      exact isRangeMin_combine (l := k * b) (h := i + 1)
        (isRangeMin_single elems i (by omega)) hsm
        (by omega) (Nat.le_refl _) (Nat.le_refl _) (by omega) (fun j _ _ => by omega)
  obtain ⟨c, hc, hmin⟩ := hnew
  have hsucc : (k + 1) * b = k * b + b := Nat.succ_mul k b
  have hold : ∀ j, j < k →
      ∃ x, st.summary[j]? = some x ∧ IsRangeMin elems (j * b) (min ((j + 1) * b) n) x := hent
  have hpush : ∀ x, IsRangeMin elems (k * b) (min ((k + 1) * b) n) x →
      ∀ j, j < (st.summary ++ [x]).length →
        ∃ y, (st.summary ++ [x])[j]? = some y ∧
          IsRangeMin elems (j * b) (min ((j + 1) * b) n) y := by
    intro x hx j hj
    simp only [List.length_append, List.length_singleton, hlen'] at hj
    by_cases hjk : j = k
    · subst hjk
      exact ⟨x, by rw [← hlen']; simp, hx⟩
    · obtain ⟨y, hy1, hy2⟩ := hold j (by omega)
      exact ⟨y, by rw [List.getElem?_append_left (by omega)]; exact hy1, hy2⟩
  by_cases hfull : st.count + 1 = b
  · refine ⟨⟨st.summary ++ [if c then i else st.smallest], 0, i + 1⟩, ?_, ?_⟩
    · simp [HybridRMQ.buildStep, hc, hfull]
    · refine ⟨k + 1, by simp only; omega, by simp only; omega, by simp, ?_, ?_⟩
      · simp [hlen']
      · apply hpush
        have : min ((k + 1) * b) n = i + 1 := by omega
        rw [this]; exact hmin
  · by_cases hlast : i = n - 1
    · refine ⟨⟨st.summary ++ [if c then i else st.smallest], st.count + 1,
        if c then i else st.smallest⟩, ?_, ?_⟩
      · simp only [HybridRMQ.buildStep, hc, hfull, if_false]
        rw [if_pos hlast]
      · refine ⟨k, by simp only; omega, by simp only; omega, by simpa using hmin, ?_, ?_⟩
        · have : i + 1 = n := by omega
          simp [hlen', this]
        · apply hpush
          have : min ((k + 1) * b) n = i + 1 := by omega
          rw [this]; exact hmin
    · refine ⟨⟨st.summary, st.count + 1, if c then i else st.smallest⟩, ?_, ?_⟩
      · simp [HybridRMQ.buildStep, hc, hfull, hlast]
      · refine ⟨k, by simp only; omega, by simp only; omega, by simpa using hmin, ?_, ?_⟩
        · have : ¬ (i + 1 = n) := by omega
          simp [hlen', this]
        · simp only [hlen']; exact hold

theorem buildInv_summaryInv {elems : List RMQEntry} {n b : Nat} {st : HybridRMQ.BuildState}
    (h : BuildInv elems n b n st) : SummaryInv elems n b st.summary := by
  obtain ⟨k, hk, hcb, _, hlen, hent⟩ := h
  have hsucc : (k + 1) * b = k * b + b := Nat.succ_mul k b
  have hsucc2 : (k + 1 + 1) * b = (k + 1) * b + b := Nat.succ_mul (k + 1) b
  have hceil : (n + b - 1) / b = st.summary.length := by
    by_cases hc0 : 0 < st.count
    · have hL : st.summary.length = k + 1 := by simpa [hc0] using hlen
      rw [hL]
      exact Nat.div_eq_of_lt_le (by omega) (by omega)
    · have hL : st.summary.length = k := by simpa [hc0] using hlen
      rw [hL]
      exact Nat.div_eq_of_lt_le (by omega) (by omega)
  exact ⟨hceil.symm, by rw [hceil]; exact hent⟩

theorem hybrid_build_spec (elems : List RMQEntry) (n : Nat) (hn1 : 1 ≤ n)
    (hn : n ≤ elems.length) :
    ∃ t, HybridRMQ.build elems n = some t ∧ t.array = elems ∧ t.blockSize = roundSqrt n ∧
      SummaryInv elems n (roundSqrt n) t.summary := by
  have hb := roundSqrt_pos n hn1
  obtain ⟨st, h1, h2⟩ := forLoop_inv (HybridRMQ.buildStep elems n (roundSqrt n))
    (fun i st => BuildInv elems n (roundSqrt n) i st) 0 n ⟨[], 0, 0⟩ (Nat.zero_le _)
    ⟨0, by simp, by simp only; omega, by simp, by simp, by simp⟩
    (fun i t _ hi ht => buildStep_spec elems n (roundSqrt n) i t hn hi ht)
  refine ⟨⟨st.summary, elems, roundSqrt n⟩, ?_, rfl, rfl, buildInv_summaryInv h2⟩
  have hb0 : roundSqrt n ≠ 0 := by omega
  simp [HybridRMQ.build, hb0, h1]


theorem scan_spec (array : List RMQEntry) (l lo hi M s0 : Nat) (hl : l ≤ lo) (hloM : lo ≤ M)
    (hlohi : lo ≤ hi) (hhi : hi ≤ array.length) (h0 : IsRangeMin array l M s0) :
    ∃ s, forLoop lo hi (HybridRMQ.scanStep array) s0 = some s ∧
      IsRangeMin array l (max M hi) s := by
  have hstart : max M lo = M := by omega
  obtain ⟨s, h1, h2⟩ := forLoop_inv (HybridRMQ.scanStep array)
    (fun i s => IsRangeMin array l (max M i) s) lo hi s0 hlohi
    (by show IsRangeMin array l (max M lo) s0; rw [hstart]; exact h0)
    (by
      intro i t hi1 hi2 ht
      obtain ⟨c, hc, hmin⟩ := isRangeMin_combine (l := l) (h := max M (i + 1))
        (isRangeMin_single array i (by omega)) ht
        (by omega) (by omega) (Nat.le_refl _) (by omega) (fun j _ _ => by omega)
      exact ⟨if c then i else t, by simp [HybridRMQ.scanStep, hc], hmin⟩)
  exact ⟨s, h1, h2⟩

theorem scan_from_low (array : List RMQEntry) (low hi : Nat) (h1 : low < hi)
    (h2 : hi ≤ array.length) :
    ∃ s, forLoop low hi (HybridRMQ.scanStep array) low = some s ∧
      IsRangeMin array low hi s := by
  obtain ⟨s, e1, e2⟩ := scan_spec array low low hi (low + 1) low (Nat.le_refl _) (by omega)
    (by omega) h2 (isRangeMin_single _ _ (by omega))
  have : max (low + 1) hi = hi := by omega
  rw [this] at e2
  exact ⟨s, e1, e2⟩

theorem summaryScan_spec (elems : List RMQEntry) (n b : Nat) (summary : List Nat)
    (hsum : SummaryInv elems n b summary) (hb : 1 ≤ b) (low lo hi s0 : Nat)
    (hlohi : lo ≤ hi) (hhi : hi * b ≤ n) (hlow : low < lo * b)
    (h0 : IsRangeMin elems low (lo * b) s0) :
    ∃ s, forLoop lo hi (HybridRMQ.summaryStep elems summary) s0 = some s ∧
      IsRangeMin elems low (hi * b) s := by
  obtain ⟨s, h1, h2⟩ := forLoop_inv (HybridRMQ.summaryStep elems summary)
    (fun i s => IsRangeMin elems low (i * b) s) lo hi s0 hlohi h0
    (by
      intro i t hi1 hi2 ht
      have hsucc : (i + 1) * b = i * b + b := Nat.succ_mul i b
      have hle : (i + 1) * b ≤ hi * b := Nat.mul_le_mul_right b hi2
      have hlo : lo * b ≤ i * b := Nat.mul_le_mul_right b hi1
      have hidx : i < (n + b - 1) / b :=
        (Nat.le_div_iff_mul_le (by omega)).2 (by show (i + 1) * b ≤ n + b - 1; omega)
      obtain ⟨m, hm1, hm2⟩ := hsum.2 i hidx
      have hmin' : min ((i + 1) * b) n = (i + 1) * b := by omega
      rw [hmin'] at hm2
      obtain ⟨c, hc, hmin⟩ := isRangeMin_combine (l := low) (h := (i + 1) * b) hm2 ht
        (by omega) (Nat.le_refl _) (Nat.le_refl _) (by omega) (fun j _ _ => by omega)
      exact ⟨if c then m else t, by simp [HybridRMQ.summaryStep, hm1, hc], hmin⟩)
  exact ⟨s, h1, h2⟩

theorem block_start (x b : Nat) : x - x % b = x / b * b := by
  have := Nat.div_add_mod x b
  rw [Nat.mul_comm] at this
  omega

theorem hybrid_rmq_spec (elems : List RMQEntry) (n : Nat) (t : HybridRMQ)
    (harr : t.array = elems) (hb : 1 ≤ t.blockSize)
    (hsum : SummaryInv elems n t.blockSize t.summary) (hn : n ≤ elems.length)
    (low high : Nat) (h1 : low < high) (h2 : high ≤ n) :
    ∃ i, t.rmq low high = some i ∧ IsRangeMin elems low high i := by
  have hb0 : t.blockSize ≠ 0 := by omega
  have hbpos : 0 < t.blockSize := by omega
  subst harr
  unfold HybridRMQ.rmq
  simp only [hb0, if_false]
  by_cases hsame : (low - low % t.blockSize) / t.blockSize
      = (high - 1 - (high - 1) % t.blockSize) / t.blockSize
  · rw [if_pos hsame]
    exact scan_from_low t.array low high h1 (by omega)
  · rw [if_neg hsame]
    by_cases hadj : (high - 1 - (high - 1) % t.blockSize) / t.blockSize
        = (low - low % t.blockSize) / t.blockSize + 1
    · rw [if_pos hadj]
      exact scan_from_low t.array low high h1 (by omega)
    · rw [if_neg hadj]
      rw [block_start low, block_start (high - 1), block_start high] at *
      rw [Nat.mul_div_cancel _ hbpos] at hsame hadj
      rw [Nat.mul_div_cancel _ hbpos] at hsame hadj
      have hsucc : (low / t.blockSize + 1) * t.blockSize
          = low / t.blockSize * t.blockSize + t.blockSize := Nat.succ_mul _ _
      rw [← hsucc, Nat.mul_div_cancel _ hbpos, Nat.mul_div_cancel _ hbpos]
      have hmono : low / t.blockSize ≤ (high - 1) / t.blockSize :=
        Nat.div_le_div_right (by omega)
      have hmono2 : (high - 1) / t.blockSize ≤ high / t.blockSize :=
        Nat.div_le_div_right (by omega)
      have hfar : low / t.blockSize + 2 ≤ (high - 1) / t.blockSize := by omega
      have e1 : (low / t.blockSize + 1) * t.blockSize ≤ (high - 1) / t.blockSize * t.blockSize :=
        Nat.mul_le_mul_right _ (by omega)
      have e2 : (high - 1) / t.blockSize * t.blockSize ≤ high - 1 := Nat.div_mul_le_self _ _
      have e3 : high / t.blockSize * t.blockSize ≤ high := Nat.div_mul_le_self _ _
      have e4 : (high - 1) / t.blockSize * t.blockSize ≤ high / t.blockSize * t.blockSize :=
        Nat.mul_le_mul_right _ hmono2
      have e5 : low < (low / t.blockSize + 1) * t.blockSize := by
        have hd := Nat.div_add_mod low t.blockSize
        have hm := Nat.mod_lt low hbpos
        rw [Nat.mul_comm] at hd
        omega
      obtain ⟨s1, hs1, hmin1⟩ := scan_from_low t.array low
        ((low / t.blockSize + 1) * t.blockSize) e5 (by omega)
      obtain ⟨s2, hs2, hmin2⟩ := summaryScan_spec t.array n t.blockSize t.summary hsum hb low
        (low / t.blockSize + 1) (high / t.blockSize) s1 (by omega) (by omega) e5 hmin1
      obtain ⟨s3, hs3, hmin3⟩ := scan_spec t.array low
        ((high - 1) / t.blockSize * t.blockSize) high (high / t.blockSize * t.blockSize) s2
        (by omega) e4 (by omega) (by omega) hmin2
      have hmax : max (high / t.blockSize * t.blockSize) high = high := by omega
      rw [hmax] at hmin3
      exact ⟨s3, by simp only [hs1, hs2, hs3], hmin3⟩


/-! ## The four queries meet the contract -/

theorem segmentTreeQuery_isRangeMin (elems : List RMQEntry) (low high : Nat)
    (h1 : low < high) (h2 : high ≤ elems.length) :
    ∃ i, segmentTreeQuery elems low high = some i ∧ IsRangeMin elems low high i := by
  obtain ⟨t, ht, hw⟩ := makeTree_treeOver elems _ 0 elems.length rfl (by omega) (Nat.le_refl _)
  obtain ⟨i, hi, hmin⟩ := rmqRec_isRangeMin hw low high (Nat.zero_le _) h1 h2
  exact ⟨i, by simp [segmentTreeQuery, SegmentTreeRMQ.build, SegmentTreeRMQ.rmq, ht, hi], hmin⟩

theorem precomputedQuery_isRangeMin (elems : List RMQEntry) (low high : Nat)
    (hsz : elems.length < 2 ^ 64) (h1 : low < high) (h2 : high ≤ elems.length) :
    ∃ i, precomputedQuery elems low high = some i ∧ IsRangeMin elems low high i := by
  obtain ⟨t, ht, _, hrows⟩ := precomputed_build_spec elems elems.length (by omega) hsz
    (Nat.le_refl _)
  obtain ⟨row, e1, _, e3⟩ := hrows low (by omega)
  beta_reduce at e3
  obtain ⟨x, hx, hmin⟩ := e3 (high - 1) (by omega) (by omega)
  have hh : high - 1 + 1 = high := by omega
  rw [hh] at hmin
  exact ⟨x, by simp [precomputedQuery, ht, PrecomputedRMQ.rmq, at2, e1, hx], hmin⟩

theorem sparseTableQuery_isRangeMin (elems : List RMQEntry) (low high : Nat)
    (h1 : low < high) (h2 : high ≤ elems.length) (h31 : elems.length ≤ 2 ^ 31) :
    ∃ i, sparseTableQuery elems low high = some i ∧ IsRangeMin elems low high i := by
  obtain ⟨t, ht, harr, hlog, hinv⟩ := sparse_build_spec elems elems.length (Nat.le_refl _) h31
  obtain ⟨i, hi, hmin⟩ := sparse_rmq_spec elems elems.length t harr hlog hinv low high h1 h2
    h31
  exact ⟨i, by simp [sparseTableQuery, ht, hi], hmin⟩

theorem hybridQuery_isRangeMin (elems : List RMQEntry) (low high : Nat)
    (h1 : low < high) (h2 : high ≤ elems.length) :
    ∃ i, hybridQuery elems low high = some i ∧ IsRangeMin elems low high i := by
  obtain ⟨t, ht, harr, hbs, hsum⟩ := hybrid_build_spec elems elems.length (by omega)
    (Nat.le_refl _)
  have hb : 1 ≤ t.blockSize := by rw [hbs]; exact roundSqrt_pos _ (by omega)
  rw [← hbs] at hsum
  obtain ⟨i, hi, hmin⟩ := hybrid_rmq_spec elems elems.length t harr hb hsum (Nat.le_refl _)
    low high h1 h2
  exact ⟨i, by simp [hybridQuery, ht, hi], hmin⟩

theorem isRangeMin_value_eq {elems : List RMQEntry} {low high a b : Nat}
    (ha : IsRangeMin elems low high a) (hb : IsRangeMin elems low high b) :
    ∃ v, elems[a]? = some v ∧ elems[b]? = some v := by
  obtain ⟨ha1, ha2, va, hva, hamin⟩ := ha
  obtain ⟨hb1, hb2, vb, hvb, hbmin⟩ := hb
  obtain ⟨w, hw, hle⟩ := hamin b hb1 hb2
  obtain ⟨w', hw', hle'⟩ := hbmin a ha1 ha2
  rw [hvb] at hw
  rw [hva] at hw'
  cases hw
  cases hw'
  have : va = vb := le_antisymm hle hle'
  subst this
  exact ⟨va, hva, hvb⟩

theorem isRangeMin_eq_of_single {elems : List RMQEntry} {low i : Nat}
    (h : IsRangeMin elems low (low + 1) i) : i = low := by
  obtain ⟨h1, h2, _⟩ := h
  omega

/-- A structure over at most `2^32` elements answers a one-element range: the query reads
`logTable[0]` and level `0` only. -/
theorem sparseTableQuery_singleton (elems : List RMQEntry) (low : Nat)
    (h : low < elems.length) (h32 : elems.length ≤ 2 ^ 32) :
    sparseTableQuery elems low (low + 1) = some low := by
  obtain ⟨t, ht, _, hlog, hinv⟩ := sparse_build_wide elems elems.length (Nat.le_refl _) h32
  have hz : low + 1 - low - 1 = 0 := by omega
  have hrow : t.logTable[low + 1 - low - 1]? = some 0 := by
    rw [hz, hlog.2 0 (by omega)]; simp
  obtain ⟨x, hx1, hx2⟩ := sparseInv_at2 hinv (k := 0) (c := low) (by omega) (Nat.zero_le _)
    (by simp; omega)
  have hx : x = low := isRangeMin_eq_of_single (by simpa using hx2)
  subst hx
  have hone : 1 = x + 1 - x := by omega
  simp only [sparseTableQuery, ht, SparseTableRMQ.rmq, hrow]
  rw [if_pos hone]
  exact hx1

/-- The log table of a built structure is the one of `buildLogTable`. -/
theorem sparse_build_logTable (elems : List RMQEntry) (n : Nat) (t : SparseTableRMQ)
    (lt : List Nat) (hlt : SparseTableRMQ.buildLogTable n = some lt)
    (ht : SparseTableRMQ.build elems n = some t) : t.logTable = lt := by
  simp only [SparseTableRMQ.build, hlt] at ht
  split at ht
  · cases ht
  · split at ht
    · cases ht
    · split at ht
      · cases ht
      · split at ht
        · cases ht
        · cases ht; rfl

/-! ## The claims -/

/-- C1: for a range `0 ≤ low < high ≤ n` of a sequence of length `n`, the query of a
`SegmentTreeRMQ` built over the sequence returns an index `i` with `low ≤ i < high`
whose element is at most every element of the range. -/
theorem segmentTree_rmq_correct (elems : List RMQEntry) (low high : Nat)
    (h1 : low < high) (h2 : high ≤ elems.length) :
    ∃ i, segmentTreeQuery elems low high = some i ∧ low ≤ i ∧ i < high ∧
      ∃ v, elems[i]? = some v ∧
        ∀ j, low ≤ j → j < high → ∃ w, elems[j]? = some w ∧ v ≤ w :=
  segmentTreeQuery_isRangeMin elems low high h1 h2

/-- The segment-tree contract at the range `[1, 3)` of `[5, 2, 8, 1, 9, 3]`. -/
theorem segmentTree_rmq_correct_witness :
    (1 < 3 ∧ 3 ≤ ([5, 2, 8, 1, 9, 3] : List RMQEntry).length) ∧
      ∃ i, segmentTreeQuery [5, 2, 8, 1, 9, 3] 1 3 = some i ∧ 1 ≤ i ∧ i < 3 ∧
        ∃ v, ([5, 2, 8, 1, 9, 3] : List RMQEntry)[i]? = some v ∧
          ∀ j, 1 ≤ j → j < 3 → ∃ w, ([5, 2, 8, 1, 9, 3] : List RMQEntry)[j]? = some w ∧ v ≤ w :=
  ⟨⟨by decide, by decide⟩,
    segmentTree_rmq_correct [5, 2, 8, 1, 9, 3] 1 3 (by decide) (by decide)⟩

/-- C2: for a range `0 ≤ low < high ≤ n` of a sequence of length `n`, the table entry
`indexVector[low][high-1]` returned by `PrecomputedRMQ::rmq` is an index `i` with
`low ≤ i < high` whose element is at most every element of the range. -/
theorem precomputed_rmq_correct (elems : List RMQEntry) (low high : Nat)
    (hsz : elems.length < 2 ^ 64) (h1 : low < high) (h2 : high ≤ elems.length) :
    ∃ i, precomputedQuery elems low high = some i ∧ low ≤ i ∧ i < high ∧
      ∃ v, elems[i]? = some v ∧
        ∀ j, low ≤ j → j < high → ∃ w, elems[j]? = some w ∧ v ≤ w :=
  precomputedQuery_isRangeMin elems low high hsz h1 h2

/-- The precomputed-table contract at the range `[2, 5)` of `[5, 2, 8, 1, 9, 3]`. -/
theorem precomputed_rmq_correct_witness :
    (([5, 2, 8, 1, 9, 3] : List RMQEntry).length < 2 ^ 64 ∧ 2 < 5 ∧
        5 ≤ ([5, 2, 8, 1, 9, 3] : List RMQEntry).length) ∧
      ∃ i, precomputedQuery [5, 2, 8, 1, 9, 3] 2 5 = some i ∧ 2 ≤ i ∧ i < 5 ∧
        ∃ v, ([5, 2, 8, 1, 9, 3] : List RMQEntry)[i]? = some v ∧
          ∀ j, 2 ≤ j → j < 5 → ∃ w, ([5, 2, 8, 1, 9, 3] : List RMQEntry)[j]? = some w ∧ v ≤ w :=
  ⟨⟨by decide, by decide, by decide⟩,
    precomputed_rmq_correct [5, 2, 8, 1, 9, 3] 2 5 (by decide) (by decide) (by decide)⟩

/-- For at most `2^31` elements and a range `0 ≤ low < high ≤ n`, the query of a
`SparseTableRMQ` built over the sequence returns an index `i` with `low ≤ i < high`
whose element is at most every element of the range. -/
theorem sparseTable_rmq_correct_bounded (elems : List RMQEntry) (low high : Nat)
    (h1 : low < high) (h2 : high ≤ elems.length) (h31 : elems.length ≤ 2 ^ 31) :
    ∃ i, sparseTableQuery elems low high = some i ∧ low ≤ i ∧ i < high ∧
      ∃ v, elems[i]? = some v ∧
        ∀ j, low ≤ j → j < high → ∃ w, elems[j]? = some w ∧ v ≤ w :=
  sparseTableQuery_isRangeMin elems low high h1 h2 h31

/-- C3, a defect of the code: over an array of `2^31 + 1` elements the constructor returns
with level `31` empty, because `1 << 31` is `INT_MIN` and the test
`j + (1 << 31) <= numElems` fails at `j = 0`; the query of the whole range
`[0, 2^31 + 1)` selects level `31`, reads `indexVector[31][0]` out of bounds, and
returns no index. -/
theorem sparseTable_rmq_int_shift :
    ∃ t, SparseTableRMQ.build (List.replicate (2 ^ 31 + 1) (0 : RMQEntry)) (2 ^ 31 + 1) = some t ∧
      t.rmq 0 (2 ^ 31 + 1) = none ∧
      sparseTableQuery (List.replicate (2 ^ 31 + 1) (0 : RMQEntry)) 0 (2 ^ 31 + 1) = none := by
  obtain ⟨t, ht, hlog, _, hrow⟩ := sparse_build_level31 (List.replicate (2 ^ 31 + 1) (0 : RMQEntry))
    (2 ^ 31 + 1) (by rw [List.length_replicate]) (by omega) (by omega)
  exact ⟨t, ht,
    (sparse_rmq_level31 t (2 ^ 31 + 1) hlog hrow 0 (2 ^ 31 + 1) (by omega)
      (Nat.le_refl _) (by omega)).2.2,
    sparseTableQuery_level31 _ 0 (2 ^ 31 + 1) (by rw [List.length_replicate]; omega)
      (by rw [List.length_replicate]; omega) (by omega) (by rw [List.length_replicate])⟩

/-- C4: for a range `0 ≤ low < high ≤ n` of a sequence of length `n`, the query of a
`HybridRMQ` built over the sequence with block size `round(sqrt(n))` returns an index
`i` with `low ≤ i < high` whose element is at most every element of the range,
whichever of the three block cases the range falls in. -/
theorem hybrid_rmq_correct (elems : List RMQEntry) (low high : Nat)
    (h1 : low < high) (h2 : high ≤ elems.length) :
    ∃ i, hybridQuery elems low high = some i ∧ low ≤ i ∧ i < high ∧
      ∃ v, elems[i]? = some v ∧
        ∀ j, low ≤ j → j < high → ∃ w, elems[j]? = some w ∧ v ≤ w :=
  hybridQuery_isRangeMin elems low high h1 h2

/-- The hybrid contract at the range `[0, 6)` of `[5, 2, 8, 1, 9, 3]`. -/
theorem hybrid_rmq_correct_witness :
    (0 < 6 ∧ 6 ≤ ([5, 2, 8, 1, 9, 3] : List RMQEntry).length) ∧
      ∃ i, hybridQuery [5, 2, 8, 1, 9, 3] 0 6 = some i ∧ 0 ≤ i ∧ i < 6 ∧
        ∃ v, ([5, 2, 8, 1, 9, 3] : List RMQEntry)[i]? = some v ∧
          ∀ j, 0 ≤ j → j < 6 → ∃ w, ([5, 2, 8, 1, 9, 3] : List RMQEntry)[j]? = some w ∧ v ≤ w :=
  ⟨⟨by decide, by decide⟩,
    hybrid_rmq_correct [5, 2, 8, 1, 9, 3] 0 6 (by decide) (by decide)⟩

/-- For at most `2^31` elements and a range `0 ≤ low < high ≤ n`, `SegmentTreeRMQ`
returns an index `ours`, and each of `PrecomputedRMQ`, `SparseTableRMQ` and `HybridRMQ`
returns an index `theirs < n` with `data[ours] == data[theirs]`. -/
theorem harness_cross_check_bounded (elems : List RMQEntry) (low high : Nat)
    (h31 : elems.length ≤ 2 ^ 31) (h1 : low < high) (h2 : high ≤ elems.length) :
    ∃ ours v, segmentTreeQuery elems low high = some ours ∧ elems[ours]? = some v ∧
      (∃ theirs, precomputedQuery elems low high = some theirs ∧ theirs < elems.length ∧
        elems[theirs]? = some v) ∧
      (∃ theirs, sparseTableQuery elems low high = some theirs ∧ theirs < elems.length ∧
        elems[theirs]? = some v) ∧
      (∃ theirs, hybridQuery elems low high = some theirs ∧ theirs < elems.length ∧
        elems[theirs]? = some v) := by
  have hsz : elems.length < 2 ^ 64 := by omega
  obtain ⟨ours, ho, hmin⟩ := segmentTreeQuery_isRangeMin elems low high h1 h2
  obtain ⟨p, hp, hpmin⟩ := precomputedQuery_isRangeMin elems low high hsz h1 h2
  obtain ⟨s, hs, hsmin⟩ := sparseTableQuery_isRangeMin elems low high h1 h2 h31
  obtain ⟨y, hy, hymin⟩ := hybridQuery_isRangeMin elems low high h1 h2
  obtain ⟨v, hv, hvp⟩ := isRangeMin_value_eq hmin hpmin
  obtain ⟨v1, hv1, hvs⟩ := isRangeMin_value_eq hmin hsmin
  obtain ⟨v2, hv2, hvy⟩ := isRangeMin_value_eq hmin hymin
  rw [hv] at hv1 hv2
  cases hv1
  cases hv2
  exact ⟨ours, v, ho, hv, ⟨p, hp, by have := hpmin.2.1; omega, hvp⟩,
    ⟨s, hs, by have := hsmin.2.1; omega, hvs⟩, ⟨y, hy, by have := hymin.2.1; omega, hvy⟩⟩

/-- C5, a defect of the code: over an array of `2^31 + 1` elements and the range
`[0, 2^31 + 1)`, `SegmentTreeRMQ` returns an index `ours` holding a value `v`, and
`SparseTableRMQ` returns no index at all, so there is no `theirs` to compare with. -/
theorem harness_sparse_no_index :
    ∃ ours v, segmentTreeQuery (List.replicate (2 ^ 31 + 1) (0 : RMQEntry)) 0 (2 ^ 31 + 1) = some ours ∧
      (List.replicate (2 ^ 31 + 1) (0 : RMQEntry))[ours]? = some v ∧
      ∀ theirs, sparseTableQuery (List.replicate (2 ^ 31 + 1) (0 : RMQEntry)) 0 (2 ^ 31 + 1) ≠ some theirs := by
  obtain ⟨ours, ho, _, _, v, hv, _⟩ := segmentTreeQuery_isRangeMin
    (List.replicate (2 ^ 31 + 1) (0 : RMQEntry)) 0 (2 ^ 31 + 1) (by omega)
    (by rw [List.length_replicate])
  refine ⟨ours, v, ho, hv, ?_⟩
  intro theirs he
  rw [sparseTableQuery_level31 _ 0 (2 ^ 31 + 1) (by rw [List.length_replicate]; omega)
    (by rw [List.length_replicate]; omega) (by omega) (by rw [List.length_replicate])] at he
  cases he

/-- For a sequence of `n ≤ 2^32` elements and a position `low < n`, each of the four
structures answers the one-element range `[low, low + 1)` with exactly `low`. -/
theorem singleton_range_bounded (elems : List RMQEntry) (low : Nat)
    (h32 : elems.length ≤ 2 ^ 32) (h : low < elems.length) :
    precomputedQuery elems low (low + 1) = some low ∧
      sparseTableQuery elems low (low + 1) = some low ∧
      segmentTreeQuery elems low (low + 1) = some low ∧
      hybridQuery elems low (low + 1) = some low := by
  obtain ⟨a, ha, hamin⟩ := precomputedQuery_isRangeMin elems low (low + 1) (by omega)
    (by omega) (by omega)
  obtain ⟨c, hc, hcmin⟩ := segmentTreeQuery_isRangeMin elems low (low + 1) (by omega) (by omega)
  obtain ⟨d, hd, hdmin⟩ := hybridQuery_isRangeMin elems low (low + 1) (by omega) (by omega)
  rw [isRangeMin_eq_of_single hamin] at ha
  rw [isRangeMin_eq_of_single hcmin] at hc
  rw [isRangeMin_eq_of_single hdmin] at hd
  exact ⟨ha, sparseTableQuery_singleton elems low h h32, hc, hd⟩

/-- C6, a defect of the code: over an array of `2^32 + 1` elements the table of a
`SparseTableRMQ` has a level `32`, and its constructor evaluates `1 << 32` in the test
of the loop of that level, a shift of an `int` by its width, which is undefined; there
is no structure to answer the one-element range `[0, 1)`. `SegmentTreeRMQ` answers it
with `0`. -/
theorem singleton_sparse_shift_undefined :
    SparseTableRMQ.build (List.replicate (2 ^ 32 + 1) (0 : RMQEntry)) (2 ^ 32 + 1) = none ∧
      sparseTableQuery (List.replicate (2 ^ 32 + 1) (0 : RMQEntry)) 0 (0 + 1) = none ∧
      segmentTreeQuery (List.replicate (2 ^ 32 + 1) (0 : RMQEntry)) 0 (0 + 1) = some 0 := by
  have hb : SparseTableRMQ.build (List.replicate (2 ^ 32 + 1) (0 : RMQEntry)) (2 ^ 32 + 1) = none :=
    sparse_build_undefined _ _ (by rw [List.length_replicate]) (by omega)
  refine ⟨hb, sparseTableQuery_undefined _ 0 (0 + 1) (by rw [List.length_replicate]; omega),
    ?_⟩
  · obtain ⟨c, hc, hcmin⟩ := segmentTreeQuery_isRangeMin (List.replicate (2 ^ 32 + 1) (0 : RMQEntry)) 0 (0 + 1)
      (by omega) (by rw [List.length_replicate]; omega)
    rw [isRangeMin_eq_of_single hcmin] at hc
    exact hc


/-- The block size of a structure over six elements. -/
theorem roundSqrt_six : roundSqrt 6 = 2 := by
  have h : Nat.sqrt 6 = 2 := (Nat.eq_sqrt.2 ⟨by decide, by decide⟩).symm
  simp [roundSqrt, h]

/-- The tree built over `[5, 2, 8, 1, 9, 3]`. -/
theorem makeTree_example :
    makeTree [5, 2, 8, 1, 9, 3] 0 6 = some
      (Node.node 0 6 3
        (Node.node 0 3 1 (Node.node 0 1 0 Node.null Node.null)
          (Node.node 1 3 1 (Node.node 1 2 1 Node.null Node.null)
            (Node.node 2 3 2 Node.null Node.null)))
        (Node.node 3 6 3 (Node.node 3 4 3 Node.null Node.null)
          (Node.node 4 6 5 (Node.node 4 5 4 Node.null Node.null)
            (Node.node 5 6 5 Node.null Node.null)))) := by
  simp [makeTree, entryLt, Node.minIndex?]

/-- The hybrid structure built over `[5, 2, 8, 1, 9, 3]`. -/
theorem hybrid_build_example :
    HybridRMQ.build [5, 2, 8, 1, 9, 3] 6 = some ⟨[1, 3, 5], [5, 2, 8, 1, 9, 3], 2⟩ := by
  unfold HybridRMQ.build
  rw [roundSqrt_six]
  decide

/-- C7: on the sequence `[5, 2, 8, 1, 9, 3]` each of the four structures answers
`[0,6)` with `3`, `[1,3)` with `1`, `[2,5)` with `3` and `[4,6)` with `5`. -/
theorem concrete_scenario :
    (precomputedQuery [5, 2, 8, 1, 9, 3] 0 6 = some 3 ∧
      precomputedQuery [5, 2, 8, 1, 9, 3] 1 3 = some 1 ∧
      precomputedQuery [5, 2, 8, 1, 9, 3] 2 5 = some 3 ∧
      precomputedQuery [5, 2, 8, 1, 9, 3] 4 6 = some 5) ∧
    (sparseTableQuery [5, 2, 8, 1, 9, 3] 0 6 = some 3 ∧
      sparseTableQuery [5, 2, 8, 1, 9, 3] 1 3 = some 1 ∧
      sparseTableQuery [5, 2, 8, 1, 9, 3] 2 5 = some 3 ∧
      sparseTableQuery [5, 2, 8, 1, 9, 3] 4 6 = some 5) ∧
    (segmentTreeQuery [5, 2, 8, 1, 9, 3] 0 6 = some 3 ∧
      segmentTreeQuery [5, 2, 8, 1, 9, 3] 1 3 = some 1 ∧
      segmentTreeQuery [5, 2, 8, 1, 9, 3] 2 5 = some 3 ∧
      segmentTreeQuery [5, 2, 8, 1, 9, 3] 4 6 = some 5) ∧
    (hybridQuery [5, 2, 8, 1, 9, 3] 0 6 = some 3 ∧
      hybridQuery [5, 2, 8, 1, 9, 3] 1 3 = some 1 ∧
      hybridQuery [5, 2, 8, 1, 9, 3] 2 5 = some 3 ∧
      hybridQuery [5, 2, 8, 1, 9, 3] 4 6 = some 5) := by
  refine ⟨by decide, by decide, ?_, ?_⟩
  · have hlen : ([5, 2, 8, 1, 9, 3] : List RMQEntry).length = 6 := rfl
    simp only [segmentTreeQuery, SegmentTreeRMQ.build, hlen, makeTree_example,
      SegmentTreeRMQ.rmq]
    decide
  · have hlen : ([5, 2, 8, 1, 9, 3] : List RMQEntry).length = 6 := rfl
    simp only [hybridQuery, hlen, hybrid_build_example]
    decide


/-- C8: with `numElems = 0` the first construction loop leaves the table empty, the
bound `numElems - 1` of the second loop wraps to `2^64 - 1`, so the loop is entered,
and its first iteration reads `indexVector[0][0]` of the empty table: the
constructor has no defined result. -/
theorem precomputed_build_empty :
    PrecomputedRMQ.initTable 0 = some [] ∧
      PrecomputedRMQ.numElems_SubOne 0 = 2 ^ 64 - 1 ∧
      0 < PrecomputedRMQ.numElems_SubOne 0 ∧
      at2 [] 0 0 = none ∧
      PrecomputedRMQ.fillStep [] 0 ([], 0) = none ∧
      PrecomputedRMQ.fillPass [] (PrecomputedRMQ.numElems_SubOne 0) 0 [] = none ∧
      PrecomputedRMQ.build [] 0 = none := by
  decide

/-- C9: with `numElems = 0` the block size `round(sqrt(0))` is `0`, and the division
`numElems / blockSize` of the constructor divides by zero: the constructor has no
defined result. -/
theorem hybrid_blockSize_empty :
    roundSqrt 0 = 0 ∧ HybridRMQ.build [] 0 = none := by
  have h : roundSqrt 0 = 0 := by simp [roundSqrt]
  exact ⟨h, by simp [HybridRMQ.build, h]⟩

/-- C10: for a sequence of length `n ≥ 1` the constructor of `HybridRMQ` succeeds with
block size `b = round(sqrt(n))`; the summary has `⌈n / b⌉ = (n + b - 1) / b` entries
(the length `L` with `n ≤ L * b < n + b`), and the entry of each block `i` is an index
of `[i * b, min ((i + 1) * b) n)` whose element is at most every element of that block. -/
theorem hybrid_summary_correct (elems : List RMQEntry) (h : 1 ≤ elems.length) :
    ∃ t, HybridRMQ.build elems elems.length = some t ∧
      t.blockSize = roundSqrt elems.length ∧
      t.summary.length = (elems.length + t.blockSize - 1) / t.blockSize ∧
      elems.length ≤ t.summary.length * t.blockSize ∧
      t.summary.length * t.blockSize < elems.length + t.blockSize ∧
      ∀ i, i < t.summary.length →
        ∃ x, t.summary[i]? = some x ∧
          i * t.blockSize ≤ x ∧ x < min ((i + 1) * t.blockSize) elems.length ∧
          ∃ v, elems[x]? = some v ∧
            ∀ j, i * t.blockSize ≤ j → j < min ((i + 1) * t.blockSize) elems.length →
              ∃ w, elems[j]? = some w ∧ v ≤ w := by
  obtain ⟨t, ht, _, hbs, hlen, hent⟩ := hybrid_build_spec elems elems.length h (Nat.le_refl _)
  have hb := roundSqrt_pos elems.length h
  rw [← hbs] at hlen hent hb
  have hd := Nat.div_add_mod (elems.length + t.blockSize - 1) t.blockSize
  have hm := Nat.mod_lt (elems.length + t.blockSize - 1) (show t.blockSize > 0 by omega)
  rw [Nat.mul_comm] at hd
  refine ⟨t, ht, hbs, hlen, by rw [hlen]; omega, by rw [hlen]; omega, ?_⟩
  intro i hi
  exact hent i (by rw [← hlen]; exact hi)

/-- The summary of the structure built over `[5, 2, 8, 1, 9, 3]`. -/
theorem hybrid_summary_correct_witness :
    1 ≤ ([5, 2, 8, 1, 9, 3] : List RMQEntry).length ∧
    ∃ t, HybridRMQ.build [5, 2, 8, 1, 9, 3] ([5, 2, 8, 1, 9, 3] : List RMQEntry).length
        = some t ∧
      t.blockSize = roundSqrt ([5, 2, 8, 1, 9, 3] : List RMQEntry).length ∧
      t.summary.length
        = (([5, 2, 8, 1, 9, 3] : List RMQEntry).length + t.blockSize - 1) / t.blockSize ∧
      ([5, 2, 8, 1, 9, 3] : List RMQEntry).length ≤ t.summary.length * t.blockSize ∧
      t.summary.length * t.blockSize
        < ([5, 2, 8, 1, 9, 3] : List RMQEntry).length + t.blockSize ∧
      ∀ i, i < t.summary.length →
        ∃ x, t.summary[i]? = some x ∧
          i * t.blockSize ≤ x ∧
          x < min ((i + 1) * t.blockSize) ([5, 2, 8, 1, 9, 3] : List RMQEntry).length ∧
          ∃ v, ([5, 2, 8, 1, 9, 3] : List RMQEntry)[x]? = some v ∧
            ∀ j, i * t.blockSize ≤ j →
              j < min ((i + 1) * t.blockSize) ([5, 2, 8, 1, 9, 3] : List RMQEntry).length →
              ∃ w, ([5, 2, 8, 1, 9, 3] : List RMQEntry)[j]? = some w ∧ v ≤ w :=
  ⟨by decide, hybrid_summary_correct [5, 2, 8, 1, 9, 3] (by decide)⟩

/-! ## SparseTableRMQ: the selected level and its windows -/

theorem log_two_bounds (L : Nat) (h : 1 ≤ L) :
    2 ^ Nat.log 2 L ≤ L ∧ L < 2 ^ (Nat.log 2 L + 1) :=
  ⟨Nat.pow_log_le_self 2 (by omega), Nat.lt_pow_succ_log_self (by decide) L⟩

/-- The query reads the level `selectedLevel` and nothing else of the log table. -/
theorem sparse_rmq_selectedLevel (t : SparseTableRMQ) (low high : Nat) :
    t.rmq low high =
      match t.selectedLevel low high with
      | none => none
      | some row =>
        if 1 = high - low then at2 t.indexVector row low
        else
          match shiftOne row with
          | none => none
          | some s =>
            match at2 t.indexVector row low, at2 t.indexVector row (sizeSub high s) with
            | some a, some b =>
              match entryLt t.array a b with
              | some c => if c then some a else at2 t.indexVector row (sizeSub high s)
              | none => none
            | _, _ => none :=
  rfl

theorem selectedLevel_eq (n : Nat) (t : SparseTableRMQ)
    (hlog : LogTableInv (max 2 n) t.logTable) (low high : Nat) (h1 : low < high)
    (h2 : high ≤ n) :
    t.selectedLevel low high = some (Nat.log 2 (high - low - 1)) :=
  hlog.2 _ (by omega)

theorem sparse_rmq_windows (elems : List RMQEntry) (n : Nat) (t : SparseTableRMQ)
    (harr : t.array = elems) (hlog : LogTableInv (max 2 n) t.logTable)
    (hinv : SparseInv elems n (lastLevel n) (lastLevel n + 1) 0 t.indexVector)
    (low high : Nat) (h1 : low + 2 ≤ high) (h2 : high ≤ n) (h31 : n ≤ 2 ^ 31) :
    ∃ a b c, at2 t.indexVector (Nat.log 2 (high - low - 1)) low = some a ∧
      at2 t.indexVector (Nat.log 2 (high - low - 1))
        (high - 2 ^ Nat.log 2 (high - low - 1)) = some b ∧
      entryLt elems a b = some c ∧ t.rmq low high = some (if c then a else b) := by
  have hrow : t.logTable[high - low - 1]? = some (Nat.log 2 (high - low - 1)) :=
    hlog.2 _ (by omega)
  have hone : ¬ 1 = high - low := by omega
  obtain ⟨hk1, hk2⟩ := log_two_bounds (high - low - 1) (by omega)
  have hkK : Nat.log 2 (high - low - 1) ≤ lastLevel n := Nat.log_mono_right (by omega)
  have hK := lastLevel_le_30 n h31
  generalize Nat.log 2 (high - low - 1) = k at hrow hk1 hk2 hkK
  have hs : shiftOne k = some (2 ^ k) := shiftOne_of_le k (by omega)
  have hsub : sizeSub high (2 ^ k) = high - 2 ^ k :=
    sizeSub_eq _ _ (by generalize 2 ^ k = q at hk1; omega) (by omega)
  obtain ⟨a, ha, hamin⟩ := sparseInv_at2 hinv (k := k) (c := low) (by omega) hkK
    (by generalize 2 ^ k = q at hk1; omega)
  obtain ⟨b, hb, hbmin⟩ := sparseInv_at2 hinv (k := k) (c := high - 2 ^ k) (by omega) hkK
    (by generalize 2 ^ k = q at hk1; omega)
  obtain ⟨_, _, va, hva, _⟩ := hamin
  obtain ⟨_, _, vb, hvb, _⟩ := hbmin
  refine ⟨a, b, decide (va < vb), ha, hb, by simp [entryLt, hva, hvb], ?_⟩
  subst harr
  simp only [SparseTableRMQ.rmq, hrow, hone, if_false, hs, hsub, ha, hb, entryLt, hva, hvb]
  by_cases hlt : va < vb <;> simp [hlt, hb]

theorem sparseInv_level {elems : List RMQEntry} {n K : Nat} {iv : List (List Nat)}
    (h : SparseInv elems n K (K + 1) 0 iv) (k : Nat) (hk : k ≤ K) :
    ∃ row, iv[k]? = some row ∧ row.length = n + 1 - 2 ^ k ∧
      ∀ j, j < n + 1 - 2 ^ k → ∃ x, row[j]? = some x ∧ IsRangeMin elems j (j + 2 ^ k) x := by
  obtain ⟨row, hrow, hlev⟩ := h.2 k hk
  have hlt : k < K + 1 := by omega
  simp only [hlt, if_true] at hlev
  exact ⟨row, hrow, hlev.1, hlev.2⟩

theorem lastLevel_pow_le (n : Nat) (h : 1 ≤ n) (k : Nat) (hk : k ≤ lastLevel n) :
    2 ^ k ≤ n := by
  have h1 : 2 ^ k ≤ 2 ^ lastLevel n := Nat.pow_le_pow_right (by decide) hk
  have h2 : 2 ^ lastLevel n ≤ max 2 n - 1 := Nat.pow_log_le_self 2 (by omega)
  have h3 : 2 ^ 0 ≤ 2 ^ k := Nat.pow_le_pow_right (by decide) (Nat.zero_le k)
  by_cases hn : n = 1
  · subst hn
    have : lastLevel 1 = 0 := by simp [lastLevel]
    rw [this] at hk
    have : k = 0 := by omega
    subst this
    simp
  · have : max 2 n - 1 ≤ n := by omega
    exact le_trans h1 (le_trans h2 this)


/-! ## The claims on the sparse table -/

/-- The sparse table built over `[5, 2, 8, 1, 9, 3]`. -/
theorem sparse_build_example :
    SparseTableRMQ.build [5, 2, 8, 1, 9, 3] 6 = some
      ⟨[[0, 1, 2, 3, 4, 5], [1, 1, 3, 3, 5], [3, 3, 3]], [5, 2, 8, 1, 9, 3],
        [0, 0, 1, 1, 2, 2]⟩ := by
  decide

/-- C11, as stated, fails: over the six elements `[5, 2, 8, 1, 9, 3]` the log table is
`[0, 0, 1, 1, 2, 2]`, with no entry `logTable[6]` for the length `L = 6 ≤ n`. -/
theorem logTable_entry_n_missing :
    ∃ t, SparseTableRMQ.build [5, 2, 8, 1, 9, 3] ([5, 2, 8, 1, 9, 3] : List RMQEntry).length
        = some t ∧
      t.logTable = [0, 0, 1, 1, 2, 2] ∧ 1 ≤ 6 ∧
      6 ≤ ([5, 2, 8, 1, 9, 3] : List RMQEntry).length ∧ t.logTable[6]? = none :=
  ⟨_, sparse_build_example, rfl, by decide, by decide, rfl⟩

/-- C11, amended: for a sequence of length `n ≥ 1` the first loop of the constructor of
`SparseTableRMQ` builds a log table of `max 2 n` entries; for every `L` with
`1 ≤ L < max 2 n` the entry `logTable[L]` is `⌊log₂ L⌋`, the `k` with
`2^k ≤ L < 2^(k+1)`, and there is no entry at `max 2 n` or beyond. It is the log table
of the structure whenever the constructor returns one, which it does for `n ≤ 2^32`. -/
theorem logTable_entries (elems : List RMQEntry) (_h : 1 ≤ elems.length) :
    ∃ lt, SparseTableRMQ.buildLogTable elems.length = some lt ∧
      lt.length = max 2 elems.length ∧
      (∀ L, 1 ≤ L → L < max 2 elems.length →
        ∃ k, lt[L]? = some k ∧ k = Nat.log 2 L ∧ 2 ^ k ≤ L ∧ L < 2 ^ (k + 1)) ∧
      (∀ L, max 2 elems.length ≤ L → lt[L]? = none) ∧
      (∀ t, SparseTableRMQ.build elems elems.length = some t → t.logTable = lt) ∧
      (elems.length ≤ 2 ^ 32 →
        ∃ t, SparseTableRMQ.build elems elems.length = some t ∧ t.logTable = lt) := by
  obtain ⟨lt, hlt, hlog⟩ := buildLogTable_spec elems.length
  refine ⟨lt, hlt, hlog.1, ?_, ?_, ?_, ?_⟩
  · intro L hL1 hL2
    obtain ⟨e1, e2⟩ := log_two_bounds L hL1
    exact ⟨Nat.log 2 L, hlog.2 L hL2, rfl, e1, e2⟩
  · intro L hL
    exact List.getElem?_eq_none (by rw [hlog.1]; exact hL)
  · intro t ht
    exact sparse_build_logTable elems elems.length t lt hlt ht
  · intro h32
    obtain ⟨t, ht, _⟩ := sparse_build_wide elems elems.length (Nat.le_refl _) h32
    exact ⟨t, ht, sparse_build_logTable elems elems.length t lt hlt ht⟩

/-- The log table of the structure built over `[5, 2, 8, 1, 9, 3]`. -/
theorem logTable_entries_witness :
    1 ≤ ([5, 2, 8, 1, 9, 3] : List RMQEntry).length ∧
      ∃ lt, SparseTableRMQ.buildLogTable ([5, 2, 8, 1, 9, 3] : List RMQEntry).length
          = some lt ∧
        lt.length = max 2 ([5, 2, 8, 1, 9, 3] : List RMQEntry).length ∧
        (∀ L, 1 ≤ L → L < max 2 ([5, 2, 8, 1, 9, 3] : List RMQEntry).length →
          ∃ k, lt[L]? = some k ∧ k = Nat.log 2 L ∧ 2 ^ k ≤ L ∧ L < 2 ^ (k + 1)) ∧
        (∀ L, max 2 ([5, 2, 8, 1, 9, 3] : List RMQEntry).length ≤ L → lt[L]? = none) ∧
        (∀ t, SparseTableRMQ.build [5, 2, 8, 1, 9, 3]
            ([5, 2, 8, 1, 9, 3] : List RMQEntry).length = some t → t.logTable = lt) ∧
        (([5, 2, 8, 1, 9, 3] : List RMQEntry).length ≤ 2 ^ 32 →
          ∃ t, SparseTableRMQ.build [5, 2, 8, 1, 9, 3]
              ([5, 2, 8, 1, 9, 3] : List RMQEntry).length = some t ∧ t.logTable = lt) :=
  ⟨by decide, logTable_entries [5, 2, 8, 1, 9, 3] (by decide)⟩

/-- C12, as stated, fails: over `[5, 2, 8, 1, 9, 3]` the query of the range `[0, 2)`, of
length `L = 2`, selects level `0`, although `2^1 ≤ L`; the query of `[0, 4)` selects
level `1`, although `2^2 ≤ 4`. -/
theorem selectedLevel_power_of_two :
    ∃ t, SparseTableRMQ.build [5, 2, 8, 1, 9, 3] ([5, 2, 8, 1, 9, 3] : List RMQEntry).length
        = some t ∧
      t.selectedLevel 0 2 = some 0 ∧ 2 ^ 1 ≤ 2 - 0 ∧
      t.selectedLevel 0 4 = some 1 ∧ 2 ^ 2 ≤ 4 - 0 :=
  ⟨_, sparse_build_example, rfl, by decide, rfl, by decide⟩

/-- C12, amended: for a sequence of `n ≤ 2^31` elements and a range `0 ≤ low < high ≤ n`
of length `L = high - low ≥ 1`, the query reads its level `k` from `logTable[L - 1]`:
`k = 0` when `L = 1`, and when `L ≥ 2` `k = ⌊log₂ (L - 1)⌋`, the largest exponent with
`2^k ≤ L - 1`, so `2^k < L ≤ 2^(k+1)`; the shift `1 << k` is `2^k`, the position
`high - (1 << k)` is `high - 2^k`, and the answer is one of the two entries
`levels[k][low]`, `levels[k][high - 2^k]`, which are the same entry when `L = 1`. -/
theorem selectedLevel_spec (elems : List RMQEntry) (low high : Nat)
    (h1 : low < high) (h2 : high ≤ elems.length) (h31 : elems.length ≤ 2 ^ 31) :
    ∃ t k, SparseTableRMQ.build elems elems.length = some t ∧
      t.selectedLevel low high = some k ∧ k = Nat.log 2 (high - low - 1) ∧
      (high - low = 1 → k = 0) ∧
      (2 ≤ high - low → 2 ^ k ≤ high - low - 1 ∧ high - low - 1 < 2 ^ (k + 1)) ∧
      shiftOne k = some (2 ^ k) ∧ sizeSub high (2 ^ k) = high - 2 ^ k ∧
      ∃ a b, at2 t.indexVector k low = some a ∧
        at2 t.indexVector k (high - 2 ^ k) = some b ∧
        (t.rmq low high = some a ∨ t.rmq low high = some b) := by
  obtain ⟨t, ht, harr, hlog, hinv⟩ := sparse_build_spec elems elems.length (Nat.le_refl _) h31
  have hK := lastLevel_le_30 elems.length h31
  have hkK : Nat.log 2 (high - low - 1) ≤ lastLevel elems.length :=
    Nat.log_mono_right (by omega)
  have hsel := selectedLevel_eq elems.length t hlog low high h1 h2
  have hpow : 2 ^ Nat.log 2 (high - low - 1) ≤ high := by
    by_cases hone : high - low = 1
    · have : high - low - 1 = 0 := by omega
      rw [this]; simp; omega
    · exact le_trans (log_two_bounds (high - low - 1) (by omega)).1 (by omega)
  refine ⟨t, _, ht, hsel, rfl, ?_, ?_, shiftOne_of_le _ (by omega),
    sizeSub_eq _ _ hpow (by omega), ?_⟩
  · intro hone
    have : high - low - 1 = 0 := by omega
    rw [this]; simp
  · intro htwo
    exact log_two_bounds (high - low - 1) (by omega)
  · by_cases hone : high - low = 1
    · have hz : high - low - 1 = 0 := by omega
      have hrow : t.logTable[high - low - 1]? = some 0 := by
        rw [hz, hlog.2 0 (by omega)]; simp
      obtain ⟨x, hx1, _⟩ := sparseInv_at2 hinv (k := 0) (c := low) (by omega)
        (Nat.zero_le _) (by simp; omega)
      have hlow : high - 2 ^ 0 = low := by simp; omega
      have hr : t.rmq low high = some x := by
        simp only [SparseTableRMQ.rmq, hrow]
        rw [if_pos hone.symm]
        exact hx1
      rw [hz]
      simp only [Nat.log_zero_right]
      exact ⟨x, x, hx1, by rw [hlow]; exact hx1, Or.inl hr⟩
    · obtain ⟨a, b, c, ha, hb, _, hr⟩ := sparse_rmq_windows elems elems.length t harr hlog
        hinv low high (by omega) h2 h31
      refine ⟨a, b, ha, hb, ?_⟩
      cases c
      · exact Or.inr (by simpa using hr)
      · exact Or.inl (by simpa using hr)

/-- The level selected for the range `[0, 6)` of `[5, 2, 8, 1, 9, 3]`. -/
theorem selectedLevel_spec_witness :
    (0 < 6 ∧ 6 ≤ ([5, 2, 8, 1, 9, 3] : List RMQEntry).length ∧
        ([5, 2, 8, 1, 9, 3] : List RMQEntry).length ≤ 2 ^ 31) ∧
      ∃ t k, SparseTableRMQ.build [5, 2, 8, 1, 9, 3]
          ([5, 2, 8, 1, 9, 3] : List RMQEntry).length = some t ∧
        t.selectedLevel 0 6 = some k ∧ k = Nat.log 2 (6 - 0 - 1) ∧
        (6 - 0 = 1 → k = 0) ∧
        (2 ≤ 6 - 0 → 2 ^ k ≤ 6 - 0 - 1 ∧ 6 - 0 - 1 < 2 ^ (k + 1)) ∧
        shiftOne k = some (2 ^ k) ∧ sizeSub 6 (2 ^ k) = 6 - 2 ^ k ∧
        ∃ a b, at2 t.indexVector k 0 = some a ∧
          at2 t.indexVector k (6 - 2 ^ k) = some b ∧
          (t.rmq 0 6 = some a ∨ t.rmq 0 6 = some b) :=
  ⟨⟨by decide, by decide, by decide⟩,
    selectedLevel_spec [5, 2, 8, 1, 9, 3] 0 6 (by decide) (by decide) (by decide)⟩

/-- For a sequence of `n ≤ 2^31` elements, a range `0 ≤ low < high ≤ n` of length at
least `2` and the level `k` the query selects: the shift `1 << k` is `2^k` and the
position `high - (1 << k)` is `high - 2^k`; the windows `[low, low + 2^k)` and
`[high - 2^k, high)` lie inside `[low, high)` and a position is in `[low, high)` exactly
when it is in one of them. -/
theorem selected_windows_cover_bounded (elems : List RMQEntry) (low high : Nat)
    (h1 : low + 2 ≤ high) (h2 : high ≤ elems.length) (h31 : elems.length ≤ 2 ^ 31) :
    ∃ t k, SparseTableRMQ.build elems elems.length = some t ∧
      t.selectedLevel low high = some k ∧
      shiftOne k = some (2 ^ k) ∧ sizeSub high (2 ^ k) = high - 2 ^ k ∧
      low + 2 ^ k ≤ high ∧ 2 ^ k ≤ high ∧ low ≤ high - 2 ^ k ∧
      ∀ j, (low ≤ j ∧ j < high) ↔
        ((low ≤ j ∧ j < low + 2 ^ k) ∨ (high - 2 ^ k ≤ j ∧ j < high)) := by
  obtain ⟨t, ht, _, hlog, _⟩ := sparse_build_spec elems elems.length (Nat.le_refl _) h31
  obtain ⟨e1, e2⟩ := log_two_bounds (high - low - 1) (by omega)
  have hK := lastLevel_le_30 elems.length h31
  have hkK : Nat.log 2 (high - low - 1) ≤ lastLevel elems.length :=
    Nat.log_mono_right (by omega)
  refine ⟨t, _, ht, selectedLevel_eq elems.length t hlog low high (by omega) h2,
    shiftOne_of_le _ (by omega), sizeSub_eq _ _ (le_trans e1 (by omega)) (by omega), ?_⟩
  rw [pow_succ] at e2
  generalize 2 ^ Nat.log 2 (high - low - 1) = q at e1 e2
  refine ⟨by omega, by omega, by omega, ?_⟩
  intro j
  omega

/-- For a sequence of length `1 ≤ n ≤ 2^31` the constructor of `SparseTableRMQ` succeeds and
builds the levels `0, …, ⌊log₂ (max 2 n - 1)⌋`; level `k` has `n - 2^k + 1` entries
(with `2^k ≤ n`), level `0` holds `j` at position `j`, and the entry `j` of level `k`
is an index of `[j, j + 2^k)` whose element is at most every element of that window. -/
theorem sparse_levels_correct_bounded (elems : List RMQEntry) (h : 1 ≤ elems.length)
    (h31 : elems.length ≤ 2 ^ 31) :
    ∃ t, SparseTableRMQ.build elems elems.length = some t ∧
      t.indexVector.length = Nat.log 2 (max 2 elems.length - 1) + 1 ∧
      ∀ k, k < t.indexVector.length →
        ∃ row, t.indexVector[k]? = some row ∧
          2 ^ k ≤ elems.length ∧ row.length = elems.length - 2 ^ k + 1 ∧
          (k = 0 → ∀ j, j < row.length → row[j]? = some j) ∧
          ∀ j, j < row.length →
            ∃ x, row[j]? = some x ∧ j ≤ x ∧ x < j + 2 ^ k ∧
              ∃ v, elems[x]? = some v ∧
                ∀ i, j ≤ i → i < j + 2 ^ k → ∃ w, elems[i]? = some w ∧ v ≤ w := by
  obtain ⟨t, ht, _, _, hinv⟩ := sparse_build_spec elems elems.length (Nat.le_refl _) h31
  refine ⟨t, ht, hinv.1, ?_⟩
  intro k hk
  have hkK : k ≤ lastLevel elems.length := by
    have := hinv.1
    omega
  obtain ⟨row, hrow, hlen, hent⟩ := sparseInv_level hinv k hkK
  have hpow := lastLevel_pow_le elems.length h k hkK
  have hlen' : row.length = elems.length - 2 ^ k + 1 := by
    rw [hlen]
    generalize 2 ^ k = q at hpow
    omega
  refine ⟨row, hrow, hpow, hlen', ?_, ?_⟩
  · intro hk0 j hj
    subst hk0
    obtain ⟨x, hx, hmin⟩ := hent j (by rw [← hlen]; exact hj)
    have : x = j := isRangeMin_eq_of_single (by simpa using hmin)
    rw [hx, this]
  · intro j hj
    obtain ⟨x, hx, hmin⟩ := hent j (by rw [← hlen]; exact hj)
    exact ⟨x, hx, hmin⟩

/-- C14, a defect of the code: over an array of `n = 2^31 + 1` elements the constructor
builds `32` levels and leaves level `31` without entries, where `n - 2^31 + 1 = 2`
entries are due: `1 << 31` is `INT_MIN`, and the test `j + (1 << 31) <= numElems` of the
loop of that level fails at `j = 0`. -/
theorem sparse_level31_empty :
    ∃ t row, SparseTableRMQ.build (List.replicate (2 ^ 31 + 1) (0 : RMQEntry)) (2 ^ 31 + 1) = some t ∧
      t.indexVector.length = 32 ∧ t.indexVector[31]? = some row ∧ row.length = 0 ∧
      2 ^ 31 + 1 - 2 ^ 31 + 1 = 2 := by
  obtain ⟨t, ht, _, hlen, hrow⟩ := sparse_build_level31 (List.replicate (2 ^ 31 + 1) (0 : RMQEntry))
    (2 ^ 31 + 1) (by rw [List.length_replicate]) (by omega) (by omega)
  exact ⟨t, [], ht, hlen, hrow, rfl, by decide⟩

/-! ## SegmentTreeRMQ: the nodes and the calls -/

theorem treeOver_shape {elems : List RMQEntry} {t : Node} {low high : Nat}
    (h : TreeOver elems t low high) :
    ∃ m l r, t = Node.node low high m l r ∧ low < high := by
  cases h with
  | leaf low h => exact ⟨low, Node.null, Node.null, rfl, Nat.lt_succ_self _⟩
  | inner low high m l r hlt hl hr hm => exact ⟨m, l, r, rfl, by omega⟩

theorem makeTree_empty (elems : List RMQEntry) (low : Nat) :
    makeTree elems low low = some Node.null := by
  rw [makeTree]; simp

theorem treeOver_node {elems : List RMQEntry} {low high m a b : Nat} {l r : Node}
    (h : TreeOver elems (Node.node low high m l r) a b) :
    a = low ∧ b = high ∧ low < high ∧ IsRangeMin elems low high m ∧
      ((l = Node.null ∧ r = Node.null) ↔ high = low + 1) ∧
      (high ≠ low + 1 →
        TreeOver elems l low (low + (high - low) / 2) ∧
        TreeOver elems r (low + (high - low) / 2) high) := by
  cases h with
  | leaf _ h =>
    refine ⟨rfl, rfl, Nat.lt_succ_self _, isRangeMin_single _ _ h, ?_, ?_⟩
    · simp
    · intro hne; exact absurd rfl hne
  | inner _ _ _ _ _ hlt hl hr hm =>
    refine ⟨rfl, rfl, by omega, hm, ?_, ?_⟩
    · constructor
      · intro ⟨hl0, _⟩
        subst hl0
        obtain ⟨_, _, _, hshape, _⟩ := treeOver_shape hl
        exact absurd hshape (by simp)
      · intro heq; omega
    · intro _; exact ⟨hl, hr⟩

theorem treeOver_of_mem_nodes {elems : List RMQEntry} {t : Node} {low high : Nat}
    (h : TreeOver elems t low high) :
    ∀ nd, nd ∈ t.nodes → ∃ a b, TreeOver elems nd a b := by
  induction h with
  | leaf low h =>
    intro nd hnd
    simp only [Node.nodes, List.append_nil, List.mem_singleton] at hnd
    subst hnd
    exact ⟨_, _, TreeOver.leaf low h⟩
  | inner low high m l r hlt hl hr hm ihl ihr =>
    intro nd hnd
    simp only [Node.nodes, List.mem_cons, List.mem_append] at hnd
    rcases hnd with hnd | hnd | hnd
    · subst hnd
      exact ⟨_, _, TreeOver.inner low high m l r hlt hl hr hm⟩
    · exact ihl nd hnd
    · exact ihr nd hnd

theorem rmqRecCalls_args (t : Node) (low high : Nat) :
    (rmqRecCalls t low high).args = (t, low, high) := by
  cases t with
  | null => rfl
  | node tl th tm l r =>
    simp only [rmqRecCalls]
    split
    · rfl
    · split
      · rfl
      · split <;> rfl

theorem rmqRecCalls_result (elems : List RMQEntry) (t : Node) :
    ∀ low high, (rmqRecCalls t low high).result elems = rmqRec elems t low high := by
  induction t with
  | null => intro low high; rfl
  | node tl th tm l r ihl ihr =>
    intro low high
    simp only [rmqRecCalls, rmqRec]
    split
    · rfl
    · split
      · simp only [CallTree.result]; exact ihl low high
      · split
        · simp only [CallTree.result]; exact ihr low high
        · simp only [CallTree.result, ihl, ihr]

theorem rmqRecCalls_self_mem (t : Node) (low high : Nat) :
    rmqRecCalls t low high ∈ (rmqRecCalls t low high).calls := by
  cases h : rmqRecCalls t low high <;> simp [CallTree.calls]

theorem rmqRecCalls_exact {elems : List RMQEntry} {t : Node} {low high : Nat}
    (h : TreeOver elems t low high) :
    ∃ m l r, t = Node.node low high m l r ∧
      rmqRecCalls t low high = CallTree.exact (Node.node low high m l r) low high := by
  obtain ⟨m, l, r, ht, _⟩ := treeOver_shape h
  subst ht
  exact ⟨m, l, r, rfl, by simp [rmqRecCalls]⟩

/-- The calls of a query inside the range of a segment tree are calls on segment
trees, each on a range inside the range of its node. -/
theorem rmqRecCalls_valid {elems : List RMQEntry} {t : Node} {tl th : Nat}
    (ht : TreeOver elems t tl th) :
    ∀ low high, tl ≤ low → low < high → high ≤ th →
      ∀ c, c ∈ (rmqRecCalls t low high).calls →
        ∃ nd a b lo hi, TreeOver elems nd a b ∧ a ≤ lo ∧ lo < hi ∧ hi ≤ b ∧
          c = rmqRecCalls nd lo hi := by
  induction ht with
  | leaf tl h =>
    intro low high h1 h2 h3 c hc
    have e1 : low = tl := by omega
    have e2 : high = tl + 1 := by omega
    subst e1 e2
    simp only [rmqRecCalls, and_self, if_true, CallTree.calls, List.mem_singleton] at hc
    refine ⟨_, low, low + 1, low, low + 1, TreeOver.leaf low h, Nat.le_refl _, by omega,
      Nat.le_refl _, ?_⟩
    rw [hc]; simp [rmqRecCalls]
  | inner tl th m l r hlt hl hr hm ihl ihr =>
    intro low high h1 h2 h3 c hc
    have hself : ∃ nd a b lo hi, TreeOver elems nd a b ∧ a ≤ lo ∧ lo < hi ∧ hi ≤ b ∧
        rmqRecCalls (Node.node tl th m l r) low high = rmqRecCalls nd lo hi :=
      ⟨_, tl, th, low, high, TreeOver.inner tl th m l r hlt hl hr hm, h1, h2, h3, rfl⟩
    by_cases hex : tl = low ∧ th = high
    · simp only [rmqRecCalls, hex, and_self, if_true, CallTree.calls,
        List.mem_singleton] at hc hself
      rw [hc]; exact hself
    · by_cases hL : high ≤ tl + (th - tl) / 2
      · simp only [rmqRecCalls, hex, hL, if_false, if_true, CallTree.calls,
          List.mem_cons] at hc hself
        rcases hc with hc | hc
        · rw [hc]; exact hself
        · exact ihl low high h1 h2 hL c hc
      · by_cases hR : low ≥ tl + (th - tl) / 2
        · simp only [rmqRecCalls, hex, hL, hR, if_false, if_true, CallTree.calls,
            List.mem_cons] at hc hself
          rcases hc with hc | hc
          · rw [hc]; exact hself
          · exact ihr low high hR h2 h3 c hc
        · simp only [rmqRecCalls, hex, hL, hR, if_false, CallTree.calls,
            List.mem_cons, List.mem_append] at hc hself
          rcases hc with hc | hc | hc
          · rw [hc]; exact hself
          · exact ihl low _ h1 (by omega) (Nat.le_refl _) c hc
          · exact ihr _ high (Nat.le_refl _) (by omega) h3 c hc

theorem rmqRecCalls_straddle {elems : List RMQEntry} {tl th m a b : Nat} {l r : Node}
    (h : TreeOver elems (Node.node tl th m l r) a b) (lo hi : Nat) (h1 : tl ≤ lo)
    (hmid1 : lo < tl + (th - tl) / 2) (hmid2 : tl + (th - tl) / 2 < hi)
    (hne : ¬ (tl = lo ∧ th = hi)) :
    (rmqRecCalls (Node.node tl th m l r) lo hi).subcalls.map CallTree.args
        = [(l, lo, tl + (th - tl) / 2), (r, tl + (th - tl) / 2, hi)] ∧
      (∃ lm ll lr, l = Node.node tl (tl + (th - tl) / 2) lm ll lr) ∧
      ∃ rm rl rr, r = Node.node (tl + (th - tl) / 2) th rm rl rr := by
  obtain ⟨_, _, _, _, _, hch⟩ := treeOver_node h
  obtain ⟨hl, hr⟩ := hch (by omega)
  obtain ⟨lm, ll, lr, hls, _⟩ := treeOver_shape hl
  obtain ⟨rm, rl, rr, hrs, _⟩ := treeOver_shape hr
  have hL : ¬ hi ≤ tl + (th - tl) / 2 := by omega
  have hR : ¬ lo ≥ tl + (th - tl) / 2 := by omega
  refine ⟨?_, ⟨lm, ll, lr, hls⟩, ⟨rm, rl, rr, hrs⟩⟩
  simp only [rmqRecCalls, hne, hL, hR, if_false, CallTree.subcalls, List.map_cons,
    List.map_nil, rmqRecCalls_args]

theorem oneEffective_of_exact {c : CallTree} (h : c.IsExact) : c.OneEffective :=
  Or.inl h

theorem isExact_of_treeOver {elems : List RMQEntry} {t : Node} {low high : Nat}
    (h : TreeOver elems t low high) : (rmqRecCalls t low high).IsExact := by
  obtain ⟨m, l, r, _, hc⟩ := rmqRecCalls_exact h
  exact ⟨low, high, m, l, r, hc⟩

theorem calls_of_isExact {c : CallTree} (h : c.IsExact) : c.calls = [c] := by
  obtain ⟨lo, hi, m, l, r, hc⟩ := h
  subst hc
  rfl

theorem rmqRecCalls_flushRight {elems : List RMQEntry} {t : Node} {tl th : Nat}
    (ht : TreeOver elems t tl th) :
    ∀ low, tl ≤ low → low < th →
      ∀ c, c ∈ (rmqRecCalls t low th).calls → c.OneEffective := by
  induction ht with
  | leaf tl h =>
    intro low h1 h2 c hc
    have e1 : low = tl := by omega
    subst e1
    simp only [rmqRecCalls, and_self, if_true, CallTree.calls, List.mem_singleton] at hc
    subst hc
    exact Or.inl ⟨_, _, _, _, _, rfl⟩
  | inner tl th m l r hlt hl hr hm ihl ihr =>
    intro low h1 h2 c hc
    by_cases hex : tl = low
    · simp only [rmqRecCalls, hex, and_self, if_true, CallTree.calls,
        List.mem_singleton] at hc
      subst hc
      exact Or.inl ⟨_, _, _, _, _, rfl⟩
    · have hL : ¬ th ≤ tl + (th - tl) / 2 := by omega
      by_cases hR : low ≥ tl + (th - tl) / 2
      · simp only [rmqRecCalls, hex, false_and, and_false, hL, hR, if_false, if_true,
          CallTree.calls,
          List.mem_cons] at hc
        rcases hc with hc | hc
        · subst hc
          exact Or.inr (Or.inl ⟨_, rfl⟩)
        · exact ihr low hR h2 c hc
      · simp only [rmqRecCalls, hex, false_and, and_false, hL, hR, if_false,
          CallTree.calls,
          List.mem_cons, List.mem_append] at hc
        rcases hc with hc | hc | hc
        · subst hc
          exact Or.inr (Or.inr ⟨_, _, rfl, Or.inr (isExact_of_treeOver hr)⟩)
        · exact ihl low h1 (by omega) c hc
        · rw [calls_of_isExact (isExact_of_treeOver hr), List.mem_singleton] at hc
          subst hc
          exact oneEffective_of_exact (isExact_of_treeOver hr)

theorem rmqRecCalls_flushLeft {elems : List RMQEntry} {t : Node} {tl th : Nat}
    (ht : TreeOver elems t tl th) :
    ∀ high, tl < high → high ≤ th →
      ∀ c, c ∈ (rmqRecCalls t tl high).calls → c.OneEffective := by
  induction ht with
  | leaf tl h =>
    intro high h1 h2 c hc
    have e1 : high = tl + 1 := by omega
    subst e1
    simp only [rmqRecCalls, and_self, if_true, CallTree.calls, List.mem_singleton] at hc
    subst hc
    exact Or.inl ⟨_, _, _, _, _, rfl⟩
  | inner tl th m l r hlt hl hr hm ihl ihr =>
    intro high h1 h2 c hc
    by_cases hex : th = high
    · simp only [rmqRecCalls, hex, and_self, if_true, CallTree.calls,
        List.mem_singleton] at hc
      subst hc
      exact Or.inl ⟨_, _, _, _, _, rfl⟩
    · by_cases hL : high ≤ tl + (th - tl) / 2
      · simp only [rmqRecCalls, hex, false_and, and_false, hL, if_false, if_true,
          CallTree.calls,
          List.mem_cons] at hc
        rcases hc with hc | hc
        · subst hc
          exact Or.inr (Or.inl ⟨_, rfl⟩)
        · exact ihl high h1 hL c hc
      · have hR : ¬ tl ≥ tl + (th - tl) / 2 := by omega
        simp only [rmqRecCalls, hex, false_and, and_false, hL, hR, if_false,
          CallTree.calls,
          List.mem_cons, List.mem_append] at hc
        rcases hc with hc | hc | hc
        · subst hc
          exact Or.inr (Or.inr ⟨_, _, rfl, Or.inl (isExact_of_treeOver hl)⟩)
        · rw [calls_of_isExact (isExact_of_treeOver hl), List.mem_singleton] at hc
          subst hc
          exact oneEffective_of_exact (isExact_of_treeOver hl)
        · exact ihr high (by omega) h2 c hc

theorem rmqRecCalls_belowFirstTwo {elems : List RMQEntry} {t : Node} {tl th : Nat}
    (ht : TreeOver elems t tl th) :
    ∀ low high, tl ≤ low → low < high → high ≤ th →
      ∀ c, c ∈ (rmqRecCalls t low high).belowFirstTwo → c.OneEffective := by
  induction ht with
  | leaf tl h =>
    intro low high h1 h2 h3 c hc
    have e1 : low = tl := by omega
    have e2 : high = tl + 1 := by omega
    subst e1 e2
    simp [rmqRecCalls, CallTree.belowFirstTwo] at hc
  | inner tl th m l r hlt hl hr hm ihl ihr =>
    intro low high h1 h2 h3 c hc
    by_cases hex : tl = low ∧ th = high
    · simp [rmqRecCalls, hex, CallTree.belowFirstTwo] at hc
    · by_cases hL : high ≤ tl + (th - tl) / 2
      · simp only [rmqRecCalls, hex, hL, if_false, if_true, CallTree.belowFirstTwo] at hc
        exact ihl low high h1 h2 hL c hc
      · by_cases hR : low ≥ tl + (th - tl) / 2
        · simp only [rmqRecCalls, hex, hL, hR, if_false, if_true,
            CallTree.belowFirstTwo] at hc
          exact ihr low high hR h2 h3 c hc
        · simp only [rmqRecCalls, hex, hL, hR, if_false, CallTree.belowFirstTwo,
            List.mem_append] at hc
          rcases hc with hc | hc
          · exact rmqRecCalls_flushRight hl low h1 (by omega) c hc
          · exact rmqRecCalls_flushLeft hr high (by omega) h3 c hc


/-! ## The claims on the segment tree -/

theorem makeTree_root_treeOver (elems : List RMQEntry) (h : 1 ≤ elems.length) :
    ∃ root, makeTree elems 0 elems.length = some root ∧
      TreeOver elems root 0 elems.length :=
  makeTree_treeOver elems _ 0 elems.length rfl (by omega) (Nat.le_refl _)

/-- C15: `makeTree(0, 0)` is the null pointer, so the constructor over no element
stores a null root; over `n ≥ 1` elements `makeTree(0, n)` is a node with bounds
`low = 0` and `high = n`, which the constructor stores as root. -/
theorem makeTree_root (elems : List RMQEntry) :
    makeTree elems 0 0 = some Node.null ∧
      SegmentTreeRMQ.build elems 0 = some ⟨Node.null, elems⟩ ∧
      (1 ≤ elems.length →
        ∃ m l r, makeTree elems 0 elems.length = some (Node.node 0 elems.length m l r) ∧
          SegmentTreeRMQ.build elems elems.length
            = some ⟨Node.node 0 elems.length m l r, elems⟩) := by
  refine ⟨makeTree_empty elems 0, by simp [SegmentTreeRMQ.build, makeTree_empty], ?_⟩
  intro h
  obtain ⟨root, hroot, hover⟩ := makeTree_root_treeOver elems h
  obtain ⟨m, l, r, hshape, _⟩ := treeOver_shape hover
  subst hshape
  exact ⟨m, l, r, hroot, by simp [SegmentTreeRMQ.build, hroot]⟩

/-- The root of the tree built over `[5, 2, 8, 1, 9, 3]`. -/
theorem makeTree_root_witness :
    1 ≤ ([5, 2, 8, 1, 9, 3] : List RMQEntry).length ∧
      ∃ m l r, makeTree [5, 2, 8, 1, 9, 3] 0 ([5, 2, 8, 1, 9, 3] : List RMQEntry).length
          = some (Node.node 0 ([5, 2, 8, 1, 9, 3] : List RMQEntry).length m l r) ∧
        SegmentTreeRMQ.build [5, 2, 8, 1, 9, 3] ([5, 2, 8, 1, 9, 3] : List RMQEntry).length
          = some ⟨Node.node 0 ([5, 2, 8, 1, 9, 3] : List RMQEntry).length m l r,
              [5, 2, 8, 1, 9, 3]⟩ :=
  ⟨by decide, (makeTree_root [5, 2, 8, 1, 9, 3]).2.2 (by decide)⟩

/-- C16: every node of the tree `makeTree(0, n)`, `n ≥ 1`, has bounds `low < high`; both
its children are null exactly when `high = low + 1`; otherwise its children are nodes
with bounds `[low, mid)` and `[mid, high)`, `mid = low + (high - low) / 2`; and its
`minIndex` lies in `[low, high)` with an element at most every element of that range. -/
theorem makeTree_node_invariant (elems : List RMQEntry) (h : 1 ≤ elems.length) :
    ∃ root, makeTree elems 0 elems.length = some root ∧
      ∀ nd, nd ∈ root.nodes →
        ∃ low high m l r, nd = Node.node low high m l r ∧ low < high ∧
          ((l = Node.null ∧ r = Node.null) ↔ high = low + 1) ∧
          (high ≠ low + 1 →
            (∃ lm ll lr, l = Node.node low (low + (high - low) / 2) lm ll lr) ∧
            ∃ rm rl rr, r = Node.node (low + (high - low) / 2) high rm rl rr) ∧
          low ≤ m ∧ m < high ∧
          ∃ v, elems[m]? = some v ∧
            ∀ j, low ≤ j → j < high → ∃ w, elems[j]? = some w ∧ v ≤ w := by
  obtain ⟨root, hroot, hover⟩ := makeTree_root_treeOver elems h
  refine ⟨root, hroot, ?_⟩
  intro nd hnd
  obtain ⟨a, b, hnd'⟩ := treeOver_of_mem_nodes hover nd hnd
  obtain ⟨m, l, r, hshape, _⟩ := treeOver_shape hnd'
  subst hshape
  obtain ⟨_, _, hlt, hmin, hleaf, hch⟩ := treeOver_node hnd'
  refine ⟨a, b, m, l, r, rfl, hlt, hleaf, ?_, hmin⟩
  intro hne
  obtain ⟨hl, hr⟩ := hch hne
  obtain ⟨lm, ll, lr, hls, _⟩ := treeOver_shape hl
  obtain ⟨rm, rl, rr, hrs, _⟩ := treeOver_shape hr
  exact ⟨⟨lm, ll, lr, hls⟩, ⟨rm, rl, rr, hrs⟩⟩

/-- The nodes of the tree built over `[5, 2, 8, 1, 9, 3]`. -/
theorem makeTree_node_invariant_witness :
    1 ≤ ([5, 2, 8, 1, 9, 3] : List RMQEntry).length ∧
      ∃ root, makeTree [5, 2, 8, 1, 9, 3] 0 ([5, 2, 8, 1, 9, 3] : List RMQEntry).length
          = some root ∧
        ∀ nd, nd ∈ root.nodes →
          ∃ low high m l r, nd = Node.node low high m l r ∧ low < high ∧
            ((l = Node.null ∧ r = Node.null) ↔ high = low + 1) ∧
            (high ≠ low + 1 →
              (∃ lm ll lr, l = Node.node low (low + (high - low) / 2) lm ll lr) ∧
              ∃ rm rl rr, r = Node.node (low + (high - low) / 2) high rm rl rr) ∧
            low ≤ m ∧ m < high ∧
            ∃ v, ([5, 2, 8, 1, 9, 3] : List RMQEntry)[m]? = some v ∧
              ∀ j, low ≤ j → j < high →
                ∃ w, ([5, 2, 8, 1, 9, 3] : List RMQEntry)[j]? = some w ∧ v ≤ w :=
  ⟨by decide, makeTree_node_invariant [5, 2, 8, 1, 9, 3] (by decide)⟩

/-- C17: for a sequence of length `n ≥ 1` (a `size_t`) the constructor of
`PrecomputedRMQ` runs to its end, no read or write of the table or of the array being
out of bounds; the table then has `n` rows of exactly `n` entries each, and the query
of every range `0 ≤ low < high ≤ n` finds its entry `indexVector[low][high-1]`. -/
theorem precomputed_build_in_bounds (elems : List RMQEntry) (h : 1 ≤ elems.length)
    (hsz : elems.length < 2 ^ 64) :
    ∃ t, PrecomputedRMQ.build elems elems.length = some t ∧
      t.indexVector.length = elems.length ∧
      (∀ low, low < elems.length →
        ∃ row, t.indexVector[low]? = some row ∧ row.length = elems.length) ∧
      ∀ low high, low < high → high ≤ elems.length →
        ∃ x, at2 t.indexVector low (high - 1) = some x ∧ t.rmq low high = some x := by
  obtain ⟨t, ht, hlen, hrows⟩ := precomputed_build_spec elems elems.length h hsz
    (Nat.le_refl _)
  refine ⟨t, ht, hlen, ?_, ?_⟩
  · intro low hlow
    obtain ⟨row, e1, e2, _⟩ := hrows low hlow
    exact ⟨row, e1, e2⟩
  · intro low high h1 h2
    obtain ⟨row, e1, _, e3⟩ := hrows low (by omega)
    beta_reduce at e3
    obtain ⟨x, hx, _⟩ := e3 (high - 1) (by omega) (by omega)
    have hat : at2 t.indexVector low (high - 1) = some x := by simp [at2, e1, hx]
    exact ⟨x, hat, hat⟩

/-- The table built over `[5, 2, 8, 1, 9, 3]`. -/
theorem precomputed_build_in_bounds_witness :
    (1 ≤ ([5, 2, 8, 1, 9, 3] : List RMQEntry).length ∧
        ([5, 2, 8, 1, 9, 3] : List RMQEntry).length < 2 ^ 64) ∧
      ∃ t, PrecomputedRMQ.build [5, 2, 8, 1, 9, 3]
          ([5, 2, 8, 1, 9, 3] : List RMQEntry).length = some t ∧
        t.indexVector.length = ([5, 2, 8, 1, 9, 3] : List RMQEntry).length ∧
        (∀ low, low < ([5, 2, 8, 1, 9, 3] : List RMQEntry).length →
          ∃ row, t.indexVector[low]? = some row ∧
            row.length = ([5, 2, 8, 1, 9, 3] : List RMQEntry).length) ∧
        ∀ low high, low < high → high ≤ ([5, 2, 8, 1, 9, 3] : List RMQEntry).length →
          ∃ x, at2 t.indexVector low (high - 1) = some x ∧ t.rmq low high = some x :=
  ⟨⟨by decide, by decide⟩,
    precomputed_build_in_bounds [5, 2, 8, 1, 9, 3] (by decide) (by decide)⟩

theorem belowFirstTwo_subset_calls (ct : CallTree) :
    ∀ c, c ∈ ct.belowFirstTwo → c ∈ ct.calls := by
  induction ct with
  | null low high => intro c hc; simp [CallTree.belowFirstTwo] at hc
  | exact t low high => intro c hc; simp [CallTree.belowFirstTwo] at hc
  | toLeft t low high sub ih =>
    intro c hc
    simp only [CallTree.belowFirstTwo] at hc
    simp only [CallTree.calls, List.mem_cons]
    exact Or.inr (ih c hc)
  | toRight t low high sub ih =>
    intro c hc
    simp only [CallTree.belowFirstTwo] at hc
    simp only [CallTree.calls, List.mem_cons]
    exact Or.inr (ih c hc)
  | both t low high l r _ _ =>
    intro c hc
    simp only [CallTree.belowFirstTwo] at hc
    simp only [CallTree.calls, List.mem_cons]
    exact Or.inr hc

theorem rmqRecCalls_two_subcalls (tl th tm : Nat) (l r : Node) (lo hi : Nat)
    (h : (rmqRecCalls (Node.node tl th tm l r) lo hi).subcalls.length = 2) :
    (rmqRecCalls (Node.node tl th tm l r) lo hi).subcalls
      = [rmqRecCalls l lo (tl + (th - tl) / 2), rmqRecCalls r (tl + (th - tl) / 2) hi] := by
  simp only [rmqRecCalls] at h ⊢
  split at h
  · simp [CallTree.subcalls] at h
  · split at h
    · simp [CallTree.subcalls] at h
    · split at h
      · simp [CallTree.subcalls] at h
      · rename_i h1 h2 h3
        simp only [h1, h2, h3, if_false, CallTree.subcalls]

theorem rmqRec_exact (elems : List RMQEntry) (lo hi m : Nat) (l r : Node) :
    rmqRec elems (Node.node lo hi m l r) lo hi = some m := by
  simp [rmqRec]

/-- The calls below the first call that issues two, in a query on a built tree. -/
theorem query_calls_spec (elems : List RMQEntry) (low high : Nat)
    (h1 : low < high) (h2 : high ≤ elems.length) :
    ∃ root, makeTree elems 0 elems.length = some root ∧
      (∀ c, c ∈ (rmqRecCalls root low high).calls →
        ∃ nd a b lo hi, TreeOver elems nd a b ∧ a ≤ lo ∧ lo < hi ∧ hi ≤ b ∧
          c = rmqRecCalls nd lo hi) ∧
      ∀ c, c ∈ (rmqRecCalls root low high).belowFirstTwo →
        c ∈ (rmqRecCalls root low high).calls ∧ c.OneEffective := by
  obtain ⟨root, hroot, hover⟩ := makeTree_root_treeOver elems (by omega)
  refine ⟨root, hroot, rmqRecCalls_valid hover low high (Nat.zero_le _) h1 h2, ?_⟩
  intro c hc
  exact ⟨belowFirstTwo_subset_calls _ c hc,
    rmqRecCalls_belowFirstTwo hover low high (Nat.zero_le _) h1 h2 c hc⟩

/-- C18, as stated, fails: in the query of `[0, 6)` on `[5, 2, 8, 1, 9, 3]` the call at the
root, whose node has midpoint `3` with `0 < 3 < 6`, asks for the whole range of the
node and issues no recursive call. -/
theorem straddle_whole_range_no_call :
    ∃ root, makeTree [5, 2, 8, 1, 9, 3] 0 6 = some root ∧
      ∃ c, c ∈ (rmqRecCalls root 0 6).calls ∧
        ∃ tl th tm l r, c.args = (Node.node tl th tm l r, 0, 6) ∧
          0 < tl + (th - tl) / 2 ∧ tl + (th - tl) / 2 < 6 ∧ c.subcalls = [] :=
  ⟨_, makeTree_example, rmqRecCalls _ 0 6, rmqRecCalls_self_mem _ 0 6, 0, 6, 3, _, _,
    rmqRecCalls_args _ 0 6, by decide, by decide, by decide⟩

/-- C18, amended: in a query of a range `0 ≤ low < high ≤ n` on the tree `makeTree(0, n)`,
whenever a call `(node, lo, hi)` has the midpoint `mid` of its node strictly inside its
range (`lo < mid < hi`) and `[lo, hi)` is not the whole range of the node, it issues
exactly the two calls `(left, lo, mid)` and `(right, mid, hi)`, the left child being a
node with `high = mid` and the right child a node with `low = mid`. -/
theorem rmqRec_straddle_calls (elems : List RMQEntry) (low high : Nat)
    (h1 : low < high) (h2 : high ≤ elems.length) :
    ∃ root, makeTree elems 0 elems.length = some root ∧
      ∀ c, c ∈ (rmqRecCalls root low high).calls →
        ∀ tl th tm l r lo hi, c.args = (Node.node tl th tm l r, lo, hi) →
          lo < tl + (th - tl) / 2 → tl + (th - tl) / 2 < hi → ¬ (tl = lo ∧ th = hi) →
            c.subcalls.map CallTree.args
                = [(l, lo, tl + (th - tl) / 2), (r, tl + (th - tl) / 2, hi)] ∧
              (∃ lm ll lr, l = Node.node tl (tl + (th - tl) / 2) lm ll lr) ∧
              ∃ rm rl rr, r = Node.node (tl + (th - tl) / 2) th rm rl rr := by
  obtain ⟨root, hroot, hvalid, _⟩ := query_calls_spec elems low high h1 h2
  refine ⟨root, hroot, ?_⟩
  intro c hc tl th tm l r lo hi hargs hm1 hm2 hne
  obtain ⟨nd, a, b, lo', hi', hnd, ha, _, _, hceq⟩ := hvalid c hc
  subst hceq
  rw [rmqRecCalls_args] at hargs
  simp only [Prod.mk.injEq] at hargs
  obtain ⟨e1, e2, e3⟩ := hargs
  subst e1 e2 e3
  obtain ⟨e4, _⟩ := treeOver_node hnd
  subst e4
  exact rmqRecCalls_straddle hnd lo' hi' ha hm1 hm2 hne

/-- The calls of the query of `[2, 5)` on `[5, 2, 8, 1, 9, 3]`. -/
theorem rmqRec_straddle_calls_witness :
    (2 < 5 ∧ 5 ≤ ([5, 2, 8, 1, 9, 3] : List RMQEntry).length) ∧
      ∃ root, makeTree [5, 2, 8, 1, 9, 3] 0 ([5, 2, 8, 1, 9, 3] : List RMQEntry).length
          = some root ∧
        ∀ c, c ∈ (rmqRecCalls root 2 5).calls →
          ∀ tl th tm l r lo hi, c.args = (Node.node tl th tm l r, lo, hi) →
            lo < tl + (th - tl) / 2 → tl + (th - tl) / 2 < hi → ¬ (tl = lo ∧ th = hi) →
              c.subcalls.map CallTree.args
                  = [(l, lo, tl + (th - tl) / 2), (r, tl + (th - tl) / 2, hi)] ∧
                (∃ lm ll lr, l = Node.node tl (tl + (th - tl) / 2) lm ll lr) ∧
                ∃ rm rl rr, r = Node.node (tl + (th - tl) / 2) th rm rl rr :=
  ⟨⟨by decide, by decide⟩, rmqRec_straddle_calls [5, 2, 8, 1, 9, 3] 2 5 (by decide) (by decide)⟩

/-- C19, as stated, fails: in the query of `[2, 5)` on `[5, 2, 8, 1, 9, 3]` the call at the
root issues two recursive calls, and below it the call on the node `[3, 6)` with the
range `[3, 5)` issues two recursive calls again. -/
theorem later_call_issues_two :
    ∃ root, makeTree [5, 2, 8, 1, 9, 3] 0 6 = some root ∧
      (rmqRecCalls root 2 5).subcalls.length = 2 ∧
      ∃ c, c ∈ (rmqRecCalls root 2 5).belowFirstTwo ∧
        c.args.2 = (3, 5) ∧ c.subcalls.length = 2 :=
  ⟨_, makeTree_example, by decide,
    rmqRecCalls (Node.node 3 6 3 (Node.node 3 4 3 Node.null Node.null)
      (Node.node 4 6 5 (Node.node 4 5 4 Node.null Node.null)
        (Node.node 5 6 5 Node.null Node.null))) 3 5,
    by decide, by decide, by decide⟩

/-- C19, amended: in a query of a range `0 ≤ low < high ≤ n` on the tree `makeTree(0, n)`,
every call made after the first call that issues two recursive calls is the exact-match
terminal case, or issues a single recursive call, or issues two recursive calls of which
at least one is an exact-match terminal call. -/
theorem rmqRec_one_effective_call (elems : List RMQEntry) (low high : Nat)
    (h1 : low < high) (h2 : high ≤ elems.length) :
    ∃ root, makeTree elems 0 elems.length = some root ∧
      ∀ c, c ∈ (rmqRecCalls root low high).belowFirstTwo →
        (∃ lo hi m l r, c = CallTree.exact (Node.node lo hi m l r) lo hi) ∨
        (∃ s, c.subcalls = [s]) ∨
        ∃ s1 s2, c.subcalls = [s1, s2] ∧
          ((∃ lo hi m l r, s1 = CallTree.exact (Node.node lo hi m l r) lo hi) ∨
            ∃ lo hi m l r, s2 = CallTree.exact (Node.node lo hi m l r) lo hi) := by
  obtain ⟨root, hroot, _, hbelow⟩ := query_calls_spec elems low high h1 h2
  exact ⟨root, hroot, fun c hc => (hbelow c hc).2⟩

/-- The calls after the first branching call of the query of `[2, 5)` on
`[5, 2, 8, 1, 9, 3]`. -/
theorem rmqRec_one_effective_call_witness :
    (2 < 5 ∧ 5 ≤ ([5, 2, 8, 1, 9, 3] : List RMQEntry).length) ∧
      ∃ root, makeTree [5, 2, 8, 1, 9, 3] 0 ([5, 2, 8, 1, 9, 3] : List RMQEntry).length
          = some root ∧
        ∀ c, c ∈ (rmqRecCalls root 2 5).belowFirstTwo →
          (∃ lo hi m l r, c = CallTree.exact (Node.node lo hi m l r) lo hi) ∨
          (∃ s, c.subcalls = [s]) ∨
          ∃ s1 s2, c.subcalls = [s1, s2] ∧
            ((∃ lo hi m l r, s1 = CallTree.exact (Node.node lo hi m l r) lo hi) ∨
              ∃ lo hi m l r, s2 = CallTree.exact (Node.node lo hi m l r) lo hi) :=
  ⟨⟨by decide, by decide⟩,
    rmqRec_one_effective_call [5, 2, 8, 1, 9, 3] 2 5 (by decide) (by decide)⟩

/-- C20: in a query of a range `0 ≤ low < high ≤ n` on the tree `makeTree(0, n)`, every
call made after the first call that issues two recursive calls, and itself issuing two,
issues them on its left and right child, and at least one of the two asks for the whole
range of that child: it is the terminal case, issues no call, and `rmqRec` returns the
cached `minIndex` of the child. -/
theorem rmqRec_branch_has_exact_child (elems : List RMQEntry) (low high : Nat)
    (h1 : low < high) (h2 : high ≤ elems.length) :
    ∃ root, makeTree elems 0 elems.length = some root ∧
      ∀ c, c ∈ (rmqRecCalls root low high).belowFirstTwo → c.subcalls.length = 2 →
        ∃ tl th tm l r lo hi s1 s2, c.args = (Node.node tl th tm l r, lo, hi) ∧
          c.subcalls = [s1, s2] ∧ s1.args.1 = l ∧ s2.args.1 = r ∧
          ∃ s, (s = s1 ∨ s = s2) ∧
            ∃ a b m x y, s = CallTree.exact (Node.node a b m x y) a b ∧
              s.subcalls = [] ∧ rmqRec elems (Node.node a b m x y) a b = some m := by
  obtain ⟨root, hroot, hvalid, hbelow⟩ := query_calls_spec elems low high h1 h2
  refine ⟨root, hroot, ?_⟩
  intro c hc htwo
  obtain ⟨hmem, hone⟩ := hbelow c hc
  obtain ⟨nd, a, b, lo, hi, hnd, _, _, _, hceq⟩ := hvalid c hmem
  obtain ⟨m, l, r, hshape, _⟩ := treeOver_shape hnd
  subst hshape
  subst hceq
  have hsub := rmqRecCalls_two_subcalls a b m l r lo hi htwo
  refine ⟨a, b, m, l, r, lo, hi, _, _, rmqRecCalls_args _ _ _, hsub, ?_, ?_, ?_⟩
  · rw [rmqRecCalls_args]
  · rw [rmqRecCalls_args]
  · rcases hone with hex | ⟨s, hs⟩ | ⟨s1, s2, hs, hex⟩
    · obtain ⟨_, _, _, _, _, hc'⟩ := hex
      rw [hc'] at htwo
      simp [CallTree.subcalls] at htwo
    · rw [hs] at htwo
      simp at htwo
    · rw [hsub] at hs
      simp only [List.cons.injEq, and_true] at hs
      obtain ⟨e1, e2⟩ := hs
      rcases hex with hex | hex
      · obtain ⟨p, q, m', x, y, hs1⟩ := hex
        refine ⟨s1, Or.inl e1.symm, p, q, m', x, y, hs1, ?_, rmqRec_exact elems p q m' x y⟩
        rw [hs1]; rfl
      · obtain ⟨p, q, m', x, y, hs2⟩ := hex
        refine ⟨s2, Or.inr e2.symm, p, q, m', x, y, hs2, ?_, rmqRec_exact elems p q m' x y⟩
        rw [hs2]; rfl

/-- The branching calls after the first one of the query of `[2, 5)` on
`[5, 2, 8, 1, 9, 3]`. -/
theorem rmqRec_branch_has_exact_child_witness :
    (2 < 5 ∧ 5 ≤ ([5, 2, 8, 1, 9, 3] : List RMQEntry).length) ∧
      ∃ root, makeTree [5, 2, 8, 1, 9, 3] 0 ([5, 2, 8, 1, 9, 3] : List RMQEntry).length
          = some root ∧
        ∀ c, c ∈ (rmqRecCalls root 2 5).belowFirstTwo → c.subcalls.length = 2 →
          ∃ tl th tm l r lo hi s1 s2, c.args = (Node.node tl th tm l r, lo, hi) ∧
            c.subcalls = [s1, s2] ∧ s1.args.1 = l ∧ s2.args.1 = r ∧
            ∃ s, (s = s1 ∨ s = s2) ∧
              ∃ a b m x y, s = CallTree.exact (Node.node a b m x y) a b ∧
                s.subcalls = [] ∧
                rmqRec [5, 2, 8, 1, 9, 3] (Node.node a b m x y) a b = some m :=
  ⟨⟨by decide, by decide⟩,
    rmqRec_branch_has_exact_child [5, 2, 8, 1, 9, 3] 2 5 (by decide) (by decide)⟩

/-! ## Safety of the sparse-table and segment-tree queries -/

/-- For a range `0 ≤ low < high ≤ n` of a sequence of length `n ≤ 2^31`, every read of
the query of a `SparseTableRMQ` is in bounds: `logTable[length - 1]` exists, with value
`k`; level `k` exists in the table; `2^k ≤ high - low`, and the positions `low` and
`high - 2^k` exist in that level, holding indices of the array; the query returns. -/
theorem sparse_rmq_in_bounds_bounded (elems : List RMQEntry) (low high : Nat)
    (h1 : low < high) (h2 : high ≤ elems.length) (h31 : elems.length ≤ 2 ^ 31) :
    ∃ t k row, SparseTableRMQ.build elems elems.length = some t ∧
      t.logTable[high - low - 1]? = some k ∧ t.indexVector[k]? = some row ∧
      2 ^ k ≤ high - low ∧ low < row.length ∧ high - 2 ^ k < row.length ∧
      (∃ a b, row[low]? = some a ∧ row[high - 2 ^ k]? = some b ∧
        a < elems.length ∧ b < elems.length) ∧
      ∃ x, t.rmq low high = some x := by
  obtain ⟨t, ht, harr, hlog, hinv⟩ := sparse_build_spec elems elems.length (Nat.le_refl _) h31
  have hrow : t.logTable[high - low - 1]? = some (Nat.log 2 (high - low - 1)) :=
    hlog.2 _ (by omega)
  have hkK : Nat.log 2 (high - low - 1) ≤ lastLevel elems.length :=
    Nat.log_mono_right (by omega)
  have hk1 : 2 ^ Nat.log 2 (high - low - 1) ≤ high - low := by
    by_cases hone : high - low = 1
    · have : high - low - 1 = 0 := by omega
      rw [this, hone]; simp
    · exact le_trans (log_two_bounds (high - low - 1) (by omega)).1 (by omega)
  obtain ⟨row, hr, hlen, hent⟩ := sparseInv_level hinv _ hkK
  obtain ⟨x, hx, _⟩ := sparse_rmq_spec elems elems.length t harr hlog hinv low high h1 h2 h31
  generalize Nat.log 2 (high - low - 1) = k at hrow hkK hk1 hr hlen hent
  have e1 : low < elems.length + 1 - 2 ^ k := by
    generalize 2 ^ k = q at hk1; omega
  have e2 : high - 2 ^ k < elems.length + 1 - 2 ^ k := by
    generalize 2 ^ k = q at hk1; omega
  obtain ⟨a, ha, hamin⟩ := hent low e1
  obtain ⟨b, hb, hbmin⟩ := hent (high - 2 ^ k) e2
  have hpow : high - 2 ^ k + 2 ^ k ≤ elems.length := by
    generalize 2 ^ k = q at hk1; omega
  have halt : a < elems.length := by
    have := hamin.2.1
    generalize 2 ^ k = q at hk1 this; omega
  have hblt : b < elems.length := by
    have := hbmin.2.1
    omega
  exact ⟨t, k, row, ht, hrow, hr, hk1, by rw [hlen]; exact e1, by rw [hlen]; exact e2,
    ⟨a, b, ha, hb, halt, hblt⟩, x, hx⟩

/-- C24, a defect of the code: over an array of `2^31 + 1` elements the query of the
whole range `[0, 2^31 + 1)` selects level `31`; that level exists in the table but is
empty, so the read `indexVector[31][low]` at `low = 0` is out of bounds. -/
theorem sparse_rmq_read_out_of_bounds :
    ∃ t, SparseTableRMQ.build (List.replicate (2 ^ 31 + 1) (0 : RMQEntry)) (2 ^ 31 + 1) = some t ∧
      t.selectedLevel 0 (2 ^ 31 + 1) = some 31 ∧ t.indexVector[31]? = some [] ∧
      at2 t.indexVector 31 0 = none := by
  obtain ⟨t, ht, hlog, _, hrow⟩ := sparse_build_level31 (List.replicate (2 ^ 31 + 1) (0 : RMQEntry))
    (2 ^ 31 + 1) (by rw [List.length_replicate]) (by omega) (by omega)
  obtain ⟨e1, e2, _⟩ := sparse_rmq_level31 t (2 ^ 31 + 1) hlog hrow 0 (2 ^ 31 + 1) (by omega)
    (Nat.le_refl _) (by omega)
  exact ⟨t, ht, e1, hrow, e2⟩

/-- C25: for a range `0 ≤ low < high ≤ n` on the tree `makeTree(0, n)`, `n ≥ 1`, the
recursion of `rmqRec` from the root returns an index; every call it makes, the first
one included, is on a node, never on the null pointer, and its range `[lo, hi)` satisfies
`node.low ≤ lo < hi ≤ node.high`. -/
theorem rmqRec_safe (elems : List RMQEntry) (low high : Nat)
    (h1 : low < high) (h2 : high ≤ elems.length) :
    ∃ root, makeTree elems 0 elems.length = some root ∧
      (∃ i, rmqRec elems root low high = some i) ∧
      ∀ c, c ∈ (rmqRecCalls root low high).calls →
        ∃ tl th tm l r lo hi, c.args = (Node.node tl th tm l r, lo, hi) ∧
          tl ≤ lo ∧ lo < hi ∧ hi ≤ th := by
  obtain ⟨root, hroot, hover⟩ := makeTree_root_treeOver elems (by omega)
  obtain ⟨i, hi, _⟩ := rmqRec_isRangeMin hover low high (Nat.zero_le _) h1 h2
  refine ⟨root, hroot, ⟨i, hi⟩, ?_⟩
  intro c hc
  obtain ⟨nd, a, b, lo, hi', hnd, e1, e2, e3, hceq⟩ :=
    rmqRecCalls_valid hover low high (Nat.zero_le _) h1 h2 c hc
  obtain ⟨m, l, r, hshape, _⟩ := treeOver_shape hnd
  subst hshape
  exact ⟨a, b, m, l, r, lo, hi', by rw [hceq, rmqRecCalls_args], e1, e2, e3⟩

/-- The calls of the query of `[2, 5)` on `[5, 2, 8, 1, 9, 3]` are in range. -/
theorem rmqRec_safe_witness :
    (2 < 5 ∧ 5 ≤ ([5, 2, 8, 1, 9, 3] : List RMQEntry).length) ∧
      ∃ root, makeTree [5, 2, 8, 1, 9, 3] 0 ([5, 2, 8, 1, 9, 3] : List RMQEntry).length
          = some root ∧
        (∃ i, rmqRec [5, 2, 8, 1, 9, 3] root 2 5 = some i) ∧
        ∀ c, c ∈ (rmqRecCalls root 2 5).calls →
          ∃ tl th tm l r lo hi, c.args = (Node.node tl th tm l r, lo, hi) ∧
            tl ≤ lo ∧ lo < hi ∧ hi ≤ th :=
  ⟨⟨by decide, by decide⟩, rmqRec_safe [5, 2, 8, 1, 9, 3] 2 5 (by decide) (by decide)⟩

/-! ## SegmentTreeRMQ: size of the tree and number of calls -/

theorem clog_half (s : Nat) (h : 2 ≤ s) :
    Nat.clog 2 (s / 2) + 1 ≤ Nat.clog 2 s ∧ Nat.clog 2 (s - s / 2) + 1 = Nat.clog 2 s := by
  have h1 : Nat.clog 2 s = Nat.clog 2 ((s + 2 - 1) / 2) + 1 := Nat.clog_of_two_le (by decide) h
  have h2 : (s + 2 - 1) / 2 = s - s / 2 := by omega
  rw [h2] at h1
  have h3 : Nat.clog 2 (s / 2) ≤ Nat.clog 2 (s - s / 2) := Nat.clog_mono_right 2 (by omega)
  omega

theorem treeOver_size {elems : List RMQEntry} {t : Node} {low high : Nat}
    (h : TreeOver elems t low high) :
    t.nodes.length = 2 * (high - low) - 1 ∧
      t.leaves = (List.range' low (high - low)).map
        (fun i => Node.node i (i + 1) i Node.null Node.null) ∧
      t.levels = Nat.clog 2 (high - low) + 1 := by
  induction h with
  | leaf low h =>
    have e : low + 1 - low = 1 := by omega
    refine ⟨by simp [Node.nodes], by simp [Node.leaves, e], ?_⟩
    simp [Node.levels, e]
  | inner low high m l r hlt hl hr hm ihl ihr =>
    obtain ⟨n1, f1, d1⟩ := ihl
    obtain ⟨n2, f2, d2⟩ := ihr
    obtain ⟨_, _, _, hls, _⟩ := treeOver_shape hl
    have hs1 : low + (high - low) / 2 - low = (high - low) / 2 := by omega
    have hs2 : high - (low + (high - low) / 2) = (high - low) - (high - low) / 2 := by omega
    rw [hs1] at n1 f1 d1
    rw [hs2] at n2 f2 d2
    obtain ⟨c1, c2⟩ := clog_half (high - low) (by omega)
    refine ⟨?_, ?_, ?_⟩
    · simp only [Node.nodes, List.length_cons, List.length_append, n1, n2]
      omega
    · have hnl : ¬ (l = Node.null ∧ r = Node.null) := by
        intro ⟨hl0, _⟩
        rw [hl0] at hls
        exact absurd hls (by simp)
      simp only [Node.leaves, hnl, if_false, f1, f2]
      rw [← List.map_append]
      congr 1
      have := List.range'_append low ((high - low) / 2) ((high - low) - (high - low) / 2) 1
      rw [Nat.one_mul] at this
      rw [this]
      congr 1
      omega
    · simp only [Node.levels, d1, d2]
      omega

theorem flushRight_count {elems : List RMQEntry} {t : Node} {tl th : Nat}
    (ht : TreeOver elems t tl th) :
    ∀ low, tl ≤ low → low < th →
      (rmqRecCalls t low th).calls.length ≤ 2 * Nat.clog 2 (th - tl) + 1 := by
  induction ht with
  | leaf tl h =>
    intro low h1 h2
    have e1 : low = tl := by omega
    subst e1
    simp [rmqRecCalls, CallTree.calls]
  | inner tl th m l r hlt hl hr hm ihl ihr =>
    intro low h1 h2
    obtain ⟨c1, c2⟩ := clog_half (th - tl) (by omega)
    have hs1 : tl + (th - tl) / 2 - tl = (th - tl) / 2 := by omega
    have hs2 : th - (tl + (th - tl) / 2) = (th - tl) - (th - tl) / 2 := by omega
    by_cases hex : tl = low
    · simp [rmqRecCalls, hex, CallTree.calls]
    · have hL : ¬ th ≤ tl + (th - tl) / 2 := by omega
      by_cases hR : low ≥ tl + (th - tl) / 2
      · have := ihr low hR h2
        rw [hs2] at this
        simp only [rmqRecCalls, hex, false_and, hL, hR, if_false, if_true, CallTree.calls,
          List.length_cons]
        omega
      · have := ihl low h1 (by omega)
        rw [hs1] at this
        have hexr := calls_of_isExact (isExact_of_treeOver hr)
        simp only [rmqRecCalls, hex, false_and, hL, hR, if_false, CallTree.calls,
          List.length_cons, List.length_append, hexr, List.length_nil]
        omega

theorem flushLeft_count {elems : List RMQEntry} {t : Node} {tl th : Nat}
    (ht : TreeOver elems t tl th) :
    ∀ high, tl < high → high ≤ th →
      (rmqRecCalls t tl high).calls.length ≤ 2 * Nat.clog 2 (th - tl) + 1 := by
  induction ht with
  | leaf tl h =>
    intro high h1 h2
    have e1 : high = tl + 1 := by omega
    subst e1
    simp [rmqRecCalls, CallTree.calls]
  | inner tl th m l r hlt hl hr hm ihl ihr =>
    intro high h1 h2
    obtain ⟨c1, c2⟩ := clog_half (th - tl) (by omega)
    have hs1 : tl + (th - tl) / 2 - tl = (th - tl) / 2 := by omega
    have hs2 : th - (tl + (th - tl) / 2) = (th - tl) - (th - tl) / 2 := by omega
    by_cases hex : th = high
    · simp [rmqRecCalls, hex, CallTree.calls]
    · by_cases hL : high ≤ tl + (th - tl) / 2
      · have := ihl high h1 hL
        rw [hs1] at this
        simp only [rmqRecCalls, hex, and_false, hL, if_false, if_true, CallTree.calls,
          List.length_cons]
        omega
      · have hR : ¬ tl ≥ tl + (th - tl) / 2 := by omega
        have := ihr high (by omega) h2
        rw [hs2] at this
        have hexl := calls_of_isExact (isExact_of_treeOver hl)
        simp only [rmqRecCalls, hex, and_false, hL, hR, if_false, CallTree.calls,
          List.length_cons, List.length_append, hexl, List.length_nil]
        omega

theorem rmqRecCalls_count {elems : List RMQEntry} {t : Node} {tl th : Nat}
    (ht : TreeOver elems t tl th) :
    ∀ low high, tl ≤ low → low < high → high ≤ th →
      (rmqRecCalls t low high).calls.length ≤ 4 * Nat.clog 2 (th - tl) + 1 := by
  induction ht with
  | leaf tl h =>
    intro low high h1 h2 h3
    have e1 : low = tl := by omega
    have e2 : high = tl + 1 := by omega
    subst e1 e2
    simp [rmqRecCalls, CallTree.calls]
  | inner tl th m l r hlt hl hr hm ihl ihr =>
    intro low high h1 h2 h3
    obtain ⟨c1, c2⟩ := clog_half (th - tl) (by omega)
    have hs1 : tl + (th - tl) / 2 - tl = (th - tl) / 2 := by omega
    have hs2 : th - (tl + (th - tl) / 2) = (th - tl) - (th - tl) / 2 := by omega
    by_cases hex : tl = low ∧ th = high
    · simp [rmqRecCalls, hex, CallTree.calls]
    · by_cases hL : high ≤ tl + (th - tl) / 2
      · have := ihl low high h1 h2 hL
        rw [hs1] at this
        simp only [rmqRecCalls, hex, hL, if_false, if_true, CallTree.calls, List.length_cons]
        omega
      · by_cases hR : low ≥ tl + (th - tl) / 2
        · have := ihr low high hR h2 h3
          rw [hs2] at this
          simp only [rmqRecCalls, hex, hL, hR, if_false, if_true, CallTree.calls,
            List.length_cons]
          omega
        · have e1 := flushRight_count hl low h1 (by omega)
          have e2 := flushLeft_count hr high (by omega) h3
          rw [hs1] at e1
          rw [hs2] at e2
          simp only [rmqRecCalls, hex, hL, hR, if_false, CallTree.calls, List.length_cons,
            List.length_append]
          omega

theorem clog_two_spec (n : Nat) :
    n ≤ 2 ^ Nat.clog 2 n ∧ ∀ k, n ≤ 2 ^ k → Nat.clog 2 n ≤ k :=
  ⟨Nat.le_pow_clog (by decide) n, fun _ hk => (Nat.le_pow_iff_clog_le (by decide)).1 hk⟩

/-- C21: for a range `0 ≤ low < high ≤ n` on the tree `makeTree(0, n)`, `n ≥ 1`, the
number of invocations of `rmqRec` made by `rmq(low, high)`, the first one included, is
at most `4 * (c + 1)`, where `c = ⌈log₂ n⌉` is the least exponent with `n ≤ 2^c`. -/
theorem rmqRec_call_count (elems : List RMQEntry) (low high : Nat)
    (h1 : low < high) (h2 : high ≤ elems.length) :
    ∃ root c, makeTree elems 0 elems.length = some root ∧
      elems.length ≤ 2 ^ c ∧ (∀ k, elems.length ≤ 2 ^ k → c ≤ k) ∧
      (rmqRecCalls root low high).calls.length ≤ 4 * (c + 1) := by
  obtain ⟨root, hroot, hover⟩ := makeTree_root_treeOver elems (by omega)
  obtain ⟨e1, e2⟩ := clog_two_spec elems.length
  have hc := rmqRecCalls_count hover low high (Nat.zero_le _) h1 h2
  rw [Nat.sub_zero] at hc
  exact ⟨root, Nat.clog 2 elems.length, hroot, e1, e2, by omega⟩

/-- The number of calls of the query of `[2, 5)` on `[5, 2, 8, 1, 9, 3]`. -/
theorem rmqRec_call_count_witness :
    (2 < 5 ∧ 5 ≤ ([5, 2, 8, 1, 9, 3] : List RMQEntry).length) ∧
      ∃ root c, makeTree [5, 2, 8, 1, 9, 3] 0 ([5, 2, 8, 1, 9, 3] : List RMQEntry).length
          = some root ∧
        ([5, 2, 8, 1, 9, 3] : List RMQEntry).length ≤ 2 ^ c ∧
        (∀ k, ([5, 2, 8, 1, 9, 3] : List RMQEntry).length ≤ 2 ^ k → c ≤ k) ∧
        (rmqRecCalls root 2 5).calls.length ≤ 4 * (c + 1) :=
  ⟨⟨by decide, by decide⟩, rmqRec_call_count [5, 2, 8, 1, 9, 3] 2 5 (by decide) (by decide)⟩

/-- C29: the tree `makeTree(0, n)`, `n ≥ 1`, has as leaves, from left to right, one node
`[i, i + 1)` for each index `i < n`, so `n` leaves; it has `2 * n - 1` nodes; and its
height is `c = ⌈log₂ n⌉`, the least exponent with `n ≤ 2^c`. -/
theorem makeTree_size (elems : List RMQEntry) (h : 1 ≤ elems.length) :
    ∃ root c, makeTree elems 0 elems.length = some root ∧
      root.leaves = (List.range elems.length).map
        (fun i => Node.node i (i + 1) i Node.null Node.null) ∧
      root.leaves.length = elems.length ∧
      root.nodes.length = 2 * elems.length - 1 ∧
      root.height = c ∧ elems.length ≤ 2 ^ c ∧ ∀ k, elems.length ≤ 2 ^ k → c ≤ k := by
  obtain ⟨root, hroot, hover⟩ := makeTree_root_treeOver elems h
  obtain ⟨hn, hl, hd⟩ := treeOver_size hover
  obtain ⟨e1, e2⟩ := clog_two_spec elems.length
  rw [Nat.sub_zero] at hn hl hd
  rw [← List.range_eq_range'] at hl
  refine ⟨root, Nat.clog 2 elems.length, hroot, hl, by rw [hl]; simp, hn, ?_, e1, e2⟩
  simp [Node.height, hd]

/-- The size of the tree built over `[5, 2, 8, 1, 9, 3]`. -/
theorem makeTree_size_witness :
    1 ≤ ([5, 2, 8, 1, 9, 3] : List RMQEntry).length ∧
      ∃ root c, makeTree [5, 2, 8, 1, 9, 3] 0 ([5, 2, 8, 1, 9, 3] : List RMQEntry).length
          = some root ∧
        root.leaves = (List.range ([5, 2, 8, 1, 9, 3] : List RMQEntry).length).map
          (fun i => Node.node i (i + 1) i Node.null Node.null) ∧
        root.leaves.length = ([5, 2, 8, 1, 9, 3] : List RMQEntry).length ∧
        root.nodes.length = 2 * ([5, 2, 8, 1, 9, 3] : List RMQEntry).length - 1 ∧
        root.height = c ∧ ([5, 2, 8, 1, 9, 3] : List RMQEntry).length ≤ 2 ^ c ∧
        ∀ k, ([5, 2, 8, 1, 9, 3] : List RMQEntry).length ≤ 2 ^ k → c ≤ k :=
  ⟨by decide, makeTree_size [5, 2, 8, 1, 9, 3] (by decide)⟩

/-! ## HybridRMQ: the log of a query -/

theorem loopN_withLog {σ ε : Type} (body : Nat → σ → Option σ) (ev : Nat → ε) :
    ∀ (k i : Nat) (s : σ) (log : List ε),
      loopN k i (withLog body ev) (s, log) =
        match loopN k i body s with
        | some s' => some (s', log ++ (List.range' i k).map ev)
        | none => none := by
  intro k
  induction k with
  | zero => intro i s log; simp [loopN]
  | succ k ih =>
    intro i s log
    simp only [loopN, withLog]
    cases h : body i s with
    | none => simp
    | some s1 =>
      simp only [ih]
      cases loopN k (i + 1) body s1 with
      | none => rfl
      | some s2 => simp [List.range'_succ]

theorem forLoop_withLog {σ ε : Type} (body : Nat → σ → Option σ) (ev : Nat → ε)
    (lo hi : Nat) (s : σ) (log : List ε) :
    forLoop lo hi (withLog body ev) (s, log) =
      match forLoop lo hi body s with
      | some s' => some (s', log ++ (List.range' lo (hi - lo)).map ev)
      | none => none :=
  loopN_withLog body ev (hi - lo) lo s log

theorem blocksOf_scan (l : List Nat) :
    HybridRMQ.blocksOf (l.map HybridRMQ.Event.scan) = [] := by
  induction l with
  | nil => rfl
  | cons a l ih => simp [HybridRMQ.blocksOf]

theorem blocksOf_block (l : List Nat) :
    HybridRMQ.blocksOf (l.map HybridRMQ.Event.block) = l := by
  induction l with
  | nil => rfl
  | cons a l ih => simpa [HybridRMQ.blocksOf] using ih

theorem blocksOf_append (l1 l2 : List HybridRMQ.Event) :
    HybridRMQ.blocksOf (l1 ++ l2) = HybridRMQ.blocksOf l1 ++ HybridRMQ.blocksOf l2 := by
  simp [HybridRMQ.blocksOf, List.filterMap_append]

/-- The log of a query that returns: one scan of `[low, high)` when the blocks of `low`
and `high - 1` are equal or adjacent, otherwise the scan to the end of the block of
`low`, the summary entries of the blocks from `low / b + 1` to `high / b` (excluded), and
the scan from the start of the block of `high - 1`. -/
theorem hybrid_rmqLog_spec (t : HybridRMQ) (hb : 1 ≤ t.blockSize) (low high x : Nat)
    (hx : t.rmq low high = some x) :
    ∃ log, t.rmqLog low high = some (x, log) ∧
      ((low / t.blockSize = (high - 1) / t.blockSize ∨
          (high - 1) / t.blockSize = low / t.blockSize + 1) →
        log = (List.range' low (high - low)).map HybridRMQ.Event.scan) ∧
      (¬ (low / t.blockSize = (high - 1) / t.blockSize ∨
          (high - 1) / t.blockSize = low / t.blockSize + 1) →
        log = (List.range' low ((low / t.blockSize + 1) * t.blockSize - low)).map
              HybridRMQ.Event.scan
            ++ (List.range' (low / t.blockSize + 1)
                (high / t.blockSize - (low / t.blockSize + 1))).map HybridRMQ.Event.block
            ++ (List.range' ((high - 1) / t.blockSize * t.blockSize)
                (high - (high - 1) / t.blockSize * t.blockSize)).map
              HybridRMQ.Event.scan) := by
  have hb0 : t.blockSize ≠ 0 := by omega
  have hbpos : 0 < t.blockSize := by omega
  have hsucc : (low / t.blockSize + 1) * t.blockSize
      = low / t.blockSize * t.blockSize + t.blockSize := Nat.succ_mul _ _
  unfold HybridRMQ.rmq at hx
  unfold HybridRMQ.rmqLog
  simp only [hb0, if_false] at hx ⊢
  rw [block_start low, block_start (high - 1), block_start high] at *
  rw [← hsucc] at *
  simp only [Nat.mul_div_cancel _ hbpos] at hx ⊢
  by_cases hsame : low / t.blockSize = (high - 1) / t.blockSize
  · rw [if_pos hsame] at hx ⊢
    rw [forLoop_withLog, hx]
    exact ⟨_, rfl, fun _ => by simp, fun h => absurd (Or.inl hsame) h⟩
  · rw [if_neg hsame] at hx ⊢
    by_cases hadj : (high - 1) / t.blockSize = low / t.blockSize + 1
    · rw [if_pos hadj] at hx ⊢
      rw [forLoop_withLog, hx]
      exact ⟨_, rfl, fun _ => by simp, fun h => absurd (Or.inr hadj) h⟩
    · rw [if_neg hadj] at hx ⊢
      rw [forLoop_withLog]
      cases h1 : forLoop low ((low / t.blockSize + 1) * t.blockSize)
          (HybridRMQ.scanStep t.array) low with
      | none => rw [h1] at hx; simp at hx
      | some s1 =>
        rw [h1] at hx
        simp only at hx ⊢
        rw [forLoop_withLog]
        cases h2 : forLoop (low / t.blockSize + 1) (high / t.blockSize)
            (HybridRMQ.summaryStep t.array t.summary) s1 with
        | none => rw [h2] at hx; simp at hx
        | some s2 =>
          rw [h2] at hx
          simp only at hx ⊢
          rw [forLoop_withLog, hx]
          refine ⟨_, rfl, ?_, fun _ => by simp⟩
          intro h
          rcases h with h | h
          · exact absurd h hsame
          · exact absurd h hadj

theorem div_pred_cases (high b : Nat) (hh : 1 ≤ high) (hb : 1 ≤ b) :
    (high % b ≠ 0 → high / b = (high - 1) / b) ∧
      (high % b = 0 → high / b = (high - 1) / b + 1) := by
  have hd := Nat.div_add_mod high b
  have hm := Nat.mod_lt high (show b > 0 by omega)
  rw [Nat.mul_comm] at hd
  have hsucc : (high / b + 1) * b = high / b * b + b := Nat.succ_mul _ _
  constructor
  · intro hr
    exact (Nat.div_eq_of_lt_le (by omega) (by omega)).symm
  · intro hr
    have hq : 1 ≤ high / b := by
      rcases Nat.eq_zero_or_pos (high / b) with h0 | h0
      · rw [h0] at hd; omega
      · exact h0
    have hsub : (high / b - 1 + 1) * b = (high / b - 1) * b + b := Nat.succ_mul _ _
    have hq' : high / b - 1 + 1 = high / b := by omega
    rw [hq'] at hsub
    have : (high - 1) / b = high / b - 1 :=
      Nat.div_eq_of_lt_le (by omega) (by rw [hq']; omega)
    omega

/-- The hybrid structure over `elems`, the result of a query and its log. -/
theorem hybrid_query_log (elems : List RMQEntry) (low high : Nat)
    (h1 : low < high) (h2 : high ≤ elems.length) :
    ∃ t res log, HybridRMQ.build elems elems.length = some t ∧
      t.blockSize = roundSqrt elems.length ∧ 1 ≤ t.blockSize ∧
      t.rmq low high = some res ∧ t.rmqLog low high = some (res, log) ∧
      ((low / t.blockSize = (high - 1) / t.blockSize ∨
          (high - 1) / t.blockSize = low / t.blockSize + 1) →
        log = (List.range' low (high - low)).map HybridRMQ.Event.scan) ∧
      (¬ (low / t.blockSize = (high - 1) / t.blockSize ∨
          (high - 1) / t.blockSize = low / t.blockSize + 1) →
        log = (List.range' low ((low / t.blockSize + 1) * t.blockSize - low)).map
              HybridRMQ.Event.scan
            ++ (List.range' (low / t.blockSize + 1)
                (high / t.blockSize - (low / t.blockSize + 1))).map HybridRMQ.Event.block
            ++ (List.range' ((high - 1) / t.blockSize * t.blockSize)
                (high - (high - 1) / t.blockSize * t.blockSize)).map
              HybridRMQ.Event.scan) := by
  obtain ⟨t, ht, harr, hbs, hsum⟩ := hybrid_build_spec elems elems.length (by omega)
    (Nat.le_refl _)
  have hb : 1 ≤ t.blockSize := by rw [hbs]; exact roundSqrt_pos _ (by omega)
  rw [← hbs] at hsum
  obtain ⟨res, hres, _⟩ := hybrid_rmq_spec elems elems.length t harr hb hsum (Nat.le_refl _)
    low high h1 h2
  obtain ⟨log, hlog, hl1, hl2⟩ := hybrid_rmqLog_spec t hb low high res hres
  exact ⟨t, res, log, ht, hbs, hb, hres, hlog, hl1, hl2⟩

/-! ## The claims on the cost of a hybrid query -/

/-- C22, as stated, fails: over `[5, 2, 8, 1, 9, 3]`, with block size `2`, the query of
`[0, 6)` has `lowBlock = 0` and `highBlock = 2`, and it reads the summary entries of the
blocks `1` and `2`: block `2` is `highBlock` itself. -/
theorem summary_reads_high_block :
    ∃ t res log, HybridRMQ.build [5, 2, 8, 1, 9, 3] 6 = some t ∧ t.blockSize = 2 ∧
      0 / t.blockSize = 0 ∧ (6 - 1) / t.blockSize = 2 ∧
      t.rmqLog 0 6 = some (res, log) ∧ HybridRMQ.blocksOf log = [1, 2] :=
  ⟨_, 3,
    [HybridRMQ.Event.scan 0, HybridRMQ.Event.scan 1, HybridRMQ.Event.block 1,
      HybridRMQ.Event.block 2, HybridRMQ.Event.scan 4, HybridRMQ.Event.scan 5],
    hybrid_build_example, rfl, by decide, by decide, by decide, by decide⟩

/-- C22, amended: for a range `0 ≤ low < high ≤ n` whose blocks `lowBlock = low / b` and
`highBlock = (high - 1) / b` satisfy `highBlock ≥ lowBlock + 2`, the query reads exactly
the summary entries of the blocks `i` with `lowBlock < i < high / b`, in order; `high / b`
is `highBlock` when `high` is not a multiple of `b`, and `highBlock + 1` when it is, so
the entry of `highBlock` is read as well exactly when `high` ends that block. -/
theorem hybrid_summary_reads (elems : List RMQEntry) (low high : Nat)
    (h1 : low < high) (h2 : high ≤ elems.length)
    (h3 : low / roundSqrt elems.length + 2 ≤ (high - 1) / roundSqrt elems.length) :
    ∃ t res log, HybridRMQ.build elems elems.length = some t ∧
      t.blockSize = roundSqrt elems.length ∧
      t.rmq low high = some res ∧ t.rmqLog low high = some (res, log) ∧
      HybridRMQ.blocksOf log
        = List.range' (low / t.blockSize + 1) (high / t.blockSize - (low / t.blockSize + 1)) ∧
      (high % t.blockSize ≠ 0 → high / t.blockSize = (high - 1) / t.blockSize) ∧
      (high % t.blockSize = 0 → high / t.blockSize = (high - 1) / t.blockSize + 1) := by
  obtain ⟨t, res, log, ht, hbs, hb, hres, hlog, _, hfar⟩ := hybrid_query_log elems low high h1 h2
  rw [← hbs] at h3
  have hl := hfar (by omega)
  obtain ⟨d1, d2⟩ := div_pred_cases high t.blockSize (by omega) hb
  refine ⟨t, res, log, ht, hbs, hres, hlog, ?_, d1, d2⟩
  rw [hl, blocksOf_append, blocksOf_append, blocksOf_scan, blocksOf_scan, blocksOf_block]
  simp

/-- The summary entries read by the query of `[1, 5)` on `[5, 2, 8, 1, 9, 3]`. -/
theorem hybrid_summary_reads_witness :
    (1 < 5 ∧ 5 ≤ ([5, 2, 8, 1, 9, 3] : List RMQEntry).length ∧
        1 / roundSqrt ([5, 2, 8, 1, 9, 3] : List RMQEntry).length + 2
          ≤ (5 - 1) / roundSqrt ([5, 2, 8, 1, 9, 3] : List RMQEntry).length) ∧
      ∃ t res log, HybridRMQ.build [5, 2, 8, 1, 9, 3]
          ([5, 2, 8, 1, 9, 3] : List RMQEntry).length = some t ∧
        t.blockSize = roundSqrt ([5, 2, 8, 1, 9, 3] : List RMQEntry).length ∧
        t.rmq 1 5 = some res ∧ t.rmqLog 1 5 = some (res, log) ∧
        HybridRMQ.blocksOf log
          = List.range' (1 / t.blockSize + 1) (5 / t.blockSize - (1 / t.blockSize + 1)) ∧
        (5 % t.blockSize ≠ 0 → 5 / t.blockSize = (5 - 1) / t.blockSize) ∧
        (5 % t.blockSize = 0 → 5 / t.blockSize = (5 - 1) / t.blockSize + 1) :=
  have h3 : 1 / roundSqrt ([5, 2, 8, 1, 9, 3] : List RMQEntry).length + 2
      ≤ (5 - 1) / roundSqrt ([5, 2, 8, 1, 9, 3] : List RMQEntry).length := by
    have h : ([5, 2, 8, 1, 9, 3] : List RMQEntry).length = 6 := rfl
    rw [h, roundSqrt_six]
  ⟨⟨by decide, by decide, h3⟩,
    hybrid_summary_reads [5, 2, 8, 1, 9, 3] 1 5 (by decide) (by decide) h3⟩

/-- C23: for a range `0 ≤ low < high ≤ n` of a sequence of length `n ≥ 1`, the query of a
`HybridRMQ` with block size `b = round(sqrt(n))` makes at most `2 * b + ⌈n / b⌉`
comparisons of elements, one in each of its loop iterations. -/
theorem hybrid_rmq_comparisons (elems : List RMQEntry) (low high : Nat)
    (h1 : low < high) (h2 : high ≤ elems.length) :
    ∃ t res log, HybridRMQ.build elems elems.length = some t ∧
      t.blockSize = roundSqrt elems.length ∧
      t.rmq low high = some res ∧ t.rmqLog low high = some (res, log) ∧
      log.length ≤ 2 * t.blockSize + (elems.length + t.blockSize - 1) / t.blockSize := by
  obtain ⟨t, res, log, ht, hbs, hb, hres, hlog, hnear, hfar⟩ :=
    hybrid_query_log elems low high h1 h2
  refine ⟨t, res, log, ht, hbs, hres, hlog, ?_⟩
  have hbpos : 0 < t.blockSize := by omega
  have a1 : low / t.blockSize * t.blockSize ≤ low := Nat.div_mul_le_self _ _
  have a2 : low < (low / t.blockSize + 1) * t.blockSize := by
    have hd := Nat.div_add_mod low t.blockSize
    have hm := Nat.mod_lt low hbpos
    have hsucc : (low / t.blockSize + 1) * t.blockSize
        = low / t.blockSize * t.blockSize + t.blockSize := Nat.succ_mul _ _
    rw [Nat.mul_comm] at hd
    omega
  have a3 : (high - 1) / t.blockSize * t.blockSize ≤ high - 1 := Nat.div_mul_le_self _ _
  have a4 : high - 1 < ((high - 1) / t.blockSize + 1) * t.blockSize := by
    have hd := Nat.div_add_mod (high - 1) t.blockSize
    have hm := Nat.mod_lt (high - 1) hbpos
    have hsucc : ((high - 1) / t.blockSize + 1) * t.blockSize
        = (high - 1) / t.blockSize * t.blockSize + t.blockSize := Nat.succ_mul _ _
    rw [Nat.mul_comm] at hd
    omega
  have s1 : (low / t.blockSize + 1) * t.blockSize
      = low / t.blockSize * t.blockSize + t.blockSize := Nat.succ_mul _ _
  have s2 : ((high - 1) / t.blockSize + 1) * t.blockSize
      = (high - 1) / t.blockSize * t.blockSize + t.blockSize := Nat.succ_mul _ _
  by_cases hcase : low / t.blockSize = (high - 1) / t.blockSize ∨
      (high - 1) / t.blockSize = low / t.blockSize + 1
  · rw [hnear hcase]
    simp only [List.length_map, List.length_range']
    have hle : (high - 1) / t.blockSize + 1 ≤ low / t.blockSize + 2 := by omega
    have h5 : high - 1 < (low / t.blockSize + 2) * t.blockSize :=
      lt_of_lt_of_le a4 (Nat.mul_le_mul_right t.blockSize hle)
    rw [Nat.add_mul] at h5
    generalize low / t.blockSize * t.blockSize = A at a1 h5
    generalize (elems.length + t.blockSize - 1) / t.blockSize = z
    clear a2 a3 a4 s1 s2 hle hcase hnear hfar
    omega
  · rw [hfar hcase]
    simp only [List.length_append, List.length_map, List.length_range']
    have hq : high / t.blockSize ≤ (elems.length + t.blockSize - 1) / t.blockSize :=
      Nat.div_le_div_right (by omega)
    have h6 : (low / t.blockSize + 1) * t.blockSize - low ≤ t.blockSize := by
      rw [s1]
      generalize low / t.blockSize * t.blockSize = A at a1
      omega
    have h7 : high - (high - 1) / t.blockSize * t.blockSize ≤ t.blockSize := by
      rw [s2] at a4
      generalize (high - 1) / t.blockSize * t.blockSize = B at a4
      omega
    generalize (low / t.blockSize + 1) * t.blockSize - low = x at h6 ⊢
    generalize high - (high - 1) / t.blockSize * t.blockSize = y at h7 ⊢
    generalize (elems.length + t.blockSize - 1) / t.blockSize = z at hq ⊢
    generalize high / t.blockSize = w at hq ⊢
    generalize low / t.blockSize = v
    omega

/-- The comparisons of the query of `[0, 6)` on `[5, 2, 8, 1, 9, 3]`. -/
theorem hybrid_rmq_comparisons_witness :
    (0 < 6 ∧ 6 ≤ ([5, 2, 8, 1, 9, 3] : List RMQEntry).length) ∧
      ∃ t res log, HybridRMQ.build [5, 2, 8, 1, 9, 3]
          ([5, 2, 8, 1, 9, 3] : List RMQEntry).length = some t ∧
        t.blockSize = roundSqrt ([5, 2, 8, 1, 9, 3] : List RMQEntry).length ∧
        t.rmq 0 6 = some res ∧ t.rmqLog 0 6 = some (res, log) ∧
        log.length ≤ 2 * t.blockSize
          + (([5, 2, 8, 1, 9, 3] : List RMQEntry).length + t.blockSize - 1) / t.blockSize :=
  ⟨⟨by decide, by decide⟩,
    hybrid_rmq_comparisons [5, 2, 8, 1, 9, 3] 0 6 (by decide) (by decide)⟩

/-! ## RunTests: the loop of addCommasTo -/

theorem addCommasLoop_ge (n i : Nat) (result : List Char) (h : 10 ≤ n) :
    addCommasLoop n i result
      = addCommasLoop (n / 10) (i + 1)
          (if i % 3 = 2 then result ++ [Char.ofNat (48 + n % 10)] ++ [',']
            else result ++ [Char.ofNat (48 + n % 10)]) := by
  rw [addCommasLoop, dif_pos h]

theorem addCommasLoop_lt (n i : Nat) (result : List Char) (h : n < 10) :
    addCommasLoop n i result = (n, result) := by
  rw [addCommasLoop, dif_neg (by omega)]

theorem addCommasLoop_append (n : Nat) : ∀ (i : Nat) (result : List Char),
    (addCommasLoop n i result).1 = (addCommasLoop n i []).1 ∧
      (addCommasLoop n i result).2 = result ++ (addCommasLoop n i []).2 := by
  induction n using Nat.strong_induction_on with
  | _ n ih =>
    intro i result
    by_cases h : 10 ≤ n
    · rw [addCommasLoop_ge n i result h, addCommasLoop_ge n i [] h]
      have hlt : n / 10 < n := by omega
      obtain ⟨a1, a2⟩ := ih (n / 10) hlt (i + 1)
        (if i % 3 = 2 then (result ++ [Char.ofNat (48 + n % 10)]) ++ [','] else
          result ++ [Char.ofNat (48 + n % 10)])
      obtain ⟨b1, b2⟩ := ih (n / 10) hlt (i + 1)
        (if i % 3 = 2 then ([] ++ [Char.ofNat (48 + n % 10)]) ++ [','] else
          [] ++ [Char.ofNat (48 + n % 10)])
      refine ⟨?_, ?_⟩
      · rw [a1, b1]
      · rw [a2, b2]
        split <;> simp
    · rw [addCommasLoop_lt n i result (by omega), addCommasLoop_lt n i [] (by omega)]
      simp

/-- The reversed result of the loop from `(n, i)` with an empty `result`, followed by the
first digit: one step of it. -/
theorem addCommas_tail_ge (n i : Nat) (h : 10 ≤ n) :
    (addCommasLoop n i []).2 ++ [Char.ofNat (48 + (addCommasLoop n i []).1)]
      = Char.ofNat (48 + n % 10) :: ((if i % 3 = 2 then [','] else [])
          ++ ((addCommasLoop (n / 10) (i + 1) []).2
            ++ [Char.ofNat (48 + (addCommasLoop (n / 10) (i + 1) []).1)])) := by
  rw [addCommasLoop_ge n i [] h]
  obtain ⟨a1, a2⟩ := addCommasLoop_append (n / 10) (i + 1)
    (if i % 3 = 2 then ([] ++ [Char.ofNat (48 + n % 10)]) ++ [','] else
      [] ++ [Char.ofNat (48 + n % 10)])
  rw [a1, a2]
  split <;> simp

theorem addCommas_tail_lt (n i : Nat) (h : n < 10) :
    (addCommasLoop n i []).2 ++ [Char.ofNat (48 + (addCommasLoop n i []).1)]
      = [Char.ofNat (48 + n)] := by
  rw [addCommasLoop_lt n i [] h]
  rfl

theorem digit_ne_comma (d : Nat) (h : d < 10) : Char.ofNat (48 + d) ≠ ',' := by
  interval_cases d <;> decide

theorem digitChar_eq (d : Nat) (h : d < 10) : Nat.digitChar d = Char.ofNat (48 + d) := by
  interval_cases d <;> rfl

theorem toDigitsCore_append (f : Nat) : ∀ (n : Nat) (ds : List Char),
    Nat.toDigitsCore 10 f n ds = Nat.toDigitsCore 10 f n [] ++ ds := by
  induction f with
  | zero => intro n ds; simp [Nat.toDigitsCore]
  | succ f ih =>
    intro n ds
    simp only [Nat.toDigitsCore]
    split
    · simp
    · rw [ih (n / 10) (Nat.digitChar (n % 10) :: ds), ih (n / 10) [Nat.digitChar (n % 10)]]
      simp

/-- With the commas removed, the reversed result is the reversed decimal representation. -/
theorem addCommas_filter (n : Nat) : ∀ (i f : Nat), n < f →
    ((addCommasLoop n i []).2 ++ [Char.ofNat (48 + (addCommasLoop n i []).1)]).filter
        (fun c => c ≠ ',')
      = (Nat.toDigitsCore 10 f n []).reverse := by
  induction n using Nat.strong_induction_on with
  | _ n ih =>
    intro i f hf
    obtain ⟨f, rfl⟩ : ∃ g, f = g + 1 := ⟨f - 1, by omega⟩
    by_cases h : 10 ≤ n
    · rw [addCommas_tail_ge n i h]
      have hne : n / 10 ≠ 0 := by omega
      simp only [Nat.toDigitsCore, hne, if_false]
      rw [toDigitsCore_append, List.reverse_append, ← ih (n / 10) (by omega) (i + 1) f (by omega),
        digitChar_eq _ (Nat.mod_lt _ (by decide))]
      have hd := digit_ne_comma (n % 10) (Nat.mod_lt _ (by decide))
      split <;> simp [List.filter_cons, hd]
    · rw [addCommas_tail_lt n i (by omega)]
      have h0 : n / 10 = 0 := by omega
      have hm : n % 10 = n := by omega
      simp only [Nat.toDigitsCore, h0, if_true, hm]
      rw [digitChar_eq _ (by omega)]
      simp [List.filter_cons, digit_ne_comma n (by omega)]

/-- The commas of the reversed result: with `i % 3` digits already in the current group,
position `p` holds a comma exactly when `(p + i % 3) % 4 = 3`, and the length `len` has
`(len + i % 3) % 4 ≠ 0`. -/
theorem addCommas_positions (n : Nat) : ∀ (i : Nat),
    (∀ p, ((addCommasLoop n i []).2 ++ [Char.ofNat (48 + (addCommasLoop n i []).1)])[p]?
          = some ',' ↔
        p < ((addCommasLoop n i []).2
            ++ [Char.ofNat (48 + (addCommasLoop n i []).1)]).length ∧
          (p + i % 3) % 4 = 3) ∧
      (((addCommasLoop n i []).2 ++ [Char.ofNat (48 + (addCommasLoop n i []).1)]).length
          + i % 3) % 4 ≠ 0 := by
  induction n using Nat.strong_induction_on with
  | _ n ih =>
    intro i
    by_cases h : 10 ≤ n
    · rw [addCommas_tail_ge n i h]
      obtain ⟨ih1, ih2⟩ := ih (n / 10) (by omega) (i + 1)
      generalize (addCommasLoop (n / 10) (i + 1) []).2
        ++ [Char.ofNat (48 + (addCommasLoop (n / 10) (i + 1) []).1)] = rest at ih1 ih2
      have hd := digit_ne_comma (n % 10) (Nat.mod_lt _ (by decide))
      have hi : i % 3 < 3 := Nat.mod_lt _ (by decide)
      by_cases hc : i % 3 = 2
      · have hc1 : (i + 1) % 3 = 0 := by omega
        rw [hc1] at ih1 ih2
        simp only [hc, if_true]
        refine ⟨?_, ?_⟩
        · intro p
          rcases p with _ | _ | p
          · simp [hd]
          · simp
          · simp only [List.getElem?_cons_succ, List.singleton_append, List.length_cons, ih1 p]
            constructor
            · rintro ⟨a, b⟩; exact ⟨by omega, by omega⟩
            · rintro ⟨a, b⟩; exact ⟨by omega, by omega⟩
        · simp only [List.singleton_append, List.length_cons]
          omega
      · have hc1 : (i + 1) % 3 = i % 3 + 1 := by omega
        rw [hc1] at ih1 ih2
        simp only [hc, if_false, List.nil_append]
        refine ⟨?_, ?_⟩
        · intro p
          rcases p with _ | p
          · simp only [List.getElem?_cons_zero, List.length_cons]
            constructor
            · intro a; exact absurd (Option.some.inj a) hd
            · rintro ⟨a, b⟩; omega
          · simp only [List.getElem?_cons_succ, List.length_cons, ih1 p]
            constructor
            · rintro ⟨a, b⟩; exact ⟨by omega, by omega⟩
            · rintro ⟨a, b⟩; exact ⟨by omega, by omega⟩
        · simp only [List.length_cons]
          omega
    · rw [addCommas_tail_lt n i (by omega)]
      have hd := digit_ne_comma n (by omega)
      have hi : i % 3 < 3 := Nat.mod_lt _ (by decide)
      refine ⟨?_, ?_⟩
      · intro p
        rcases p with _ | p
        · simp only [List.getElem?_cons_zero, List.length_singleton]
          constructor
          · intro a; exact absurd (Option.some.inj a) hd
          · rintro ⟨a, b⟩; omega
        · simp
      · simp only [List.length_singleton]
        omega

theorem addCommasTo_natCast (n : Nat) :
    (addCommasTo (n : Int)).data
      = ((addCommasLoop n 0 []).2 ++ [Char.ofNat (48 + (addCommasLoop n 0 []).1)]).reverse := by
  have h : ¬ ((n : Int) < 0) := by omega
  simp only [addCommasTo, h, if_false, addCommasNat, Int.toNat_ofNat]

theorem addCommasTo_example1 : addCommasTo 1234567 = "1,234,567" := by
  have h : ¬ ((1234567 : Int) < 0) := by decide
  have e : (1234567 : Int).toNat = 1234567 := rfl
  simp only [addCommasTo, h, if_false, addCommasNat, e]
  rw [addCommasLoop_ge _ _ _ (by decide), addCommasLoop_ge _ _ _ (by decide),
    addCommasLoop_ge _ _ _ (by decide), addCommasLoop_ge _ _ _ (by decide),
    addCommasLoop_ge _ _ _ (by decide), addCommasLoop_ge _ _ _ (by decide),
    addCommasLoop_lt _ _ _ (by decide)]
  decide

theorem addCommasTo_example2 : addCommasTo 1000 = "1,000" := by
  have h : ¬ ((1000 : Int) < 0) := by decide
  have e : (1000 : Int).toNat = 1000 := rfl
  simp only [addCommasTo, h, if_false, addCommasNat, e]
  rw [addCommasLoop_ge _ _ _ (by decide), addCommasLoop_ge _ _ _ (by decide),
    addCommasLoop_ge _ _ _ (by decide), addCommasLoop_lt _ _ _ (by decide)]
  decide

/-! ## The claim on `addCommasTo` -/

/-- C30: for every non-negative integer `n`, removing the commas from `addCommasTo(n)`
gives the decimal representation of `n`; read from the right, the character at position
`p` is a comma exactly when `p % 4 = 3`, so the digits come in groups of three from the
right; the length is not a multiple of four, so the first group has one to three digits;
the first and the last character are not commas. On `1234567` the result is
`"1,234,567"` and on `1000` it is `"1,000"`. -/
theorem addCommasTo_spec :
    (∀ n : Nat,
      (addCommasTo (n : Int)).data.filter (fun c => c ≠ ',') = (Nat.repr n).data ∧
      (∀ p, (addCommasTo (n : Int)).data.reverse[p]? = some ',' ↔
        p < (addCommasTo (n : Int)).data.length ∧ p % 4 = 3) ∧
      (addCommasTo (n : Int)).data.length % 4 ≠ 0 ∧
      (addCommasTo (n : Int)).data.head? ≠ some ',' ∧
      (addCommasTo (n : Int)).data.getLast? ≠ some ',') ∧
    addCommasTo 1234567 = "1,234,567" ∧ addCommasTo 1000 = "1,000" := by
  refine ⟨?_, addCommasTo_example1, addCommasTo_example2⟩
  intro n
  obtain ⟨hp, hl⟩ := addCommas_positions n 0
  have hf := addCommas_filter n 0 (n + 1) (Nat.lt_succ_self n)
  rw [addCommasTo_natCast]
  generalize (addCommasLoop n 0 []).2 ++ [Char.ofNat (48 + (addCommasLoop n 0 []).1)] = r
    at hp hl hf
  simp only [Nat.zero_mod, Nat.add_zero] at hp hl
  refine ⟨?_, ?_, ?_, ?_, ?_⟩
  · rw [List.filter_reverse, hf, List.reverse_reverse]
    rfl
  · intro p
    rw [List.reverse_reverse, List.length_reverse]
    exact hp p
  · rw [List.length_reverse]
    exact hl
  · rw [List.head?_reverse, List.getLast?_eq_getElem?]
    intro hc
    have := (hp (r.length - 1)).mp hc
    omega
  · rw [List.getLast?_reverse, List.head?_eq_getElem?]
    intro hc
    have := (hp 0).mp hc
    omega

/-! ## Rightmost and leftmost minima -/

theorem isLastMin_isRangeMin {elems : List RMQEntry} {low high i : Nat}
    (h : IsLastMin elems low high i) : IsRangeMin elems low high i := by
  obtain ⟨h1, h2, v, hv, hmin⟩ := h
  refine ⟨h1, h2, v, hv, ?_⟩
  intro j hj1 hj2
  obtain ⟨w, hw, hle, _⟩ := hmin j hj1 hj2
  exact ⟨w, hw, hle⟩

theorem isLastMin_greatest {elems : List RMQEntry} {low high i j : Nat}
    (h : IsLastMin elems low high i) (hj : IsRangeMin elems low high j) : j ≤ i := by
  obtain ⟨h1, h2, v, hv, hmin⟩ := h
  obtain ⟨hj1, hj2, w, hw, hjmin⟩ := hj
  by_contra hlt
  obtain ⟨w', hw', _, hstrict⟩ := hmin j hj1 hj2
  obtain ⟨v', hv', hle⟩ := hjmin i h1 h2
  rw [hw] at hw'
  rw [hv] at hv'
  cases hw'
  cases hv'
  exact absurd (hstrict (by omega)) (not_lt.mpr hle)

theorem isFirstMin_isRangeMin {elems : List RMQEntry} {low high i : Nat}
    (h : IsFirstMin elems low high i) : IsRangeMin elems low high i := by
  obtain ⟨h1, h2, v, hv, hmin⟩ := h
  refine ⟨h1, h2, v, hv, ?_⟩
  intro j hj1 hj2
  obtain ⟨w, hw, hle, _⟩ := hmin j hj1 hj2
  exact ⟨w, hw, hle⟩

theorem isFirstMin_least {elems : List RMQEntry} {low high i j : Nat}
    (h : IsFirstMin elems low high i) (hj : IsRangeMin elems low high j) : i ≤ j := by
  obtain ⟨h1, h2, v, hv, hmin⟩ := h
  obtain ⟨hj1, hj2, w, hw, hjmin⟩ := hj
  by_contra hlt
  obtain ⟨w', hw', _, hstrict⟩ := hmin j hj1 hj2
  obtain ⟨v', hv', hle⟩ := hjmin i h1 h2
  rw [hw] at hw'
  rw [hv] at hv'
  cases hw'
  cases hv'
  exact absurd (hstrict (by omega)) (not_lt.mpr hle)

theorem isLastMin_single (elems : List RMQEntry) (i : Nat) (h : i < elems.length) :
    IsLastMin elems i (i + 1) i := by
  refine ⟨Nat.le_refl i, Nat.lt_succ_self i, elems[i], List.getElem?_eq_getElem h, ?_⟩
  intro j h1 h2
  have : j = i := by omega
  subst this
  exact ⟨elems[j], List.getElem?_eq_getElem h, le_refl _, fun hlt => absurd hlt (Nat.lt_irrefl _)⟩

theorem isFirstMin_single (elems : List RMQEntry) (i : Nat) (h : i < elems.length) :
    IsFirstMin elems i (i + 1) i := by
  refine ⟨Nat.le_refl i, Nat.lt_succ_self i, elems[i], List.getElem?_eq_getElem h, ?_⟩
  intro j h1 h2
  have : j = i := by omega
  subst this
  exact ⟨elems[j], List.getElem?_eq_getElem h, le_refl _, fun hlt => absurd hlt (Nat.lt_irrefl _)⟩

/-- The comparison `elems[a] < elems[b] ? a : b` of a left window and a right window that
ends the range keeps the rightmost minimum: a tie gives `b`. -/
theorem isLastMin_combine {elems : List RMQEntry} {l1 h1 l2 h2 l h a b : Nat}
    (ha : IsLastMin elems l1 h1 a) (hb : IsLastMin elems l2 h2 b)
    (hl1 : l ≤ l1) (hh1 : h1 ≤ h) (hl2 : l ≤ l2) (hh2 : h2 ≤ h)
    (hcov : ∀ j, l ≤ j → j < h → (l1 ≤ j ∧ j < h1) ∨ (l2 ≤ j ∧ j < h2))
    (hend : h ≤ h2) :
    ∃ c, entryLt elems a b = some c ∧ IsLastMin elems l h (if c then a else b) := by
  obtain ⟨ha1, ha2, va, hva, hamin⟩ := ha
  obtain ⟨hb1, hb2, vb, hvb, hbmin⟩ := hb
  refine ⟨decide (va < vb), by simp [entryLt, hva, hvb], ?_⟩
  by_cases hlt : va < vb
  · simp only [hlt, decide_True, if_true]
    refine ⟨by omega, by omega, va, hva, ?_⟩
    intro j hj1 hj2
    rcases hcov j hj1 hj2 with ⟨h3, h4⟩ | ⟨h3, h4⟩
    · exact hamin j h3 h4
    · obtain ⟨w, hw, hle, _⟩ := hbmin j h3 h4
      exact ⟨w, hw, le_trans (le_of_lt hlt) hle, fun _ => lt_of_lt_of_le hlt hle⟩
  · simp only [hlt, decide_False, Bool.false_eq_true, if_false]
    refine ⟨by omega, by omega, vb, hvb, ?_⟩
    intro j hj1 hj2
    by_cases hjb : l2 ≤ j
    · exact hbmin j hjb (by omega)
    · rcases hcov j hj1 hj2 with ⟨h3, h4⟩ | ⟨h3, h4⟩
      · obtain ⟨w, hw, hle, _⟩ := hamin j h3 h4
        exact ⟨w, hw, le_trans (not_lt.mp hlt) hle, fun hbj => absurd hbj (by omega)⟩
      · exact absurd h3 hjb

/-- The comparison `elems[a] < elems[b] ? a : b` of a new window with the minimum so far,
whose window starts the range, keeps the leftmost minimum: a tie gives `b`. -/
theorem isFirstMin_combine {elems : List RMQEntry} {l1 h1 l2 h2 l h a b : Nat}
    (ha : IsFirstMin elems l1 h1 a) (hb : IsFirstMin elems l2 h2 b)
    (hl1 : l ≤ l1) (hh1 : h1 ≤ h) (hl2 : l ≤ l2) (hh2 : h2 ≤ h)
    (hcov : ∀ j, l ≤ j → j < h → (l1 ≤ j ∧ j < h1) ∨ (l2 ≤ j ∧ j < h2))
    (hstart : l2 ≤ l) :
    ∃ c, entryLt elems a b = some c ∧ IsFirstMin elems l h (if c then a else b) := by
  obtain ⟨ha1, ha2, va, hva, hamin⟩ := ha
  obtain ⟨hb1, hb2, vb, hvb, hbmin⟩ := hb
  refine ⟨decide (va < vb), by simp [entryLt, hva, hvb], ?_⟩
  by_cases hlt : va < vb
  · simp only [hlt, decide_True, if_true]
    refine ⟨by omega, by omega, va, hva, ?_⟩
    intro j hj1 hj2
    rcases hcov j hj1 hj2 with ⟨h3, h4⟩ | ⟨h3, h4⟩
    · exact hamin j h3 h4
    · obtain ⟨w, hw, hle, _⟩ := hbmin j h3 h4
      exact ⟨w, hw, le_trans (le_of_lt hlt) hle, fun _ => lt_of_lt_of_le hlt hle⟩
  · simp only [hlt, decide_False, Bool.false_eq_true, if_false]
    refine ⟨by omega, by omega, vb, hvb, ?_⟩
    intro j hj1 hj2
    by_cases hjb : j < h2
    · exact hbmin j (by omega) hjb
    · rcases hcov j hj1 hj2 with ⟨h3, h4⟩ | ⟨h3, h4⟩
      · obtain ⟨w, hw, hle, _⟩ := hamin j h3 h4
        exact ⟨w, hw, le_trans (not_lt.mp hlt) hle, fun hbj => absurd hbj (by omega)⟩
      · exact absurd h4 hjb

/-! ## The structures keep the rightmost minimum -/

theorem treeOver_minIndex_last {elems : List RMQEntry} {t : Node} {low high : Nat}
    (h : TreeOverLast elems t low high) :
    ∃ m, t.minIndex? = some m ∧ IsLastMin elems low high m := by
  cases h with
  | leaf low h => exact ⟨low, rfl, isLastMin_single _ _ h⟩
  | inner low high m l r hlt hl hr hm => exact ⟨m, rfl, hm⟩

theorem makeTree_treeOver_last (elems : List RMQEntry) :
    ∀ (d low high : Nat), high - low = d → low < high → high ≤ elems.length →
      ∃ t, makeTree elems low high = some t ∧ TreeOverLast elems t low high := by
  intro d
  induction d using Nat.strong_induction_on with
  | _ d ih =>
    intro low high hd hlt hle
    by_cases h2 : low + 1 = high
    · subst h2
      refine ⟨_, ?_, TreeOverLast.leaf low (by omega)⟩
      rw [makeTree]; simp
    · have h1 : low ≠ high := by omega
      have h3 : ¬ high < low := by omega
      obtain ⟨tl, htl, hwl⟩ := ih ((low + (high - low) / 2) - low) (by omega) low
        (low + (high - low) / 2) rfl (by omega) (by omega)
      obtain ⟨tr, htr, hwr⟩ := ih (high - (low + (high - low) / 2)) (by omega)
        (low + (high - low) / 2) high rfl (by omega) hle
      obtain ⟨lm, hlm, hlmin⟩ := treeOver_minIndex_last hwl
      obtain ⟨rm, hrm, hrmin⟩ := treeOver_minIndex_last hwr
      obtain ⟨c, hc, hmin⟩ := isLastMin_combine (l := low) (h := high) hlmin hrmin
        (Nat.le_refl _) (by omega) (by omega) (Nat.le_refl _) (fun j _ _ => by omega)
            (Nat.le_refl _)
      refine ⟨Node.node low high (if c then lm else rm) tl tr, ?_,
        TreeOverLast.inner low high _ tl tr (by omega) hwl hwr hmin⟩
      rw [makeTree]
      simp [h1, h2, h3, htl, htr, hlm, hrm, hc]

theorem rmqRec_isLastMin {elems : List RMQEntry} {t : Node} {tl th : Nat}
    (ht : TreeOverLast elems t tl th) :
    ∀ low high, tl ≤ low → low < high → high ≤ th →
      ∃ i, rmqRec elems t low high = some i ∧ IsLastMin elems low high i := by
  induction ht with
  | leaf tl h =>
    intro low high h1 h2 h3
    have e1 : low = tl := by omega
    have e2 : high = tl + 1 := by omega
    subst e1 e2
    exact ⟨low, by simp [rmqRec], isLastMin_single _ _ h⟩
  | inner tl th m l r hlt hl hr hm ihl ihr =>
    intro low high h1 h2 h3
    by_cases hex : tl = low ∧ th = high
    · obtain ⟨e1, e2⟩ := hex
      subst e1 e2
      exact ⟨m, by simp [rmqRec], hm⟩
    · by_cases hL : high ≤ tl + (th - tl) / 2
      · obtain ⟨i, hi, hmin⟩ := ihl low high h1 h2 hL
        exact ⟨i, by simp [rmqRec, hex, hL, hi], hmin⟩
      · by_cases hR : low ≥ tl + (th - tl) / 2
        · obtain ⟨i, hi, hmin⟩ := ihr low high hR h2 h3
          exact ⟨i, by simp [rmqRec, hex, hL, hR, hi], hmin⟩
        · obtain ⟨a, ha, hamin⟩ := ihl low (tl + (th - tl) / 2) h1 (by omega) (Nat.le_refl _)
          obtain ⟨b, hb, hbmin⟩ := ihr (tl + (th - tl) / 2) high (Nat.le_refl _) (by omega) h3
          obtain ⟨c, hc, hmin⟩ := isLastMin_combine (l := low) (h := high) hamin hbmin
            (Nat.le_refl _) (by omega) (by omega) (Nat.le_refl _) (fun j _ _ => by omega)
            (Nat.le_refl _)
          refine ⟨if c then a else b, ?_, hmin⟩
          simp only [rmqRec, hex, hL, hR, ha, hb, hc, if_false]
          

theorem initTable_spec_last (elems : List RMQEntry) (n : Nat) (hn : n ≤ elems.length) :
    ∃ iv, PrecomputedRMQ.initTable n = some iv ∧ TableInvLast elems n (fun s => s + 1) iv := by
  obtain ⟨iv, h1, h2⟩ := forLoop_inv
    (fun r iv => match PrecomputedRMQ.initRow r with
      | some row => some (iv ++ [row])
      | none => none)
    (fun r (iv : List (List Nat)) => r ≤ n ∧ TableInvLast elems r (fun s => s + 1) iv) 0 n []
    (Nat.zero_le _) ⟨Nat.zero_le _, rfl, fun s hs => absurd hs (Nat.not_lt_zero s)⟩
    (by
      intro r iv _ hr ⟨_, hlen, hrows⟩
      obtain ⟨row, hrow, hl, hlast⟩ := initRow_spec r
      refine ⟨iv ++ [row], by simp [hrow], by omega, by simp [hlen], ?_⟩
      intro s hs
      by_cases hsr : s < r
      · obtain ⟨row', e1, e2, e3⟩ := hrows s hsr
        beta_reduce at e2 e3 ⊢
        refine ⟨row', ?_, e2, e3⟩
        rw [List.getElem?_append_left (by omega)]; exact e1
      · have : s = r := by omega
        subst this
        beta_reduce
        refine ⟨row, ?_, hl, ?_⟩
        · rw [← hlen]; simp
        · intro c hc1 hc2
          have : c = s := by omega
          subst this
          exact ⟨c, hlast, isLastMin_single _ _ (by omega)⟩)
  exact ⟨iv, h1, h2.2⟩

theorem fillStep_spec_last (elems : List RMQEntry) (n i j : Nat) (st : List (List Nat) × Nat)
    (hj1 : i ≤ j) (hj2 : j < n - 1) (hsafe : st.2 = j - i)
    (hinv : TableInvLast elems n
      (fun s => if s < st.2 then min (s + 2 + i) n else min (s + 1 + i) n) st.1) :
    ∃ st', PrecomputedRMQ.fillStep elems j st = some st' ∧ st'.2 = j + 1 - i ∧
      TableInvLast elems n
        (fun s => if s < st'.2 then min (s + 2 + i) n else min (s + 1 + i) n) st'.1 := by
  obtain ⟨iv, safe⟩ := st
  simp only at hsafe hinv
  obtain ⟨hlen, hrows⟩ := hinv
  obtain ⟨rowa, ha1, ha2, ha3⟩ := hrows safe (by omega)
  obtain ⟨rowb, hb1, hb2, hb3⟩ := hrows (safe + 1) (by omega)
  simp only [Nat.lt_irrefl, if_false] at ha2 ha3
  have hnb : ¬ (safe + 1 < safe) := by omega
  simp only [hnb, if_false] at hb2 hb3
  obtain ⟨a, hra, hamin⟩ := ha3 j (by omega) (by omega)
  obtain ⟨b, hrb, hbmin⟩ := hb3 (j + 1) (by omega) (by omega)
  obtain ⟨c, hc, hmin⟩ := isLastMin_combine (l := safe) (h := j + 1 + 1) hamin hbmin
    (Nat.le_refl _) (by omega) (by omega) (Nat.le_refl _) (fun k _ _ => by omega)
    (Nat.le_refl _)
  refine ⟨(iv.set safe (rowa ++ [if c then a else b]), safe + 1), ?_, by simp; omega, ?_⟩
  · simp [PrecomputedRMQ.fillStep, at2, pushAt, ha1, hb1, hra, hrb, hc]
  · refine ⟨by simp [hlen], ?_⟩
    intro s hs
    simp only
    by_cases hss : s = safe
    · subst hss
      refine ⟨rowa ++ [if c then a else b], ?_, ?_, ?_⟩
      · rw [List.getElem?_set]; simp; omega
      · simp [ha2]; omega
      · intro k hk1 hk2
        simp only [Nat.lt_succ_self, if_true] at hk2
        by_cases hkj : k = j + 1
        · subst hkj
          refine ⟨if c then a else b, ?_, hmin⟩
          have : rowa.length = j + 1 := by omega
          rw [← this]; simp
        · obtain ⟨x, hx1, hx2⟩ := ha3 k hk1 (by omega)
          refine ⟨x, ?_, hx2⟩
          rw [List.getElem?_append_left (by omega)]; exact hx1
    · obtain ⟨row, e1, e2, e3⟩ := hrows s hs
      refine ⟨row, ?_, ?_, ?_⟩
      · rw [List.getElem?_set]; simp [Ne.symm hss, e1]
      · rw [e2]
        by_cases h : s < safe
        · have : s < safe + 1 := by omega
          simp [h, this]
        · have : ¬ s < safe + 1 := by omega
          simp [h, this]
      · intro k hk1 hk2
        apply e3 k hk1
        by_cases h : s < safe
        · have : s < safe + 1 := by omega
          simp only [this, if_true] at hk2
          simp only [h, if_true]; exact hk2
        · have : ¬ s < safe + 1 := by omega
          simp only [this, if_false] at hk2
          simp only [h, if_false]; exact hk2

theorem fillPass_spec_last (elems : List RMQEntry) (n i : Nat) (iv : List (List Nat))
    (hi : i < n - 1) (hinv : TableInvLast elems n (fun s => min (s + 1 + i) n) iv) :
    ∃ iv', PrecomputedRMQ.fillPass elems (n - 1) i iv = some iv' ∧
      TableInvLast elems n (fun s => min (s + 1 + (i + 1)) n) iv' := by
  obtain ⟨st, h1, h2, h3⟩ := forLoop_inv (PrecomputedRMQ.fillStep elems)
    (fun j (st : List (List Nat) × Nat) => st.2 = j - i ∧
      TableInvLast elems n
        (fun s => if s < st.2 then min (s + 2 + i) n else min (s + 1 + i) n) st.1)
    i (n - 1) (iv, 0) (by omega)
    ⟨by simp, by simpa using hinv⟩
    (fun j t hj1 hj2 ht => by
      obtain ⟨st', e1, e2, e3⟩ := fillStep_spec_last elems n i j t hj1 hj2 ht.1 ht.2
      exact ⟨st', e1, e2, e3⟩)
  refine ⟨st.1, by simp [PrecomputedRMQ.fillPass, h1], h3.1, ?_⟩
  intro s hs
  obtain ⟨row, e1, e2, e3⟩ := h3.2 s hs
  beta_reduce at e2 e3 ⊢
  have hL : (if s < st.2 then min (s + 2 + i) n else min (s + 1 + i) n)
      = min (s + 1 + (i + 1)) n := by
    split <;> omega
  rw [hL] at e2 e3
  exact ⟨row, e1, e2, e3⟩

theorem fillTable_spec_last (elems : List RMQEntry) (n : Nat) (iv0 : List (List Nat))
    (hn1 : 1 ≤ n) (hinv0 : TableInvLast elems n (fun s => s + 1) iv0) :
    ∃ iv, PrecomputedRMQ.fillTable elems (n - 1) iv0 = some iv ∧
      TableInvLast elems n (fun _ => n) iv := by
  obtain ⟨iv, h1, _, h2⟩ := forLoop_inv (PrecomputedRMQ.fillPass elems (n - 1))
    (fun i (iv : List (List Nat)) => i ≤ n - 1 ∧ TableInvLast elems n (fun s => min (s + 1 + i) n) iv)
    0 (n - 1) iv0 (Nat.zero_le _)
    ⟨Nat.zero_le _, hinv0.1, fun s hs => by
      obtain ⟨row, e1, e2, e3⟩ := hinv0.2 s hs
      have : min (s + 1 + 0) n = s + 1 := by omega
      exact ⟨row, e1, by simp only [this]; exact e2, by simp only [this]; exact e3⟩⟩
    (fun i t _ hi2 ht => by
      obtain ⟨iv', e1, e2⟩ := fillPass_spec_last elems n i t hi2 ht.2
      exact ⟨iv', e1, by omega, e2⟩)
  refine ⟨iv, h1, h2.1, ?_⟩
  intro s hs
  obtain ⟨row, e1, e2, e3⟩ := h2.2 s hs
  beta_reduce at e2 e3 ⊢
  have : min (s + 1 + (n - 1)) n = n := by omega
  rw [this] at e2 e3
  exact ⟨row, e1, e2, e3⟩

theorem precomputed_build_spec_last (elems : List RMQEntry) (n : Nat)
    (hn1 : 1 ≤ n) (hn2 : n < 2 ^ 64) (hn : n ≤ elems.length) :
    ∃ t, PrecomputedRMQ.build elems n = some t ∧ TableInvLast elems n (fun _ => n) t.indexVector := by
  obtain ⟨iv0, h0, hinv0⟩ := initTable_spec_last elems n hn
  obtain ⟨iv, h1, h2⟩ := fillTable_spec_last elems n iv0 hn1 hinv0
  refine ⟨⟨iv⟩, ?_, h2⟩
  unfold PrecomputedRMQ.build
  rw [numElems_SubOne_eq n hn1 hn2, h0]
  simp only [h1]

theorem levelInv_push_last {elems : List RMQEntry} {k len x : Nat} {row : List Nat}
    (h : LevelInvLast elems k row len) (hx : IsLastMin elems len (len + 2 ^ k) x) :
    LevelInvLast elems k (row ++ [x]) (len + 1) := by
  obtain ⟨hlen, hent⟩ := h
  refine ⟨by simp [hlen], ?_⟩
  intro j hj
  by_cases hjl : j = len
  · subst hjl
    exact ⟨x, by rw [← hlen]; simp, hx⟩
  · obtain ⟨y, hy1, hy2⟩ := hent j (by omega)
    exact ⟨y, by rw [List.getElem?_append_left (by omega)]; exact hy1, hy2⟩

theorem sparseInv_push_last {elems : List RMQEntry} {n K i j x : Nat} {iv : List (List Nat)}
    (h : SparseInvLast elems n K i j iv) (hi : i ≤ K)
    (hx : IsLastMin elems j (j + 2 ^ i) x) :
    ∃ iv', pushAt iv i x = some iv' ∧ SparseInvLast elems n K i (j + 1) iv' := by
  obtain ⟨hlen, hrows⟩ := h
  obtain ⟨row, hrow, hlev⟩ := hrows i hi
  simp only [Nat.lt_irrefl, if_false, if_true] at hlev
  refine ⟨iv.set i (row ++ [x]), pushAt_eq hrow x, by simp [hlen], ?_⟩
  intro k hk
  by_cases hki : k = i
  · subst hki
    refine ⟨row ++ [x], ?_, ?_⟩
    · rw [List.getElem?_set]; simp; omega
    · simp only [Nat.lt_irrefl, if_false, if_true]
      exact levelInv_push_last hlev hx
  · obtain ⟨row', e1, e2⟩ := hrows k hk
    refine ⟨row', ?_, ?_⟩
    · rw [List.getElem?_set]; simp [Ne.symm hki, e1]
    · simpa [hki] using e2

theorem sparseInv_at2_last {elems : List RMQEntry} {n K i j k c : Nat} {iv : List (List Nat)}
    (h : SparseInvLast elems n K i j iv) (hk : k < i) (hkK : k ≤ K) (hc : c + 2 ^ k ≤ n) :
    ∃ x, at2 iv k c = some x ∧ IsLastMin elems c (c + 2 ^ k) x := by
  obtain ⟨row, hrow, _, hent⟩ := h.2 k hkK
  simp only [hk, if_true] at hent
  obtain ⟨x, hx1, hx2⟩ := hent c (by omega)
  exact ⟨x, by simp [at2, hrow, hx1], hx2⟩

theorem sparseInv_next_last {elems : List RMQEntry} {n K i : Nat} {iv : List (List Nat)}
    (h : SparseInvLast elems n K i (n + 1 - 2 ^ i) iv) : SparseInvLast elems n K (i + 1) 0 iv := by
  refine ⟨h.1, ?_⟩
  intro k hk
  obtain ⟨row, e1, e2⟩ := h.2 k hk
  refine ⟨row, e1, ?_⟩
  by_cases h1 : k < i
  · have : k < i + 1 := by omega
    simpa [h1, this] using e2
  · by_cases h2 : k = i
    · subst h2
      simpa using e2
    · have h3 : ¬ k < i + 1 := by omega
      have h4 : ¬ k = i + 1 → True := fun _ => trivial
      by_cases h5 : k = i + 1
      · subst h5
        simpa [h1, h2] using e2
      · simpa [h1, h2, h3, h5] using e2

theorem levelStep_spec_last (elems : List RMQEntry) (n K i j : Nat) (iv : List (List Nat))
    (hi1 : 1 ≤ i) (hiK : i ≤ K) (hj : j + 2 ^ i ≤ n)
    (h : SparseInvLast elems n K i j iv) (hi31 : i ≤ 31) (hn64 : n < 2 ^ 64) :
    ∃ iv', SparseTableRMQ.levelStep elems i j iv = some iv' ∧
      SparseInvLast elems n K i (j + 1) iv' := by
  have hpow : 2 ^ i = 2 ^ (i - 1) + 2 ^ (i - 1) := by
    have : i = (i - 1) + 1 := by omega
    conv_lhs => rw [this, pow_succ]
    omega
  have hp1 : 1 ≤ 2 ^ (i - 1) := Nat.one_le_two_pow
  have h1 : j + 2 ^ (i - 1) ≤ n := by
    rw [hpow] at hj; exact le_trans (by simp [Nat.add_assoc]) hj
  have h2 : j + 2 ^ (i - 1) + 2 ^ (i - 1) ≤ n := by
    rw [hpow, ← Nat.add_assoc] at hj; exact hj
  obtain ⟨a, ha, hamin⟩ := sparseInv_at2_last h (k := i - 1) (c := j) (by omega) (by omega) h1
  obtain ⟨b, hb, hbmin⟩ := sparseInv_at2_last h (k := i - 1) (c := j + 2 ^ (i - 1)) (by omega) (by omega) h2
  rw [hpow] at hj
  obtain ⟨c, hc, hmin⟩ := isLastMin_combine (l := j) (h := j + 2 ^ i) hamin hbmin
    (Nat.le_refl _) (by rw [hpow]; exact Nat.add_le_add_left (Nat.le_add_right _ _) _)
    (Nat.le_add_right _ _)
    (by rw [hpow, Nat.add_assoc])
    (fun t ht1 ht2 => by
      rw [hpow] at ht2
      by_cases hlt : t < j + 2 ^ (i - 1)
      · exact Or.inl ⟨ht1, hlt⟩
      · exact Or.inr ⟨Nat.le_of_not_lt hlt, by rw [Nat.add_assoc]; exact ht2⟩)
    (by rw [hpow, Nat.add_assoc])
  obtain ⟨iv', e1, e2⟩ := sparseInv_push_last h hiK hmin
  have hs : shiftOne (i - 1) = some (2 ^ (i - 1)) := shiftOne_of_le _ (by omega)
  have hadd : sizeAdd j (2 ^ (i - 1)) = j + 2 ^ (i - 1) :=
    sizeAdd_eq _ _ (lt_of_le_of_lt h1 hn64)
  exact ⟨iv', by simp [SparseTableRMQ.levelStep, hs, hadd, ha, hb, hc, e1], e2⟩

theorem levelZero_spec_last (elems : List RMQEntry) (n K : Nat) (iv0 : List (List Nat))
    (hn : n ≤ elems.length) (hlen : iv0.length = K + 1)
    (hrows : ∀ k, k < K + 1 → iv0[k]? = some []) :
    ∃ iv, forLoop 0 n (fun i iv => pushAt iv 0 i) iv0 = some iv ∧
      SparseInvLast elems n K 1 0 iv := by
  have hinit : SparseInvLast elems n K 0 0 iv0 := by
    refine ⟨hlen, ?_⟩
    intro k hk
    refine ⟨[], hrows k (by omega), ?_⟩
    have : (if k < 0 then n + 1 - 2 ^ k else if k = 0 then 0 else 0) = 0 := by
      split
      · omega
      · split <;> rfl
    rw [this]
    exact ⟨rfl, fun j hj => absurd hj (Nat.not_lt_zero j)⟩
  obtain ⟨iv, h1, h2⟩ := forLoop_inv (fun i iv => pushAt iv 0 i)
    (fun j iv => SparseInvLast elems n K 0 j iv) 0 n iv0 (Nat.zero_le _) hinit
    (by
      intro j iv _ hj hinv
      have hx : IsLastMin elems j (j + 2 ^ 0) j := by
        simpa using isLastMin_single elems j (by omega)
      exact sparseInv_push_last hinv (Nat.zero_le _) hx)
  refine ⟨iv, h1, sparseInv_next_last ?_⟩
  simpa using h2

theorem levelLoop_spec_last (elems : List RMQEntry) (n K i : Nat) (iv : List (List Nat))
    (hi1 : 1 ≤ i) (hiK : i ≤ K) (h : SparseInvLast elems n K i 0 iv) (hi30 : i ≤ 30)
    (hn64 : n < 2 ^ 64) :
    ∃ iv', SparseTableRMQ.levelLoop elems n i iv = some iv' ∧
      SparseInvLast elems n K (i + 1) 0 iv' := by
  obtain ⟨iv', h1, h2⟩ := forLoop_inv (SparseTableRMQ.levelStep elems i)
    (fun j iv => SparseInvLast elems n K i j iv) 0 (n + 1 - 2 ^ i) iv (Nat.zero_le _) h
    (by
      intro j t _ hj ht
      refine levelStep_spec_last elems n K i j t hi1 hiK ?_ ht (by omega) hn64
      generalize 2 ^ i = q at hj ⊢
      omega)
  refine ⟨iv', ?_, sparseInv_next_last h2⟩
  simp only [SparseTableRMQ.levelLoop, shiftOne_of_le i hi30]
  exact h1

theorem sparse_build_wide_last (elems : List RMQEntry) (n : Nat) (hn : n ≤ elems.length)
    (h32 : n ≤ 2 ^ 32) :
    ∃ t, SparseTableRMQ.build elems n = some t ∧ t.array = elems ∧
      LogTableInv (max 2 n) t.logTable ∧
      SparseInvLast elems n (lastLevel n) (min (lastLevel n + 1) 31) 0 t.indexVector := by
  have hK := lastLevel_le_31 n h32
  obtain ⟨lt, hlt, hlog⟩ := buildLogTable_spec n
  have hback : lt.getLast? = some (lastLevel n) := by
    rw [List.getLast?_eq_getElem?, hlog.1]
    exact hlog.2 _ (by omega)
  obtain ⟨iv0, h0, hlen0, hrows0⟩ := emptyRows_spec (lastLevel n + 1)
  obtain ⟨iv1, h1, hinv1⟩ := levelZero_spec_last elems n (lastLevel n) iv0 hn hlen0 hrows0
  obtain ⟨iv, h2, _, hinv⟩ := forLoop_inv (SparseTableRMQ.levelLoop elems n)
    (fun i iv => i ≤ lastLevel n + 1 ∧ SparseInvLast elems n (lastLevel n) (min i 31) 0 iv)
    1 (lastLevel n + 1) iv1 (by omega) ⟨by omega, by simpa using hinv1⟩
    (by
      intro i t hi1 hi2 ⟨_, ht⟩
      by_cases hi30 : i ≤ 30
      · have e1 : min i 31 = i := by omega
        have e2 : min (i + 1) 31 = i + 1 := by omega
        rw [e1] at ht
        obtain ⟨iv', e3, e4⟩ := levelLoop_spec_last elems n (lastLevel n) i t hi1 (by omega) ht
          hi30 (by omega)
        exact ⟨iv', e3, by omega, by rw [e2]; exact e4⟩
      · have e0 : i = 31 := by omega
        subst e0
        exact ⟨t, levelLoop_31 elems n t h32, by omega, by simpa using ht⟩)
  refine ⟨⟨iv, elems, lt⟩, ?_, rfl, hlog, hinv⟩
  have hl1 : iv1.length = lastLevel n + 1 := hinv1.1
  simp [SparseTableRMQ.build, hlt, hback, h0, h1, hl1, h2]

theorem sparse_build_spec_last (elems : List RMQEntry) (n : Nat) (hn : n ≤ elems.length)
    (h31 : n ≤ 2 ^ 31) :
    ∃ t, SparseTableRMQ.build elems n = some t ∧ t.array = elems ∧
      LogTableInv (max 2 n) t.logTable ∧
      SparseInvLast elems n (lastLevel n) (lastLevel n + 1) 0 t.indexVector := by
  obtain ⟨t, ht, harr, hlog, hinv⟩ := sparse_build_wide_last elems n hn (by omega)
  have hK := lastLevel_le_30 n h31
  have e : min (lastLevel n + 1) 31 = lastLevel n + 1 := by omega
  rw [e] at hinv
  exact ⟨t, ht, harr, hlog, hinv⟩

theorem sparse_rmq_spec_last (elems : List RMQEntry) (n : Nat) (t : SparseTableRMQ)
    (harr : t.array = elems) (hlog : LogTableInv (max 2 n) t.logTable)
    (hinv : SparseInvLast elems n (lastLevel n) (lastLevel n + 1) 0 t.indexVector)
    (low high : Nat) (h1 : low < high) (h2 : high ≤ n) (h31 : n ≤ 2 ^ 31) :
    ∃ i, t.rmq low high = some i ∧ IsLastMin elems low high i := by
  have hK := lastLevel_le_30 n h31
  have hrow : t.logTable[high - low - 1]? = some (Nat.log 2 (high - low - 1)) :=
    hlog.2 _ (by omega)
  by_cases hone : 1 = high - low
  · have hz : high - low - 1 = 0 := by omega
    rw [hz] at hrow
    obtain ⟨x, hx1, hx2⟩ := sparseInv_at2_last hinv (k := 0) (c := low) (by omega) (Nat.zero_le _)
      (by simp; omega)
    have hh : low + 2 ^ 0 = high := by simp; omega
    rw [hh] at hx2
    refine ⟨x, ?_, hx2⟩
    simp only [SparseTableRMQ.rmq, hz, hrow]
    simpa [← hone] using hx1
  · have hL : high - low - 1 ≠ 0 := by omega
    have hk1 : 2 ^ Nat.log 2 (high - low - 1) ≤ high - low - 1 := Nat.pow_log_le_self 2 hL
    have hk2 : high - low - 1 < 2 ^ (Nat.log 2 (high - low - 1) + 1) :=
      Nat.lt_pow_succ_log_self (by decide) _
    have hkK : Nat.log 2 (high - low - 1) ≤ lastLevel n :=
      Nat.log_mono_right (by omega)
    rw [pow_succ] at hk2
    generalize Nat.log 2 (high - low - 1) = k at hrow hk1 hk2 hkK
    obtain ⟨a, ha, hamin⟩ := sparseInv_at2_last hinv (k := k) (c := low) (by omega) hkK
      (by generalize 2 ^ k = q at hk1; omega)
    obtain ⟨b, hb, hbmin⟩ := sparseInv_at2_last hinv (k := k) (c := high - 2 ^ k) (by omega) hkK
      (by generalize 2 ^ k = q at hk1; omega)
    have hcov : ∀ j, low ≤ j → j < high →
        (low ≤ j ∧ j < low + 2 ^ k) ∨ (high - 2 ^ k ≤ j ∧ j < high - 2 ^ k + 2 ^ k) := by
      generalize 2 ^ k = q at hk1 hk2
      intro j hj1 hj2
      omega
    obtain ⟨c, hc, hmin⟩ := isLastMin_combine (l := low) (h := high) hamin hbmin
      (Nat.le_refl _) (by generalize 2 ^ k = q at hk1; omega)
      (by generalize 2 ^ k = q at hk1; omega)
      (by generalize 2 ^ k = q at hk1; omega) hcov
      (by generalize 2 ^ k = q at hk1; omega)
    refine ⟨if c then a else b, ?_, hmin⟩
    subst harr
    have hs : shiftOne k = some (2 ^ k) := shiftOne_of_le k (by omega)
    have hsub : sizeSub high (2 ^ k) = high - 2 ^ k :=
      sizeSub_eq _ _ (by generalize 2 ^ k = q at hk1; omega) (by omega)
    simp only [SparseTableRMQ.rmq, hrow, hone, if_false, hs, hsub, ha, hb, hc]
    cases c <;> simp [hb]

theorem segmentTreeQuery_isLastMin (elems : List RMQEntry) (low high : Nat)
    (h1 : low < high) (h2 : high ≤ elems.length) :
    ∃ i, segmentTreeQuery elems low high = some i ∧ IsLastMin elems low high i := by
  obtain ⟨t, ht, hw⟩ := makeTree_treeOver_last elems _ 0 elems.length rfl (by omega) (Nat.le_refl _)
  obtain ⟨i, hi, hmin⟩ := rmqRec_isLastMin hw low high (Nat.zero_le _) h1 h2
  exact ⟨i, by simp [segmentTreeQuery, SegmentTreeRMQ.build, SegmentTreeRMQ.rmq, ht, hi], hmin⟩

theorem precomputedQuery_isLastMin (elems : List RMQEntry) (low high : Nat)
    (hsz : elems.length < 2 ^ 64) (h1 : low < high) (h2 : high ≤ elems.length) :
    ∃ i, precomputedQuery elems low high = some i ∧ IsLastMin elems low high i := by
  obtain ⟨t, ht, _, hrows⟩ := precomputed_build_spec_last elems elems.length (by omega) hsz
    (Nat.le_refl _)
  obtain ⟨row, e1, _, e3⟩ := hrows low (by omega)
  beta_reduce at e3
  obtain ⟨x, hx, hmin⟩ := e3 (high - 1) (by omega) (by omega)
  have hh : high - 1 + 1 = high := by omega
  rw [hh] at hmin
  exact ⟨x, by simp [precomputedQuery, ht, PrecomputedRMQ.rmq, at2, e1, hx], hmin⟩

theorem sparseTableQuery_isLastMin (elems : List RMQEntry) (low high : Nat)
    (h1 : low < high) (h2 : high ≤ elems.length) (h31 : elems.length ≤ 2 ^ 31) :
    ∃ i, sparseTableQuery elems low high = some i ∧ IsLastMin elems low high i := by
  obtain ⟨t, ht, harr, hlog, hinv⟩ := sparse_build_spec_last elems elems.length (Nat.le_refl _) h31
  obtain ⟨i, hi, hmin⟩ := sparse_rmq_spec_last elems elems.length t harr hlog hinv low high h1 h2
    h31
  exact ⟨i, by simp [sparseTableQuery, ht, hi], hmin⟩

/-! ## HybridRMQ keeps the leftmost minimum -/

theorem buildStep_spec_first (elems : List RMQEntry) (n b i : Nat) (st : HybridRMQ.BuildState)
    (hn : n ≤ elems.length) (hi : i < n) (h : BuildInvFirst elems n b i st) :
    ∃ st', HybridRMQ.buildStep elems n b i st = some st' ∧ BuildInvFirst elems n b (i + 1) st' := by
  obtain ⟨k, hk, hcb, hsm, hlen, hent⟩ := h
  have hlen' : st.summary.length = k := by
    rw [hlen]; simp; omega
  rw [hlen'] at hent
  have hnew : ∃ c, entryLt elems i st.smallest = some c ∧
      IsFirstMin elems (k * b) (i + 1) (if c then i else st.smallest) := by
    by_cases hc0 : st.count = 0
    · simp only [hc0, if_true] at hsm
      rw [hsm]
      have hkb : k * b = i := by omega
      rw [hkb]
      have hs := isFirstMin_single elems i (by omega)
      obtain ⟨_, _, v, hv, _⟩ := hs
      refine ⟨false, by simp [entryLt, hv], ?_⟩
      simpa using isFirstMin_single elems i (by omega)
    · simp only [hc0, if_false] at hsm
      exact isFirstMin_combine (l := k * b) (h := i + 1)
        (isFirstMin_single elems i (by omega)) hsm
        (by omega) (Nat.le_refl _) (Nat.le_refl _) (by omega) (fun j _ _ => by omega)
        (Nat.le_refl _)
  obtain ⟨c, hc, hmin⟩ := hnew
  have hsucc : (k + 1) * b = k * b + b := Nat.succ_mul k b
  have hold : ∀ j, j < k →
      ∃ x, st.summary[j]? = some x ∧ IsFirstMin elems (j * b) (min ((j + 1) * b) n) x := hent
  have hpush : ∀ x, IsFirstMin elems (k * b) (min ((k + 1) * b) n) x →
      ∀ j, j < (st.summary ++ [x]).length →
        ∃ y, (st.summary ++ [x])[j]? = some y ∧
          IsFirstMin elems (j * b) (min ((j + 1) * b) n) y := by
    intro x hx j hj
    simp only [List.length_append, List.length_singleton, hlen'] at hj
    by_cases hjk : j = k
    · subst hjk
      exact ⟨x, by rw [← hlen']; simp, hx⟩
    · obtain ⟨y, hy1, hy2⟩ := hold j (by omega)
      exact ⟨y, by rw [List.getElem?_append_left (by omega)]; exact hy1, hy2⟩
  by_cases hfull : st.count + 1 = b
  · refine ⟨⟨st.summary ++ [if c then i else st.smallest], 0, i + 1⟩, ?_, ?_⟩
    · simp [HybridRMQ.buildStep, hc, hfull]
    · refine ⟨k + 1, by simp only; omega, by simp only; omega, by simp, ?_, ?_⟩
      · simp [hlen']
      · apply hpush
        have : min ((k + 1) * b) n = i + 1 := by omega
        rw [this]; exact hmin
  · by_cases hlast : i = n - 1
    · refine ⟨⟨st.summary ++ [if c then i else st.smallest], st.count + 1,
        if c then i else st.smallest⟩, ?_, ?_⟩
      · simp only [HybridRMQ.buildStep, hc, hfull, if_false]
        rw [if_pos hlast]
      · refine ⟨k, by simp only; omega, by simp only; omega, by simpa using hmin, ?_, ?_⟩
        · have : i + 1 = n := by omega
          simp [hlen', this]
        · apply hpush
          have : min ((k + 1) * b) n = i + 1 := by omega
          rw [this]; exact hmin
    · refine ⟨⟨st.summary, st.count + 1, if c then i else st.smallest⟩, ?_, ?_⟩
      · simp [HybridRMQ.buildStep, hc, hfull, hlast]
      · refine ⟨k, by simp only; omega, by simp only; omega, by simpa using hmin, ?_, ?_⟩
        · have : ¬ (i + 1 = n) := by omega
          simp [hlen', this]
        · simp only [hlen']; exact hold

theorem buildInv_summaryInv_first {elems : List RMQEntry} {n b : Nat} {st : HybridRMQ.BuildState}
    (h : BuildInvFirst elems n b n st) : SummaryInvFirst elems n b st.summary := by
  obtain ⟨k, hk, hcb, _, hlen, hent⟩ := h
  have hsucc : (k + 1) * b = k * b + b := Nat.succ_mul k b
  have hsucc2 : (k + 1 + 1) * b = (k + 1) * b + b := Nat.succ_mul (k + 1) b
  have hceil : (n + b - 1) / b = st.summary.length := by
    by_cases hc0 : 0 < st.count
    · have hL : st.summary.length = k + 1 := by simpa [hc0] using hlen
      rw [hL]
      exact Nat.div_eq_of_lt_le (by omega) (by omega)
    · have hL : st.summary.length = k := by simpa [hc0] using hlen
      rw [hL]
      exact Nat.div_eq_of_lt_le (by omega) (by omega)
  exact ⟨hceil.symm, by rw [hceil]; exact hent⟩

theorem hybrid_build_spec_first (elems : List RMQEntry) (n : Nat) (hn1 : 1 ≤ n)
    (hn : n ≤ elems.length) :
    ∃ t, HybridRMQ.build elems n = some t ∧ t.array = elems ∧ t.blockSize = roundSqrt n ∧
      SummaryInvFirst elems n (roundSqrt n) t.summary := by
  have hb := roundSqrt_pos n hn1
  obtain ⟨st, h1, h2⟩ := forLoop_inv (HybridRMQ.buildStep elems n (roundSqrt n))
    (fun i st => BuildInvFirst elems n (roundSqrt n) i st) 0 n ⟨[], 0, 0⟩ (Nat.zero_le _)
    ⟨0, by simp, by simp only; omega, by simp, by simp, by simp⟩
    (fun i t _ hi ht => buildStep_spec_first elems n (roundSqrt n) i t hn hi ht)
  refine ⟨⟨st.summary, elems, roundSqrt n⟩, ?_, rfl, rfl, buildInv_summaryInv_first h2⟩
  have hb0 : roundSqrt n ≠ 0 := by omega
  simp [HybridRMQ.build, hb0, h1]

theorem scan_spec_first (array : List RMQEntry) (l lo hi M s0 : Nat) (hl : l ≤ lo) (hloM : lo ≤ M)
    (hlohi : lo ≤ hi) (hhi : hi ≤ array.length) (h0 : IsFirstMin array l M s0) :
    ∃ s, forLoop lo hi (HybridRMQ.scanStep array) s0 = some s ∧
      IsFirstMin array l (max M hi) s := by
  have hstart : max M lo = M := by omega
  obtain ⟨s, h1, h2⟩ := forLoop_inv (HybridRMQ.scanStep array)
    (fun i s => IsFirstMin array l (max M i) s) lo hi s0 hlohi
    (by show IsFirstMin array l (max M lo) s0; rw [hstart]; exact h0)
    (by
      intro i t hi1 hi2 ht
      obtain ⟨c, hc, hmin⟩ := isFirstMin_combine (l := l) (h := max M (i + 1))
        (isFirstMin_single array i (by omega)) ht
        (by omega) (by omega) (Nat.le_refl _) (by omega) (fun j _ _ => by omega)
        (Nat.le_refl _)
      exact ⟨if c then i else t, by simp [HybridRMQ.scanStep, hc], hmin⟩)
  exact ⟨s, h1, h2⟩

theorem scan_from_low_first (array : List RMQEntry) (low hi : Nat) (h1 : low < hi)
    (h2 : hi ≤ array.length) :
    ∃ s, forLoop low hi (HybridRMQ.scanStep array) low = some s ∧
      IsFirstMin array low hi s := by
  obtain ⟨s, e1, e2⟩ := scan_spec_first array low low hi (low + 1) low (Nat.le_refl _) (by omega)
    (by omega) h2 (isFirstMin_single _ _ (by omega))
  have : max (low + 1) hi = hi := by omega
  rw [this] at e2
  exact ⟨s, e1, e2⟩

theorem summaryScan_spec_first (elems : List RMQEntry) (n b : Nat) (summary : List Nat)
    (hsum : SummaryInvFirst elems n b summary) (hb : 1 ≤ b) (low lo hi s0 : Nat)
    (hlohi : lo ≤ hi) (hhi : hi * b ≤ n) (hlow : low < lo * b)
    (h0 : IsFirstMin elems low (lo * b) s0) :
    ∃ s, forLoop lo hi (HybridRMQ.summaryStep elems summary) s0 = some s ∧
      IsFirstMin elems low (hi * b) s := by
  obtain ⟨s, h1, h2⟩ := forLoop_inv (HybridRMQ.summaryStep elems summary)
    (fun i s => IsFirstMin elems low (i * b) s) lo hi s0 hlohi h0
    (by
      intro i t hi1 hi2 ht
      have hsucc : (i + 1) * b = i * b + b := Nat.succ_mul i b
      have hle : (i + 1) * b ≤ hi * b := Nat.mul_le_mul_right b hi2
      have hlo : lo * b ≤ i * b := Nat.mul_le_mul_right b hi1
      have hidx : i < (n + b - 1) / b :=
        (Nat.le_div_iff_mul_le (by omega)).2 (by show (i + 1) * b ≤ n + b - 1; omega)
      obtain ⟨m, hm1, hm2⟩ := hsum.2 i hidx
      have hmin' : min ((i + 1) * b) n = (i + 1) * b := by omega
      rw [hmin'] at hm2
      obtain ⟨c, hc, hmin⟩ := isFirstMin_combine (l := low) (h := (i + 1) * b) hm2 ht
        (by omega) (Nat.le_refl _) (Nat.le_refl _) (by omega) (fun j _ _ => by omega)
        (Nat.le_refl _)
      exact ⟨if c then m else t, by simp [HybridRMQ.summaryStep, hm1, hc], hmin⟩)
  exact ⟨s, h1, h2⟩

theorem hybrid_rmq_spec_first (elems : List RMQEntry) (n : Nat) (t : HybridRMQ)
    (harr : t.array = elems) (hb : 1 ≤ t.blockSize)
    (hsum : SummaryInvFirst elems n t.blockSize t.summary) (hn : n ≤ elems.length)
    (low high : Nat) (h1 : low < high) (h2 : high ≤ n) :
    ∃ i, t.rmq low high = some i ∧ IsFirstMin elems low high i := by
  have hb0 : t.blockSize ≠ 0 := by omega
  have hbpos : 0 < t.blockSize := by omega
  subst harr
  unfold HybridRMQ.rmq
  simp only [hb0, if_false]
  by_cases hsame : (low - low % t.blockSize) / t.blockSize
      = (high - 1 - (high - 1) % t.blockSize) / t.blockSize
  · rw [if_pos hsame]
    exact scan_from_low_first t.array low high h1 (by omega)
  · rw [if_neg hsame]
    by_cases hadj : (high - 1 - (high - 1) % t.blockSize) / t.blockSize
        = (low - low % t.blockSize) / t.blockSize + 1
    · rw [if_pos hadj]
      exact scan_from_low_first t.array low high h1 (by omega)
    · rw [if_neg hadj]
      rw [block_start low, block_start (high - 1), block_start high] at *
      rw [Nat.mul_div_cancel _ hbpos] at hsame hadj
      rw [Nat.mul_div_cancel _ hbpos] at hsame hadj
      have hsucc : (low / t.blockSize + 1) * t.blockSize
          = low / t.blockSize * t.blockSize + t.blockSize := Nat.succ_mul _ _
      rw [← hsucc, Nat.mul_div_cancel _ hbpos, Nat.mul_div_cancel _ hbpos]
      have hmono : low / t.blockSize ≤ (high - 1) / t.blockSize :=
        Nat.div_le_div_right (by omega)
      have hmono2 : (high - 1) / t.blockSize ≤ high / t.blockSize :=
        Nat.div_le_div_right (by omega)
      have hfar : low / t.blockSize + 2 ≤ (high - 1) / t.blockSize := by omega
      have e1 : (low / t.blockSize + 1) * t.blockSize ≤ (high - 1) / t.blockSize * t.blockSize :=
        Nat.mul_le_mul_right _ (by omega)
      have e2 : (high - 1) / t.blockSize * t.blockSize ≤ high - 1 := Nat.div_mul_le_self _ _
      have e3 : high / t.blockSize * t.blockSize ≤ high := Nat.div_mul_le_self _ _
      have e4 : (high - 1) / t.blockSize * t.blockSize ≤ high / t.blockSize * t.blockSize :=
        Nat.mul_le_mul_right _ hmono2
      have e5 : low < (low / t.blockSize + 1) * t.blockSize := by
        have hd := Nat.div_add_mod low t.blockSize
        have hm := Nat.mod_lt low hbpos
        rw [Nat.mul_comm] at hd
        omega
      obtain ⟨s1, hs1, hmin1⟩ := scan_from_low_first t.array low
        ((low / t.blockSize + 1) * t.blockSize) e5 (by omega)
      obtain ⟨s2, hs2, hmin2⟩ := summaryScan_spec_first t.array n t.blockSize t.summary hsum hb low
        (low / t.blockSize + 1) (high / t.blockSize) s1 (by omega) (by omega) e5 hmin1
      obtain ⟨s3, hs3, hmin3⟩ := scan_spec_first t.array low
        ((high - 1) / t.blockSize * t.blockSize) high (high / t.blockSize * t.blockSize) s2
        (by omega) e4 (by omega) (by omega) hmin2
      have hmax : max (high / t.blockSize * t.blockSize) high = high := by omega
      rw [hmax] at hmin3
      exact ⟨s3, by simp only [hs1, hs2, hs3], hmin3⟩

theorem hybridQuery_isFirstMin (elems : List RMQEntry) (low high : Nat)
    (h1 : low < high) (h2 : high ≤ elems.length) :
    ∃ i, hybridQuery elems low high = some i ∧ IsFirstMin elems low high i := by
  obtain ⟨t, ht, harr, hbs, hsum⟩ := hybrid_build_spec_first elems elems.length (by omega)
    (Nat.le_refl _)
  have hb : 1 ≤ t.blockSize := by rw [hbs]; exact roundSqrt_pos _ (by omega)
  rw [← hbs] at hsum
  obtain ⟨i, hi, hmin⟩ := hybrid_rmq_spec_first elems elems.length t harr hb hsum (Nat.le_refl _)
    low high h1 h2
  exact ⟨i, by simp [hybridQuery, ht, hi], hmin⟩

/-! ## The claims on ties -/

/-- C26: for a range `0 ≤ low < high ≤ n` of a sequence of length `n`, the query of a
`SegmentTreeRMQ` returns an index of the range minimum that is the largest such index:
every index of `[low, high)` at which the minimum occurs is at most the returned one. -/
theorem segmentTree_rmq_rightmost (elems : List RMQEntry) (low high : Nat)
    (h1 : low < high) (h2 : high ≤ elems.length) :
    ∃ i, segmentTreeQuery elems low high = some i ∧ IsRangeMin elems low high i ∧
      ∀ j, IsRangeMin elems low high j → j ≤ i := by
  obtain ⟨i, hi, hmin⟩ := segmentTreeQuery_isLastMin elems low high h1 h2
  exact ⟨i, hi, isLastMin_isRangeMin hmin, fun j hj => isLastMin_greatest hmin hj⟩

/-- The rightmost minimum of `[0, 4)` in `[3, 1, 1, 2]`. -/
theorem segmentTree_rmq_rightmost_witness :
    (0 < 4 ∧ 4 ≤ ([3, 1, 1, 2] : List RMQEntry).length) ∧
      ∃ i, segmentTreeQuery [3, 1, 1, 2] 0 4 = some i ∧ IsRangeMin [3, 1, 1, 2] 0 4 i ∧
        ∀ j, IsRangeMin [3, 1, 1, 2] 0 4 j → j ≤ i :=
  ⟨⟨by decide, by decide⟩, segmentTree_rmq_rightmost [3, 1, 1, 2] 0 4 (by decide) (by decide)⟩

/-- For a range `0 ≤ low < high ≤ n` of a sequence of length `n ≤ 2^31`, with or without
duplicates, the queries of `PrecomputedRMQ`, `SparseTableRMQ` and `SegmentTreeRMQ` return
the same index. -/
theorem queries_same_index_bounded (elems : List RMQEntry) (low high : Nat)
    (h31 : elems.length ≤ 2 ^ 31) (h1 : low < high) (h2 : high ≤ elems.length) :
    ∃ i, precomputedQuery elems low high = some i ∧
      sparseTableQuery elems low high = some i ∧
      segmentTreeQuery elems low high = some i := by
  obtain ⟨a, ha, hamin⟩ := precomputedQuery_isLastMin elems low high (by omega) h1 h2
  obtain ⟨b, hb, hbmin⟩ := sparseTableQuery_isLastMin elems low high h1 h2 h31
  obtain ⟨c, hc, hcmin⟩ := segmentTreeQuery_isLastMin elems low high h1 h2
  have hab : b = a :=
    Nat.le_antisymm (isLastMin_greatest hamin (isLastMin_isRangeMin hbmin))
      (isLastMin_greatest hbmin (isLastMin_isRangeMin hamin))
  have hac : c = a :=
    Nat.le_antisymm (isLastMin_greatest hamin (isLastMin_isRangeMin hcmin))
      (isLastMin_greatest hcmin (isLastMin_isRangeMin hamin))
  subst hab hac
  exact ⟨_, ha, hb, hc⟩

/-- C27, a defect of the code: over an array of `2^31 + 1` equal elements and the range
`[0, 2^31 + 1)`, `SegmentTreeRMQ` returns the index `2^31` of the last element, the
rightmost minimum, and `SparseTableRMQ`, whose level `31` is empty, returns no index. -/
theorem queries_index_sparse_fails :
    segmentTreeQuery (List.replicate (2 ^ 31 + 1) (0 : RMQEntry)) 0 (2 ^ 31 + 1) = some (2 ^ 31) ∧
      sparseTableQuery (List.replicate (2 ^ 31 + 1) (0 : RMQEntry)) 0 (2 ^ 31 + 1) = none := by
  obtain ⟨i, hi, hmin⟩ := segmentTreeQuery_isLastMin (List.replicate (2 ^ 31 + 1) (0 : RMQEntry)) 0 (2 ^ 31 + 1) (by omega)
    (by rw [List.length_replicate])
  have hval : ∀ j, j < 2 ^ 31 + 1 → (List.replicate (2 ^ 31 + 1) (0 : RMQEntry))[j]? = some 0 := by
    intro j hj
    rw [List.getElem?_replicate, if_pos hj]
  have hR : IsRangeMin (List.replicate (2 ^ 31 + 1) (0 : RMQEntry)) 0 (2 ^ 31 + 1) (2 ^ 31) :=
    ⟨by omega, by omega, 0, hval _ (by omega), fun j _ hj => ⟨0, hval j hj, le_refl _⟩⟩
  have h1 : 2 ^ 31 ≤ i := isLastMin_greatest hmin hR
  have h2 : i < 2 ^ 31 + 1 := hmin.2.1
  have h3 : i = 2 ^ 31 := by omega
  rw [h3] at hi
  exact ⟨hi, sparseTableQuery_level31 _ 0 (2 ^ 31 + 1) (by rw [List.length_replicate]; omega)
    (by rw [List.length_replicate]; omega) (by omega) (by rw [List.length_replicate])⟩

/-- C28: for a range `0 ≤ low < high ≤ n` of a sequence of length `n`, in each of the
three block cases, the query of a `HybridRMQ` returns an index of the range minimum that
is the smallest such index: every index of `[low, high)` at which the minimum occurs is
at least the returned one. On `[1, 1]` and the range `[0, 2)` it returns `0`. -/
theorem hybrid_rmq_leftmost :
    (∀ (elems : List RMQEntry) (low high : Nat), low < high → high ≤ elems.length →
      ∃ i, hybridQuery elems low high = some i ∧ IsRangeMin elems low high i ∧
        ∀ j, IsRangeMin elems low high j → i ≤ j) ∧
      hybridQuery [1, 1] 0 2 = some 0 := by
  have hall : ∀ (elems : List RMQEntry) (low high : Nat), low < high → high ≤ elems.length →
      ∃ i, hybridQuery elems low high = some i ∧ IsRangeMin elems low high i ∧
        ∀ j, IsRangeMin elems low high j → i ≤ j := by
    intro elems low high h1 h2
    obtain ⟨i, hi, hmin⟩ := hybridQuery_isFirstMin elems low high h1 h2
    exact ⟨i, hi, isFirstMin_isRangeMin hmin, fun j hj => isFirstMin_least hmin hj⟩
  refine ⟨hall, ?_⟩
  obtain ⟨i, hi, _, hleast⟩ := hall [1, 1] 0 2 (by decide) (by decide)
  have h0 : IsRangeMin [1, 1] 0 2 0 := by
    refine ⟨by decide, by decide, 1, rfl, ?_⟩
    intro j _ hj2
    interval_cases j
    · exact ⟨1, rfl, le_refl _⟩
    · exact ⟨1, rfl, le_refl _⟩
  have hi0 : i = 0 := Nat.le_antisymm (hleast 0 h0) (Nat.zero_le _)
  rw [hi0] at hi
  exact hi

/-- The leftmost minimum of `[0, 4)` in `[3, 1, 1, 2]`. -/
theorem hybrid_rmq_leftmost_witness :
    (0 < 4 ∧ 4 ≤ ([3, 1, 1, 2] : List RMQEntry).length) ∧
      ∃ i, hybridQuery [3, 1, 1, 2] 0 4 = some i ∧ IsRangeMin [3, 1, 1, 2] 0 4 i ∧
        ∀ j, IsRangeMin [3, 1, 1, 2] 0 4 j → i ≤ j :=
  ⟨⟨by decide, by decide⟩, hybrid_rmq_leftmost.1 [3, 1, 1, 2] 0 4 (by decide) (by decide)⟩

end RMQ
